import Mathlib

/-!
Verification of the HmSearch index (`hmsearch.hpp`) against its
natural-language specification.

The C++ core is shallowly embedded: machine integers become `Nat` with
explicit `% 2 ^ 64` where 64-bit overflow matters, `std::vector` and the
bit-packed `sdsl::int_vector` become `List Nat` (the logical sequence of
stored symbols), `std::unordered_map` becomes an insertion-ordered
association list (its iteration order is unspecified in C++; the model
fixes insertion order), fatal `exit(1)` paths become `Except`/`Option`
failures, and the unbounded probe loops become fuel-indexed functions
(`none` = the loop is still running after `fuel` steps).
-/

/-- `UINT32_MAX`, the vacant-slot sentinel of `odv_index`. -/
def U32MAX : Nat := 2 ^ 32 - 1

/-- C++ `%` on unsigned integers: undefined (crash) when the divisor is 0.
Used for the probe start `hash % table_size`. -/
def cppMod (a b : Nat) : Option Nat :=
  if b = 0 then none else some (a % b)

/-- Association-list lookup (model of `std::unordered_map::find`). -/
def alookup {α β : Type} [DecidableEq α] : List (α × β) → α → Option β
  | [], _ => none
  | (k, v) :: rest, s => if k = s then some v else alookup rest s

/-- `l[beg .. beg+n)`, the slice read `m_signatures.begin() + sig_beg`
or the id range `[id_beg, id_end)`. -/
def listSlice {α : Type} (l : List α) (beg n : Nat) : List α :=
  (l.drop beg).take n

/-- Bit-scan worker: sums the low bits of `n` over at most `f` halvings. -/
def popcountGo : Nat → Nat → Nat
  | 0, _ => 0
  | f + 1, n => if n = 0 then 0 else n % 2 + popcountGo f (n / 2)

/-- Number of set bits of a 64-bit word; embeds `sdsl::bits::cnt`
(popcount on `uint64_t`, hence 64 halvings suffice). -/
def popcount (n : Nat) : Nat :=
  popcountGo 64 n

/-- Hamming distance of two equal-length sequences (the reference notion
used by the spec and by the brute-force oracle in the drivers). -/
def hamming (x y : List Nat) : Nat :=
  List.countP (fun ab => ab.1 != ab.2) (x.zip y)

/-- `hmsearch::fnv1a_hash` over the signature symbols; `size_t` is 64-bit,
so every step is reduced `% 2 ^ 64`. -/
def fnv1a_hash (key : List Nat) : Nat :=
  key.foldl (fun h x => ((h ^^^ x) * 0x100000001b3) % 2 ^ 64) 0xcbf29ce484222325

/-- `hmsearch::get_proper_buckets`. -/
def get_proper_buckets (range : Nat) : Nat :=
  (range + 3) / 2

/-- Bit-scan worker for the highest set bit over at most `f` halvings. -/
def bitsHiGo : Nat → Nat → Nat
  | 0, _ => 0
  | f + 1, x => if 2 ≤ x then bitsHiGo f (x / 2) + 1 else 0

/-- `sdsl::bits::hi`: index of the highest set bit of a 64-bit word
(0 for input 0). -/
def bits_hi (x : Nat) : Nat :=
  bitsHiGo 64 x

/-- Round the rational `a / b` to the nearest integer, ties to even
(`b > 0`): the rounding IEEE 754 binary32 arithmetic applies. -/
def rne (a b : Nat) : Nat :=
  if 2 * (a % b) < b then a / b
  else if b < 2 * (a % b) then a / b + 1
  else if a / b % 2 = 0 then a / b else a / b + 1

/-- The value of `static_cast<float>(U)`: `U` rounded to 24 significant
bits, nearest-even, for `U < 2 ^ 64` (no overflow in that range). -/
def fl32Nat (U : Nat) : Nat :=
  if U < 2 ^ 24 then U
  else rne U (2 ^ (bits_hi U + 1 - 24)) * 2 ^ (bits_hi U + 1 - 24)

/-- `static_cast<size_t>(signature_map.size() * LOAD_FACTOR)` with
`LOAD_FACTOR` a `float` 1.5: the exact product `3 · float(U) / 2` is
rounded to 24 significant bits (nearest-even) and then truncated toward
zero.  Equal to `3U/2` whenever `3U < 2 ^ 24`, but not in general: the
float rounding can land one above the floor (e.g. `U = 5592409`). -/
def tableSize (U : Nat) : Nat :=
  if 3 * fl32Nat U < 2 ^ 24 then 3 * fl32Nat U / 2
  else rne (3 * fl32Nat U) (2 ^ (bits_hi (3 * fl32Nat U) + 1 - 24)) *
    2 ^ (bits_hi (3 * fl32Nat U) + 1 - 25)

/-- `hmsearch::make_vertical_code`: bit `j` of the result is bit `level`
of `key[j]`, for `j < length`. -/
def make_vertical_code (key : List Nat) (length level : Nat) : Nat :=
  (List.range length).foldl
    (fun code j => code ||| ((((key.getD j 0) >>> level) &&& 1) <<< j)) 0

/-- `odv_index::element_t`. -/
structure Elem where
  sig_pos : Nat
  id_beg : Nat
  id_end : Nat
  deriving DecidableEq

/-- The initial table slot `element_t{UINT32_MAX, 0, 0}` (vacant). -/
def vacantElem : Elem :=
  ⟨U32MAX, 0, 0⟩

/-- `hmsearch::odv_index` (its five data members). -/
structure OdvIndex where
  m_table : List Elem
  m_ids : List Nat
  m_signatures : List Nat
  m_length : Nat
  m_del_marker : Nat
  deriving DecidableEq

/-- A default-constructed `odv_index` (used for out-of-range `getD` reads,
which never happen on the paths we prove about). -/
def defaultOdv : OdvIndex :=
  ⟨[], [], [], 0, 0⟩

/-- `odv_index::make_signature`: copy the first `len` symbols of `key` and
overwrite position `i` with the deletion marker. -/
def make_signature (key : List Nat) (len i del : Nat) : List Nat :=
  (key.take len).set i del

/-- The transient `signature_map`: signature → id list, insertion ordered. -/
abbrev SigMap := List (List Nat × List Nat)

/-- One `signature_map` insertion: append `i` to the signature's id list,
or add a fresh `(sig, {i})` entry. -/
def smInsert : SigMap → List Nat → Nat → SigMap
  | [], s, i => [(s, [i])]
  | (t, l) :: rest, s, i =>
    if t = s then (t, l ++ [i]) :: rest else (t, l) :: smInsert rest s i

/-- The fatal `exit(1)` diagnostics of the build paths. -/
inductive BuildError where
  | unsupportedLength
  | alphabetTooLarge
  | invalidAlphabet
  | tooManySignatures
  deriving DecidableEq

/-- Inner loop of `odv_index::build` for one key: for each position `j`,
check the symbol bound, then insert `make_signature(key, j)` for id `i`. -/
def sigMapAddKey (sm : SigMap) (key : List Nat) (len del i : Nat) :
    Except BuildError SigMap :=
  (List.range len).foldlM (fun sm j =>
    if key.getD j 0 ≥ del then Except.error BuildError.invalidAlphabet
    else Except.ok (smInsert sm (make_signature key len j del) i)) sm

/-- The `signature_map` accumulation loop of `odv_index::build`
(`del` is `alphabet_size`, also used as the symbol bound check). -/
def buildSigMap (keys : List (List Nat)) (len del : Nat) :
    Except BuildError SigMap :=
  keys.enum.foldlM (fun sm ik => sigMapAddKey sm ik.2 len del ik.1) []

/-- The probe advance `++pos; if (pos == table_size) pos = 0;`. -/
def nextPos (table_size pos : Nat) : Nat :=
  if pos + 1 = table_size then 0 else pos + 1

/-- The vacancy probe of the insertion loop in `odv_index::build`:
from `pos`, advance with `nextPos` until a slot with
`sig_pos == UINT32_MAX` is found.  Fuel-indexed; `none` = still looping. -/
def findVacant (table : List Elem) : Nat → Nat → Option Nat
  | _, 0 => none
  | pos, fuel + 1 =>
    if (table.getD pos vacantElem).sig_pos = U32MAX then some pos
    else findVacant table (nextPos table.length pos) fuel

/-- One iteration of the insertion loop of `odv_index::build`: hash the
signature, probe for a vacant slot, write `(sig_beg / m_length, id range)`
and append the signature symbols and the ids.  The `none` fallbacks keep
the state unchanged; both are unreachable for the states `odvBuild`
produces (proved below). -/
def insertSig (st : OdvIndex) (s : List Nat) (idl : List Nat) : OdvIndex :=
  match cppMod (fnv1a_hash s) st.m_table.length with
  | none => st
  | some start =>
    match findVacant st.m_table start st.m_table.length with
    | none => st
    | some p =>
      { st with
        m_table := st.m_table.set p
          ⟨st.m_signatures.length / st.m_length, st.m_ids.length,
            st.m_ids.length + idl.length⟩,
        m_signatures := st.m_signatures ++ s,
        m_ids := st.m_ids ++ idl }

/-- The state of `odv_index::build` right after `m_table.resize(table_size,
element_t{UINT32_MAX, 0, 0})`: `table_size` vacant slots, empty id and
signature stores. -/
def odvInit (table_size length del : Nat) : OdvIndex :=
  { m_table := List.replicate table_size vacantElem
    m_ids := []
    m_signatures := []
    m_length := length
    m_del_marker := del }

/-- The insertion loop of `odv_index::build` over the accumulated
`signature_map`. -/
def insertAll (st : OdvIndex) (sm : SigMap) : OdvIndex :=
  sm.foldl (fun st kv => insertSig st kv.1 kv.2) st

/-- `odv_index::build`.  The capacity is
`static_cast<size_t>(signature_map.size() * LOAD_FACTOR)` with a `float`
LOAD_FACTOR = 1.5, modelled bit-faithfully by `tableSize` (binary32
nearest-even rounding of the conversion and of the product, then
truncation toward zero). -/
def odvBuild (keys : List (List Nat)) (length alphabet_size : Nat) :
    Except BuildError OdvIndex := do
  if alphabet_size = U32MAX then throw BuildError.alphabetTooLarge
  let sm ← buildSigMap keys length alphabet_size
  if sm.length > U32MAX then throw BuildError.tooManySignatures
  pure (insertAll (odvInit (tableSize sm.length) length alphabet_size) sm)

/-- The probe loop of `odv_index::search` for one signature: stop at a
vacant slot (no ids), or at a slot whose stored signature equals `s`
(emit its id range), else advance with wrap-around.  Fuel-indexed;
`none` = the loop is still running after `fuel` iterations. -/
def probeLoop (idx : OdvIndex) (s : List Nat) : Nat → Nat → Option (List Nat)
  | _, 0 => none
  | pos, fuel + 1 =>
    let e := idx.m_table.getD pos vacantElem
    if e.sig_pos = U32MAX then some []
    else if s = listSlice idx.m_signatures (e.sig_pos * idx.m_length) idx.m_length then
      some (listSlice idx.m_ids e.id_beg (e.id_end - e.id_beg))
    else probeLoop idx s (nextPos idx.m_table.length pos) fuel

/-- `odv_index::search`: for each position `j`, probe with
`make_signature(key, j)`; the result is the concatenation of all ids
passed to `fn`.  Probe fuel is the table size: for uncorrupted indexes
every probe stops within that many iterations (proved below). -/
def odvSearch (idx : OdvIndex) (key : List Nat) : Option (List Nat) :=
  (List.range idx.m_length).foldlM (fun out j => do
    let s := make_signature key idx.m_length j idx.m_del_marker
    let start ← cppMod (fnv1a_hash s) idx.m_table.length
    let r ← probeLoop idx s start idx.m_table.length
    pure (out ++ r)) []

/-- `hmsearch::hm_index` (vertical-verification build, the compiled
configuration: `HM_DISABLE_VERT` is not defined). -/
structure HmIndex where
  m_odv_indexes : List OdvIndex
  m_bucket_begs : List Nat
  m_length : Nat
  m_alphabet_size : Nat
  m_buckets : Nat
  m_vertical_keys : List Nat
  m_vertical_levels : Nat
  deriving DecidableEq

/-- The cumulative bucket-begin array of `hm_index::build`:
`bucket_begs[b]` is the running sum of the widths `(length + b') / buckets`
for `b' < b`, with `bucket_begs[buckets]` the final running sum. -/
def bucketBegs (length buckets : Nat) : List Nat :=
  (List.range (buckets + 1)).map
    (fun b => ((List.range b).map (fun b' => (length + b') / buckets)).sum)

/-- The per-bucket `odv_index::build` loop of `hm_index::build`: bucket `b`
indexes the keys shifted by `bucket_begs[b]`, with length
`bucket_begs[b+1] - bucket_begs[b]`. -/
def buildOdvs (keys : List (List Nat)) (begs : List Nat) (alphabet_size : Nat) :
    List Nat → Except BuildError (List OdvIndex)
  | [] => Except.ok []
  | b :: bs => do
    let idx ← odvBuild (keys.map (fun k => k.drop (begs.getD b 0)))
      (begs.getD (b + 1) 0 - begs.getD b 0) alphabet_size
    let rest ← buildOdvs keys begs alphabet_size bs
    pure (idx :: rest)

/-- `hm_index::build` (vertical mode). -/
def hmBuild (keys : List (List Nat)) (length alphabet_size buckets : Nat) :
    Except BuildError HmIndex := do
  if length > 64 then throw BuildError.unsupportedLength
  let begs := bucketBegs length buckets
  let odvs ← buildOdvs keys begs alphabet_size (List.range buckets)
  let levels := bits_hi alphabet_size + 1
  let vkeys := (keys.map (fun k =>
    (List.range levels).map (fun j => make_vertical_code k length j))).flatten
  pure
    { m_odv_indexes := odvs
      m_bucket_begs := begs
      m_length := length
      m_alphabet_size := alphabet_size
      m_buckets := buckets
      m_vertical_keys := vkeys
      m_vertical_levels := levels }

/-- The `match_map` update closure passed to `odv_index::search` by
`hm_index::search`: insert the id with count 1 or increment its count. -/
def mmAdd : List (Nat × Nat) → Nat → List (Nat × Nat)
  | [], id => [(id, 1)]
  | (k, c) :: rest, id =>
    if k = id then (k, c + 1) :: rest else (k, c) :: mmAdd rest id

/-- The per-bucket `match_map` accumulated from the ids the ODV probe
emits (in emission order). -/
def buildMatchMap (emits : List Nat) : List (Nat × Nat) :=
  emits.foldl mmAdd []

/-- The folded contribution `kv.second > 2 ? 0 : 1` of one bucket. -/
def candCode (count : Nat) : Nat :=
  if count > 2 then 0 else 1

/-- The `cand_map` update of `hm_index::search`: append the bucket's code
to the candidate's list, or create the singleton list. -/
def cmAdd : List (Nat × List Nat) → Nat → Nat → List (Nat × List Nat)
  | [], id, c => [(id, [candCode c])]
  | (k, v) :: rest, id, c =>
    if k = id then (k, v ++ [candCode c]) :: rest
    else (k, v) :: cmAdd rest id c

/-- Folding one bucket's `match_map` into the `cand_map`
(iteration in the model's insertion order). -/
def foldCand (cm : List (Nat × List Nat)) (mm : List (Nat × Nat)) :
    List (Nat × List Nat) :=
  mm.foldl (fun cm kv => cmAdd cm kv.1 kv.2) cm

/-- The enhanced filter of `hm_index::search` (`true` = drop the
candidate before verification).  Out-of-range vector reads (possible in
the C++ only for an empty list, which never occurs) read the `getD`
default 0. -/
def enhancedFilter (hamming_range : Nat) (range_vec : List Nat) : Bool :=
  if hamming_range % 2 = 0 then
    if range_vec.length < 2 then range_vec.getD 0 0 == 1 else false
  else
    if range_vec.length < 3 then
      range_vec.length == 1 || (range_vec.getD 0 0 == 1 && range_vec.getD 1 0 == 1)
    else false

/-- The vertical verification loop of `hm_index::search`: OR the per-level
XOR differences into `cumdiff`, recompute `hammina_dist` as its popcount,
and break as soon as it exceeds the range.  Returns the final
`hammina_dist`. -/
def verifyGo (vk vq : List Nat) (beg hamming_range : Nat) :
    List Nat → Nat → Nat → Nat
  | [], _, dist => dist
  | j :: js, cumdiff, _dist =>
    let diff := (vk.getD (beg + j) 0) ^^^ (vq.getD j 0)
    let cum := cumdiff ||| diff
    let d := popcount cum
    if d > hamming_range then d else verifyGo vk vq beg hamming_range js cum d

/-- The `vertical_query` buffer computed by `hm_index::search`. -/
def vertQuery (idx : HmIndex) (query : List Nat) : List Nat :=
  (List.range idx.m_vertical_levels).map
    (fun j => make_vertical_code query idx.m_length j)

/-- The verification distance of one candidate in `hm_index::search`: the
`verifyGo` loop started at the candidate's block of `m_vertical_keys`. -/
def verifyDist (idx : HmIndex) (vq : List Nat) (cand_id hamming_range : Nat) : Nat :=
  verifyGo idx.m_vertical_keys vq (cand_id * idx.m_vertical_levels)
    hamming_range (List.range idx.m_vertical_levels) 0 0

/-- The per-bucket ODV probe of `hm_index::search`: the ids bucket `b`
emits for the query slice starting at `bucket_begs[b]`. -/
def bucketEmits (idx : HmIndex) (query : List Nat) (b : Nat) : Option (List Nat) :=
  odvSearch (idx.m_odv_indexes.getD b defaultOdv)
    (query.drop (idx.m_bucket_begs.getD b 0))

/-- `hm_index::search`.  The first component of the result is the list of
ids passed to the sink `fn`, in emission order.  The second component
models the candidates-reached-verification counter whose value the driver
accumulates (`sum_candidates += index->search(...)`); the header in `src`
declares `search` as `void`, so the counter itself is
modelled from the spec: "Returns the number of candidates that reached
verification".  `none` models the fatal radius-mismatch `exit(1)` and the
undefined behaviour of probing an empty table. -/
def hmSearch (idx : HmIndex) (query : List Nat) (hamming_range : Nat) :
    Option (List Nat × Nat) :=
  if idx.m_buckets ≠ get_proper_buckets hamming_range then none
  else do
    let cand ← (List.range idx.m_buckets).foldlM (fun cm b => do
      let emits ← bucketEmits idx query b
      pure (foldCand cm (buildMatchMap emits))) ([] : List (Nat × List Nat))
    let vq := vertQuery idx query
    pure (cand.foldl (fun acc kv =>
      if enhancedFilter hamming_range kv.2 then acc
      else
        let d := verifyDist idx vq kv.1 hamming_range
        (if d ≤ hamming_range then acc.1 ++ [kv.1] else acc.1, acc.2 + 1))
      (([], 0) : List Nat × Nat))

/-- Little-endian fixed-width byte encoding (`w` bytes). -/
def encLE (w v : Nat) : List Nat :=
  (List.range w).map (fun k => v / 256 ^ k % 256)

/-- Read `w` little-endian bytes; `none` when the stream is too short. -/
def readLE (w : Nat) (bytes : List Nat) : Option (Nat × List Nat) :=
  if w ≤ bytes.length then
    some (((bytes.take w).enum.map (fun kb => kb.2 * 256 ^ kb.1)).sum, bytes.drop w)
  else none

/-- Read `n` records with the record reader `rd`. -/
def readN {α : Type} (rd : List Nat → Option (α × List Nat)) :
    Nat → List Nat → Option (List α × List Nat)
  | 0, bytes => some ([], bytes)
  | n + 1, bytes => do
    let (v, rest) ← rd bytes
    let (vs, rest2) ← readN rd n rest
    pure (v :: vs, rest2)

/-- Byte encoding of one `element_t` (three packed `uint32_t`). -/
def encElem (e : Elem) : List Nat :=
  encLE 4 e.sig_pos ++ encLE 4 e.id_beg ++ encLE 4 e.id_end

/-- Read one `element_t`. -/
def readElem (bytes : List Nat) : Option (Elem × List Nat) := do
  let (sp, r1) ← readLE 4 bytes
  let (ib, r2) ← readLE 4 r1
  let (ie, r3) ← readLE 4 r2
  pure (⟨sp, ib, ie⟩, r3)

/-- A length-prefixed vector (`sdsl::serialize` of a vector: element count,
then the elements), with `ew`-byte elements encoded by `enc1`. -/
def encVec {α : Type} (enc1 : α → List Nat) (l : List α) : List Nat :=
  encLE 8 l.length ++ (l.map enc1).flatten

/-- Read a length-prefixed vector. -/
def readVec {α : Type} (rd : List Nat → Option (α × List Nat))
    (bytes : List Nat) : Option (List α × List Nat) := do
  let (n, rest) ← readLE 8 bytes
  readN rd n rest

/-- `odv_index::serialize`: `m_table`, `m_ids`, `m_signatures`,
`m_length`, `m_del_marker`, in that order.  The containers are modelled by
their logical contents (the bit-packing of `sdsl::int_vector` is library
internals), with `m_signatures` symbols as 8-byte words. -/
def odvSerialize (idx : OdvIndex) : List Nat :=
  encVec encElem idx.m_table ++ encVec (encLE 4) idx.m_ids ++
    encVec (encLE 8) idx.m_signatures ++ encLE 4 idx.m_length ++
    encLE 4 idx.m_del_marker

/-- `odv_index::load`: read the five members back in the same order. -/
def odvLoad (bytes : List Nat) : Option (OdvIndex × List Nat) := do
  let (tab, r1) ← readVec readElem bytes
  let (ids, r2) ← readVec (readLE 4) r1
  let (sigs, r3) ← readVec (readLE 8) r2
  let (len, r4) ← readLE 4 r3
  let (del, r5) ← readLE 4 r4
  pure (⟨tab, ids, sigs, len, del⟩, r5)

/-- `hm_index::serialize` (vertical mode): `m_odv_indexes`,
`m_bucket_begs`, `m_length`, `m_alphabet_size`, `m_buckets`,
`m_vertical_keys`, `m_vertical_levels`, in that order. -/
def hmSerialize (idx : HmIndex) : List Nat :=
  encVec odvSerialize idx.m_odv_indexes ++ encVec (encLE 4) idx.m_bucket_begs ++
    encLE 4 idx.m_length ++ encLE 4 idx.m_alphabet_size ++
    encLE 4 idx.m_buckets ++ encVec (encLE 8) idx.m_vertical_keys ++
    encLE 4 idx.m_vertical_levels

/-- `hm_index::load` (vertical mode). -/
def hmLoad (bytes : List Nat) : Option HmIndex := do
  let (odvs, r1) ← readVec (fun b => odvLoad b) bytes
  let (begs, r2) ← readVec (readLE 4) r1
  let (len, r3) ← readLE 4 r2
  let (asz, r4) ← readLE 4 r3
  let (bk, r5) ← readLE 4 r4
  let (vk, r6) ← readVec (readLE 8) r5
  let (vl, _r7) ← readLE 4 r6
  pure ⟨odvs, begs, len, asz, bk, vk, vl⟩

/-- Values an `odv_index` may hold so its members fit their serialized
widths (`uint32_t` members and table entries, 64-bit packed symbols). -/
def odvSerWF (idx : OdvIndex) : Bool :=
  idx.m_table.all (fun e =>
    decide (e.sig_pos < 2 ^ 32) && decide (e.id_beg < 2 ^ 32) &&
      decide (e.id_end < 2 ^ 32)) &&
  idx.m_ids.all (fun v => decide (v < 2 ^ 32)) &&
  idx.m_signatures.all (fun v => decide (v < 2 ^ 64)) &&
  decide (idx.m_length < 2 ^ 32) && decide (idx.m_del_marker < 2 ^ 32) &&
  decide (idx.m_table.length < 2 ^ 64) && decide (idx.m_ids.length < 2 ^ 64) &&
  decide (idx.m_signatures.length < 2 ^ 64)

/-- Values an `hm_index` may hold so its members fit their serialized
widths. -/
def hmSerWF (idx : HmIndex) : Bool :=
  idx.m_odv_indexes.all odvSerWF &&
  idx.m_bucket_begs.all (fun v => decide (v < 2 ^ 32)) &&
  decide (idx.m_length < 2 ^ 32) && decide (idx.m_alphabet_size < 2 ^ 32) &&
  decide (idx.m_buckets < 2 ^ 32) &&
  idx.m_vertical_keys.all (fun v => decide (v < 2 ^ 64)) &&
  decide (idx.m_vertical_levels < 2 ^ 32) &&
  decide (idx.m_odv_indexes.length < 2 ^ 64) &&
  decide (idx.m_bucket_begs.length < 2 ^ 64) &&
  decide (idx.m_vertical_keys.length < 2 ^ 64)

/-! ## Basic helper lemmas -/

theorem except_bind_ok {ε α β : Type} {x : Except ε α} {f : α → Except ε β} {b : β} :
    (x >>= f) = Except.ok b ↔ ∃ a, x = Except.ok a ∧ f a = Except.ok b := by
  cases x <;> simp [Bind.bind, Except.bind]

theorem getD_map_range {α : Type} (f : Nat → α) {n b : Nat} (d : α) (h : b < n) :
    ((List.range n).map f).getD b d = f b := by
  rw [List.getD_eq_getElem?_getD, List.getElem?_map, List.getElem?_range h]
  rfl

theorem listsum_eq_finsum (f : Nat → Nat) (n : Nat) :
    ((List.range n).map f).sum = ∑ b ∈ Finset.range n, f b := by
  induction n with
  | zero => simp
  | succ m ih => simp [List.range_succ, Finset.sum_range_succ, ih]

theorem filter_le_range (B m : Nat) :
    Finset.filter (fun b => m ≤ b) (Finset.range B) =
      Finset.range B \ Finset.range m := by
  ext x
  simp only [Finset.mem_filter, Finset.mem_sdiff, Finset.mem_range]
  omega

/-! ## Bounds for the float table-size computation -/

theorem bitsHiGo_lt : ∀ (f x : Nat), x < 2 ^ f → x < 2 ^ (bitsHiGo f x + 1) := by
  intro f
  induction f with
  | zero =>
    intro x hx
    have hx0 : x = 0 := by
      have h1 : (2 : Nat) ^ 0 = 1 := rfl
      omega
    subst hx0
    show (0 : Nat) < 2 ^ (bitsHiGo 0 0 + 1)
    norm_num
  | succ f ih =>
    intro x hx
    show x < 2 ^ ((if 2 ≤ x then bitsHiGo f (x / 2) + 1 else 0) + 1)
    by_cases h2 : 2 ≤ x
    · rw [if_pos h2]
      have hdiv : x / 2 < 2 ^ f := by
        rw [pow_succ] at hx
        omega
      have hrec := ih (x / 2) hdiv
      rw [pow_succ]
      omega
    · rw [if_neg h2]
      simp only [Nat.zero_add, pow_one]
      omega

theorem bits_hi_lt {x : Nat} (h : x < 2 ^ 64) : x < 2 ^ (bits_hi x + 1) :=
  bitsHiGo_lt 64 x h

theorem bitsHiGo_ge : ∀ (f x : Nat), 1 ≤ x → 2 ^ bitsHiGo f x ≤ x := by
  intro f
  induction f with
  | zero =>
    intro x h1
    show 2 ^ bitsHiGo 0 x ≤ x
    have h0 : bitsHiGo 0 x = 0 := rfl
    rw [h0]
    simpa using h1
  | succ f ih =>
    intro x h1
    show 2 ^ (if 2 ≤ x then bitsHiGo f (x / 2) + 1 else 0) ≤ x
    by_cases hx : 2 ≤ x
    · rw [if_pos hx]
      have hrec := ih (x / 2) (by omega)
      rw [pow_succ]
      omega
    · rw [if_neg hx]
      simpa using h1

theorem bits_hi_ge {x : Nat} (h : 1 ≤ x) : 2 ^ bits_hi x ≤ x :=
  bitsHiGo_ge 64 x h

theorem rne_bounds {a b : Nat} (hb : 0 < b) :
    2 * a ≤ 2 * (b * rne a b) + b ∧ 2 * (b * rne a b) ≤ 2 * a + b := by
  have hdm : b * (a / b) + a % b = a := Nat.div_add_mod a b
  have hr : a % b < b := Nat.mod_lt _ hb
  obtain ⟨X, hX⟩ : ∃ X, b * (a / b) = X := ⟨_, rfl⟩
  have hmul : b * (a / b + 1) = X + b := by
    rw [← hX]
    ring
  rw [hX] at hdm
  rw [rne]
  by_cases h1 : 2 * (a % b) < b
  · rw [if_pos h1, hX]
    omega
  · rw [if_neg h1]
    by_cases h2 : b < 2 * (a % b)
    · rw [if_pos h2, hmul]
      omega
    · rw [if_neg h2]
      by_cases h3 : a / b % 2 = 0
      · rw [if_pos h3, hX]
        omega
      · rw [if_neg h3, hmul]
        omega

theorem fl32Nat_exact {U : Nat} (h : U < 2 ^ 24) : fl32Nat U = U := by
  rw [fl32Nat, if_pos h]

theorem fl32_le {U : Nat} (h : U < 2 ^ 32) :
    2 * U ≤ 2 * fl32Nat U + 2 ^ 8 ∧ 2 * fl32Nat U ≤ 2 * U + 2 ^ 8 := by
  by_cases h24 : U < 2 ^ 24
  · rw [fl32Nat_exact h24]
    omega
  · rw [fl32Nat, if_neg h24]
    have hge : 2 ^ bits_hi U ≤ U := bits_hi_ge (by omega)
    have hlt : U < 2 ^ (bits_hi U + 1) := bits_hi_lt (by omega)
    have hhi : bits_hi U ≤ 31 := by
      by_contra hc
      push_neg at hc
      have hmono : (2 : Nat) ^ 32 ≤ 2 ^ bits_hi U :=
        Nat.pow_le_pow_right (by norm_num) (by omega)
      omega
    have hhi2 : 24 ≤ bits_hi U := by
      by_contra hc
      push_neg at hc
      have hmono : (2 : Nat) ^ (bits_hi U + 1) ≤ 2 ^ 24 :=
        Nat.pow_le_pow_right (by norm_num) (by omega)
      omega
    have hble : (2 : Nat) ^ (bits_hi U + 1 - 24) ≤ 2 ^ 8 :=
      Nat.pow_le_pow_right (by norm_num) (by omega)
    have hbpos : 0 < (2 : Nat) ^ (bits_hi U + 1 - 24) :=
      Nat.pos_pow_of_pos _ (by norm_num)
    have hrb := rne_bounds (a := U) hbpos
    obtain ⟨P, hP⟩ : ∃ P, (2 : Nat) ^ (bits_hi U + 1 - 24) *
        rne U (2 ^ (bits_hi U + 1 - 24)) = P := ⟨_, rfl⟩
    have hcomm : rne U (2 ^ (bits_hi U + 1 - 24)) * 2 ^ (bits_hi U + 1 - 24) =
        P := by
      rw [← hP]
      ring
    rw [hcomm]
    rw [hP] at hrb
    omega

theorem tableSize_exact {U : Nat} (h : 3 * U < 2 ^ 24) :
    tableSize U = 3 * U / 2 := by
  have hU : U < 2 ^ 24 := by omega
  rw [tableSize, fl32Nat_exact hU, if_pos h]

theorem tableSize_gt {U : Nat} (h2 : 2 ≤ U) (hle : U ≤ U32MAX) :
    U < tableSize U := by
  have h32 : U < 2 ^ 32 := by
    rw [U32MAX] at hle
    omega
  have hfl := fl32_le h32
  rw [tableSize]
  by_cases hN : 3 * fl32Nat U < 2 ^ 24
  · rw [if_pos hN]
    by_cases hU24 : U < 2 ^ 24
    · rw [fl32Nat_exact hU24] at hN ⊢
      omega
    · exfalso
      omega
  · rw [if_neg hN]
    push_neg at hN
    have hNub : 3 * fl32Nat U < 2 ^ 34 := by omega
    have hNpos : 1 ≤ 3 * fl32Nat U := by omega
    have hge := bits_hi_ge hNpos
    have hlt := bits_hi_lt (x := 3 * fl32Nat U) (by omega)
    have hhiub : bits_hi (3 * fl32Nat U) ≤ 33 := by
      by_contra hc
      push_neg at hc
      have hmono : (2 : Nat) ^ 34 ≤ 2 ^ bits_hi (3 * fl32Nat U) :=
        Nat.pow_le_pow_right (by norm_num) (by omega)
      omega
    have hhilb : 24 ≤ bits_hi (3 * fl32Nat U) := by
      by_contra hc
      push_neg at hc
      have hmono : (2 : Nat) ^ (bits_hi (3 * fl32Nat U) + 1) ≤ 2 ^ 24 :=
        Nat.pow_le_pow_right (by norm_num) (by omega)
      omega
    have hble : (2 : Nat) ^ (bits_hi (3 * fl32Nat U) + 1 - 24) ≤ 2 ^ 10 :=
      Nat.pow_le_pow_right (by norm_num) (by omega)
    have hbpos : 0 < (2 : Nat) ^ (bits_hi (3 * fl32Nat U) + 1 - 24) :=
      Nat.pos_pow_of_pos _ (by norm_num)
    have hrb := rne_bounds (a := 3 * fl32Nat U) hbpos
    have hbsplit : (2 : Nat) ^ (bits_hi (3 * fl32Nat U) + 1 - 24) =
        2 ^ (bits_hi (3 * fl32Nat U) + 1 - 25) * 2 := by
      rw [← pow_succ]
      congr 1
      omega
    obtain ⟨q, hq⟩ : ∃ q, rne (3 * fl32Nat U)
        (2 ^ (bits_hi (3 * fl32Nat U) + 1 - 24)) = q := ⟨_, rfl⟩
    obtain ⟨hh, hhh⟩ : ∃ hh, (2 : Nat) ^ (bits_hi (3 * fl32Nat U) + 1 - 25) =
        hh := ⟨_, rfl⟩
    obtain ⟨P, hP⟩ : ∃ P, hh * q = P := ⟨_, rfl⟩
    have hassoc : hh * 2 * q = 2 * P := by
      rw [← hP]
      ring
    have hgoal : q * hh = P := by
      rw [← hP]
      ring
    rw [hq, hhh, hgoal]
    rw [hq] at hrb
    rw [hbsplit, hhh] at hrb hble
    rw [hassoc] at hrb
    omega

theorem tableSize_pos {U : Nat} (h1 : 1 ≤ U) (hle : U ≤ U32MAX) :
    0 < tableSize U := by
  by_cases h2 : 2 ≤ U
  · have hgt := tableSize_gt h2 hle
    omega
  · have hU1 : U = 1 := by omega
    subst hU1
    decide

theorem tableSize_ge_self {U : Nat} (hle : U ≤ U32MAX) : U ≤ tableSize U := by
  by_cases h2 : 2 ≤ U
  · exact le_of_lt (tableSize_gt h2 hle)
  · have hU01 : U = 0 ∨ U = 1 := by omega
    rcases hU01 with rfl | rfl <;> decide

/-- The balanced-split identity behind the bucket planner: the widths
`(L + b) / B` over `b < B` sum to `L`. -/
theorem sum_widths (L B : Nat) (hB : 0 < B) :
    ((List.range B).map (fun b => (L + b) / B)).sum = L := by
  rw [listsum_eq_finsum]
  have hterm : ∀ b, (L + b) / B = L / B + (L % B + b) / B := by
    intro b
    conv_lhs => rw [← Nat.div_add_mod L B]
    rw [Nat.add_assoc, Nat.add_comm (B * (L / B)), Nat.add_mul_div_left _ _ hB,
      Nat.add_comm]
  have hsmall : ∀ b < B, (L % B + b) / B = if B ≤ L % B + b then 1 else 0 := by
    intro b hb
    have hmod : L % B < B := Nat.mod_lt _ hB
    split
    · exact Nat.div_eq_of_lt_le (by omega) (by omega)
    · exact Nat.div_eq_of_lt (by omega)
  calc ∑ b ∈ Finset.range B, (L + b) / B
      = ∑ b ∈ Finset.range B, (L / B + (L % B + b) / B) := by
        exact Finset.sum_congr rfl (fun b _ => hterm b)
    _ = B * (L / B) + ∑ b ∈ Finset.range B, (L % B + b) / B := by
        rw [Finset.sum_add_distrib, Finset.sum_const, Finset.card_range]
        simp [smul_eq_mul]
    _ = B * (L / B) + L % B := by
        congr 1
        calc ∑ b ∈ Finset.range B, (L % B + b) / B
            = ∑ b ∈ Finset.range B, if B ≤ L % B + b then 1 else 0 := by
              exact Finset.sum_congr rfl
                (fun b hb => hsmall b (Finset.mem_range.mp hb))
          _ = (Finset.filter (fun b => B ≤ L % B + b) (Finset.range B)).card := by
              rw [Finset.sum_boole]
              simp
          _ = (Finset.filter (fun b => B - L % B ≤ b) (Finset.range B)).card := by
              congr 1
              apply Finset.filter_congr
              intro x hx
              simp only [Finset.mem_range] at hx
              omega
          _ = L % B := by
              rw [filter_le_range, Finset.card_sdiff
                (Finset.range_subset.mpr (by omega)), Finset.card_range,
                Finset.card_range]
              have := Nat.mod_lt L hB
              omega
    _ = L := Nat.div_add_mod L B

/-! ## Bucket partition -/

theorem bucketBegs_getD (L B b : Nat) (hb : b ≤ B) :
    (bucketBegs L B).getD b 0 = ((List.range b).map (fun x => (L + x) / B)).sum :=
  getD_map_range _ 0 (by omega)

theorem bucketBegs_succ (L B b : Nat) (hb : b < B) :
    (bucketBegs L B).getD (b + 1) 0 = (bucketBegs L B).getD b 0 + (L + b) / B := by
  rw [bucketBegs_getD L B (b + 1) (by omega), bucketBegs_getD L B b (by omega),
    List.range_succ, List.map_append, List.sum_append]
  simp

theorem bucketBegs_zero (L B : Nat) : (bucketBegs L B).getD 0 0 = 0 := by
  rw [bucketBegs_getD L B 0 (Nat.zero_le B)]
  simp

theorem bucketBegs_last (L B : Nat) (hB : 0 < B) :
    (bucketBegs L B).getD B 0 = L := by
  rw [bucketBegs_getD L B B le_rfl]
  exact sum_widths L B hB

theorem bucketBegs_width (L B b : Nat) (hb : b < B) :
    (bucketBegs L B).getD (b + 1) 0 - (bucketBegs L B).getD b 0 = (L + b) / B := by
  rw [bucketBegs_succ L B b hb]
  exact Nat.add_sub_cancel_left _ _

theorem bucketBegs_le_length (L B : Nat) : (bucketBegs L B).length = B + 1 := by
  simp [bucketBegs]

/-! ## Destructuring the builds -/

theorem odvBuild_ok {keys : List (List Nat)} {len σ : Nat} {idx : OdvIndex}
    (h : odvBuild keys len σ = Except.ok idx) :
    σ ≠ U32MAX ∧ ∃ sm, buildSigMap keys len σ = Except.ok sm ∧
      sm.length ≤ U32MAX ∧ idx = insertAll (odvInit (tableSize sm.length) len σ) sm := by
  by_cases hσ : σ = U32MAX
  · simp [odvBuild, hσ, throw, throwThe, MonadExceptOf.throw, Bind.bind, Except.bind] at h
  · refine ⟨hσ, ?_⟩
    cases hsm : buildSigMap keys len σ with
    | error e =>
      simp [odvBuild, hσ, hsm, throw, throwThe, MonadExceptOf.throw,
        Bind.bind, Except.bind, pure, Except.pure] at h
    | ok sm =>
      by_cases hbig : sm.length > U32MAX
      · simp [odvBuild, hσ, hsm, hbig, throw, throwThe, MonadExceptOf.throw,
          Bind.bind, Except.bind, pure, Except.pure] at h
      · refine ⟨sm, rfl, by omega, ?_⟩
        simp [odvBuild, hσ, hsm, hbig, throw, throwThe, MonadExceptOf.throw,
          Bind.bind, Except.bind, pure, Except.pure] at h
        exact h.symm

theorem hmBuild_ok {keys : List (List Nat)} {L σ B : Nat} {idx : HmIndex}
    (h : hmBuild keys L σ B = Except.ok idx) :
    L ≤ 64 ∧ ∃ odvs, buildOdvs keys (bucketBegs L B) σ (List.range B) = Except.ok odvs ∧
      idx = ⟨odvs, bucketBegs L B, L, σ, B,
        (keys.map (fun k => (List.range (bits_hi σ + 1)).map
          (fun j => make_vertical_code k L j))).flatten, bits_hi σ + 1⟩ := by
  by_cases hL : L > 64
  · simp [hmBuild, hL, throw, throwThe, MonadExceptOf.throw, Bind.bind, Except.bind] at h
  · refine ⟨by omega, ?_⟩
    cases hodvs : buildOdvs keys (bucketBegs L B) σ (List.range B) with
    | error e =>
      simp [hmBuild, hL, hodvs, throw, throwThe, MonadExceptOf.throw,
        Bind.bind, Except.bind, pure, Except.pure] at h
    | ok odvs =>
      refine ⟨odvs, rfl, ?_⟩
      simp [hmBuild, hL, hodvs, throw, throwThe, MonadExceptOf.throw,
        Bind.bind, Except.bind, pure, Except.pure] at h
      exact h.symm

theorem buildOdvs_ok {keys : List (List Nat)} {begs : List Nat} {σ : Nat}
    {bs : List Nat} {odvs : List OdvIndex}
    (h : buildOdvs keys begs σ bs = Except.ok odvs) :
    odvs.length = bs.length ∧ ∀ n < bs.length,
      odvBuild (keys.map (fun k => k.drop (begs.getD (bs.getD n 0) 0)))
        (begs.getD (bs.getD n 0 + 1) 0 - begs.getD (bs.getD n 0) 0) σ =
        Except.ok (odvs.getD n defaultOdv) := by
  induction bs generalizing odvs with
  | nil =>
    simp [buildOdvs] at h
    subst h
    simp
  | cons b bs ih =>
    rw [buildOdvs, except_bind_ok] at h
    obtain ⟨o, ho, h⟩ := h
    rw [except_bind_ok] at h
    obtain ⟨rest, hrest, h⟩ := h
    simp only [pure, Except.pure, Except.ok.injEq] at h
    subst h
    obtain ⟨hlen, hall⟩ := ih hrest
    refine ⟨by simp [hlen], ?_⟩
    intro n hn
    cases n with
    | zero => simpa using ho
    | succ m =>
      simp only [List.length_cons] at hn
      simpa using hall m (by omega)

/-! ## Preservation facts of the insertion loop -/

theorem insertSig_table_length (st : OdvIndex) (s idl : List Nat) :
    (insertSig st s idl).m_table.length = st.m_table.length := by
  unfold insertSig
  split
  · rfl
  · split
    · rfl
    · simp

theorem insertSig_m_length (st : OdvIndex) (s idl : List Nat) :
    (insertSig st s idl).m_length = st.m_length := by
  unfold insertSig
  split
  · rfl
  · split
    · rfl
    · rfl

theorem insertSig_m_del_marker (st : OdvIndex) (s idl : List Nat) :
    (insertSig st s idl).m_del_marker = st.m_del_marker := by
  unfold insertSig
  split
  · rfl
  · split
    · rfl
    · rfl

theorem insertAll_table_length (sm : SigMap) (st : OdvIndex) :
    (insertAll st sm).m_table.length = st.m_table.length := by
  induction sm generalizing st with
  | nil => rfl
  | cons kv rest ih =>
    show (insertAll (insertSig st kv.1 kv.2) rest).m_table.length = _
    rw [ih, insertSig_table_length]

theorem insertAll_m_length (sm : SigMap) (st : OdvIndex) :
    (insertAll st sm).m_length = st.m_length := by
  induction sm generalizing st with
  | nil => rfl
  | cons kv rest ih =>
    show (insertAll (insertSig st kv.1 kv.2) rest).m_length = _
    rw [ih, insertSig_m_length]

theorem insertAll_m_del_marker (sm : SigMap) (st : OdvIndex) :
    (insertAll st sm).m_del_marker = st.m_del_marker := by
  induction sm generalizing st with
  | nil => rfl
  | cons kv rest ih =>
    show (insertAll (insertSig st kv.1 kv.2) rest).m_del_marker = _
    rw [ih, insertSig_m_del_marker]

/-! ## Error characterization of the builds -/

theorem foldlM_invalid {α β : Type} {f : β → α → Except BuildError β}
    (hf : ∀ b x e', f b x = Except.error e' → e' = BuildError.invalidAlphabet) :
    ∀ {l : List α} {b : β} {e : BuildError},
    l.foldlM f b = Except.error e → e = BuildError.invalidAlphabet := by
  intro l
  induction l with
  | nil => intro b e h; simp [List.foldlM_nil, pure, Except.pure] at h
  | cons x xs ih =>
    intro b e h
    rw [List.foldlM_cons] at h
    cases hfx : f b x with
    | error e' =>
      rw [hfx] at h
      simp [Bind.bind, Except.bind] at h
      subst h
      exact hf b x e' hfx
    | ok b' =>
      rw [hfx] at h
      simp only [Bind.bind, Except.bind] at h
      exact ih h

theorem sigMapAddKey_error {sm : SigMap} {key : List Nat} {len del i : Nat}
    {e : BuildError} (h : sigMapAddKey sm key len del i = Except.error e) :
    e = BuildError.invalidAlphabet := by
  refine foldlM_invalid ?_ h
  intro b x e' hx
  split at hx
  · injection hx with h2
    exact h2.symm
  · exact absurd hx (by simp)

theorem buildSigMap_error {keys : List (List Nat)} {len del : Nat}
    {e : BuildError} (h : buildSigMap keys len del = Except.error e) :
    e = BuildError.invalidAlphabet := by
  refine foldlM_invalid ?_ h
  intro b x e' hx
  exact sigMapAddKey_error hx

/-- The only `exit` an `odv_index::build` reaches because of the alphabet
size itself is the `alphabet_size == UINT32_MAX` check, and it fires
exactly when `σ = 2³² − 1`. -/
theorem odvBuild_alphabet_error_iff (keys : List (List Nat)) (len σ : Nat) :
    odvBuild keys len σ = Except.error BuildError.alphabetTooLarge ↔ σ = U32MAX := by
  constructor
  · intro h
    by_contra hσ
    cases hsm : buildSigMap keys len σ with
    | error e =>
      simp [odvBuild, hσ, hsm, throw, throwThe, MonadExceptOf.throw,
        Bind.bind, Except.bind, pure, Except.pure] at h
      have := buildSigMap_error hsm
      rw [this] at h
      exact absurd h.symm (by simp)
    | ok sm =>
      by_cases hbig : sm.length > U32MAX <;>
        simp [odvBuild, hσ, hsm, hbig, throw, throwThe, MonadExceptOf.throw,
          Bind.bind, Except.bind, pure, Except.pure] at h
  · intro h
    simp [odvBuild, h, throw, throwThe, MonadExceptOf.throw,
      Bind.bind, Except.bind, pure, Except.pure]

theorem except_bind_error {ε α β : Type} {x : Except ε α} {f : α → Except ε β} {e : ε} :
    (x >>= f) = Except.error e ↔
      x = Except.error e ∨ ∃ a, x = Except.ok a ∧ f a = Except.error e := by
  cases x <;> simp [Bind.bind, Except.bind]

theorem buildOdvs_alphabet_error_iff (keys : List (List Nat)) (begs : List Nat)
    (σ : Nat) (bs : List Nat) (hbs : bs ≠ []) :
    buildOdvs keys begs σ bs = Except.error BuildError.alphabetTooLarge ↔
      σ = U32MAX := by
  induction bs with
  | nil => exact absurd rfl hbs
  | cons b rest ih =>
    constructor
    · intro h
      rw [buildOdvs, except_bind_error] at h
      rcases h with h | ⟨o, ho, h⟩
      · exact (odvBuild_alphabet_error_iff _ _ _).mp h
      · rw [except_bind_error] at h
        rcases h with h | ⟨rs, hrs, h⟩
        · by_cases hrest : rest = []
          · subst hrest
            simp [buildOdvs] at h
          · exact (ih hrest).mp h
        · simp [pure, Except.pure] at h
    · intro h
      rw [buildOdvs, except_bind_error]
      exact Or.inl ((odvBuild_alphabet_error_iff _ _ _).mpr h)

/-- Claim C5 (amended): `hm_index::build` fails with the
alphabet-too-large diagnostic exactly when `σ = 2³² − 1` (given `L ≤ 64`
and at least one bucket); there is no rejection of `σ ≤ 1`. -/
theorem C5_alphabet_check (keys : List (List Nat)) (L σ B : Nat) (hB : 1 ≤ B) :
    hmBuild keys L σ B = Except.error BuildError.alphabetTooLarge ↔
      (L ≤ 64 ∧ σ = U32MAX) := by
  have hrange : List.range B ≠ [] := by
    intro hc
    rw [List.range_eq_nil] at hc
    omega
  by_cases hL : L > 64
  · constructor
    · intro h
      simp [hmBuild, hL, throw, throwThe, MonadExceptOf.throw,
        Bind.bind, Except.bind] at h
    · intro ⟨h1, _⟩
      omega
  · constructor
    · intro h
      simp only [hmBuild, hL, if_false, throw, throwThe, MonadExceptOf.throw,
        Bind.bind, Except.bind, pure, Except.pure] at h
      cases ho : buildOdvs keys (bucketBegs L B) σ (List.range B) with
      | error e =>
        rw [ho] at h
        simp at h
        subst h
        exact ⟨by omega, (buildOdvs_alphabet_error_iff _ _ _ _ hrange).mp ho⟩
      | ok v =>
        rw [ho] at h
        simp at h
    · intro ⟨h1, h2⟩
      have he := (buildOdvs_alphabet_error_iff keys (bucketBegs L B) σ
        (List.range B) hrange).mpr h2
      simp only [hmBuild, hL, if_false, throw, throwThe, MonadExceptOf.throw,
        Bind.bind, Except.bind, pure, Except.pure]
      rw [he]

/-- Claim C5, counterexample to the claim as stated: a build with
`σ = 1 ≤ 1` succeeds and produces an index, and a build with `σ = 0`
fails with the invalid-alphabet diagnostic, not the alphabet-too-large
one. -/
theorem C5_counterexample :
    (hmBuild [[0, 0]] 2 1 1).toOption.isSome = true ∧
    odvBuild [[0]] 1 0 = Except.error BuildError.invalidAlphabet := by
  constructor
  · rfl
  · rfl

/-- Claim C7: the bucket partition invariants of `hm_index::build` for
`1 ≤ B ≤ L`: `bucket_begs[0] = 0`, `bucket_begs[B] = L`, bucket `b` has
width `⌊(L + b) / B⌋`, the widths sum to `L`, any two widths differ by at
most one, and every width is at least 1. -/
theorem C7_bucket_partition {keys : List (List Nat)} {L σ B : Nat}
    {idx : HmIndex} (h : hmBuild keys L σ B = Except.ok idx)
    (hB : 1 ≤ B) (hBL : B ≤ L) :
    idx.m_bucket_begs.getD 0 0 = 0 ∧
    idx.m_bucket_begs.getD B 0 = L ∧
    (∀ b, b < B →
      idx.m_bucket_begs.getD (b + 1) 0 - idx.m_bucket_begs.getD b 0 = (L + b) / B) ∧
    ((List.range B).map (fun b =>
      idx.m_bucket_begs.getD (b + 1) 0 - idx.m_bucket_begs.getD b 0)).sum = L ∧
    (∀ b, b < B → ∀ b', b' < B →
      idx.m_bucket_begs.getD (b + 1) 0 - idx.m_bucket_begs.getD b 0 ≤
        (idx.m_bucket_begs.getD (b' + 1) 0 - idx.m_bucket_begs.getD b' 0) + 1) ∧
    (∀ b, b < B →
      1 ≤ idx.m_bucket_begs.getD (b + 1) 0 - idx.m_bucket_begs.getD b 0) := by
  obtain ⟨hL, odvs, hodvs, hidx⟩ := hmBuild_ok h
  have hbegs : idx.m_bucket_begs = bucketBegs L B := by rw [hidx]
  rw [hbegs]
  have hB0 : 0 < B := hB
  refine ⟨bucketBegs_zero L B, bucketBegs_last L B hB0, ?_, ?_, ?_, ?_⟩
  · intro b hb
    exact bucketBegs_width L B b hb
  · rw [List.map_congr_left (fun b hb =>
      bucketBegs_width L B b (List.mem_range.mp hb))]
    exact sum_widths L B hB0
  · intro b hb b' hb'
    rw [bucketBegs_width L B b hb, bucketBegs_width L B b' hb']
    have h1 : (L + b) ≤ (L + b') + B := by omega
    calc (L + b) / B ≤ ((L + b') + B) / B := Nat.div_le_div_right h1
      _ = (L + b') / B + 1 := Nat.add_div_right _ hB0
  · intro b hb
    rw [bucketBegs_width L B b hb]
    have : B ≤ L + b := by omega
    exact (Nat.one_le_div_iff hB0).mpr this

/-- Claim C4 (amended): the ODV table allocated by `odv_index::build` has
exactly `tableSize U = static_cast<size_t>(float(U) * 1.5f)` slots, where
`U` is the number of distinct signatures: the product is computed in
binary32 (nearest-even rounding) and the cast truncates toward zero.
This equals `⌊U · 1.5⌋ = 3U/2` whenever `3U < 2²⁴`, but not in general —
neither the spec's `⌈U · 1.5⌉` nor an unconditional `⌊U · 1.5⌋` is
correct.  Every slot of the freshly allocated table is empty. -/
theorem C4_table_size {len σ : Nat} {idx : OdvIndex}
    {sm : SigMap} {keyList : List (List Nat)}
    (h : odvBuild keyList len σ = Except.ok idx)
    (hsm : buildSigMap keyList len σ = Except.ok sm) :
    idx.m_table.length = tableSize sm.length ∧
    (3 * sm.length < 2 ^ 24 → idx.m_table.length = 3 * sm.length / 2) ∧
    ∀ e ∈ (odvInit (tableSize sm.length) len σ).m_table,
      e.sig_pos = U32MAX := by
  obtain ⟨hσ, sm', hsm', hle, hidx⟩ := odvBuild_ok h
  rw [hsm] at hsm'
  injection hsm' with hsm2
  subst hsm2
  have htl : idx.m_table.length = tableSize sm.length := by
    rw [hidx, insertAll_table_length]
    simp [odvInit]
  refine ⟨htl, fun hsmall => ?_, ?_⟩
  · rw [htl, tableSize_exact hsmall]
  · intro e he
    simp only [odvInit, List.mem_replicate] at he
    rw [he.2]
    rfl

/-- Claim C4, counterexample to the claim as stated: for the one-key
bucket `[[0]]` with `σ = 1` there is `U = 1` distinct signature, and the
allocated table has `static_cast<size_t>(1.5f) = 1` slot, not
`⌈1 · 1.5⌉ = 2`.  The float arithmetic also breaks the plain floor
`3U/2` for large `U`: at `U = 5592409` the exact product 8388613.5 is a
representation tie that rounds up to 8388614.0f, so the code allocates
8388614 slots while `⌊1.5 · U⌋ = 8388613`. -/
theorem C4_counterexample :
    (buildSigMap [[0]] 1 1).toOption.map List.length = some 1 ∧
    (odvBuild [[0]] 1 1).toOption.map (fun i => i.m_table.length) = some 1 ∧
    (1 : Nat) ≠ (3 * 1 + 1) / 2 ∧
    tableSize 5592409 = 8388614 ∧ 3 * 5592409 / 2 = 8388613 := by
  refine ⟨rfl, rfl, by decide, by decide, by norm_num⟩

/-- A default `hm_index` value (for `getD`-style extractions in witnesses). -/
def defaultHm : HmIndex :=
  ⟨[], [], 0, 0, 0, [], 0⟩

theorem C4_table_size_witness :
    ((odvBuild [[0]] 1 1).toOption.getD defaultOdv).m_table.length =
      tableSize 1 ∧
    (3 * 1 < 2 ^ 24 →
      ((odvBuild [[0]] 1 1).toOption.getD defaultOdv).m_table.length =
        3 * 1 / 2) ∧
    ∀ e ∈ (odvInit (tableSize 1) 1 1).m_table, e.sig_pos = U32MAX :=
  @C4_table_size 1 1 ((odvBuild [[0]] 1 1).toOption.getD defaultOdv)
    [([1], [0])] [[0]] rfl rfl

theorem C5_alphabet_check_witness :
    (hmBuild [[0]] 1 U32MAX 1 = Except.error BuildError.alphabetTooLarge ↔
      (1 ≤ 64 ∧ U32MAX = U32MAX)) :=
  C5_alphabet_check [[0]] 1 U32MAX 1 (by decide)

theorem C7_bucket_partition_witness :
    ((hmBuild [[0, 0]] 2 1 1).toOption.getD defaultHm).m_bucket_begs.getD 0 0 = 0 ∧
    ((hmBuild [[0, 0]] 2 1 1).toOption.getD defaultHm).m_bucket_begs.getD 1 0 = 2 ∧
    (∀ b, b < 1 →
      ((hmBuild [[0, 0]] 2 1 1).toOption.getD defaultHm).m_bucket_begs.getD (b + 1) 0 -
        ((hmBuild [[0, 0]] 2 1 1).toOption.getD defaultHm).m_bucket_begs.getD b 0 =
        (2 + b) / 1) ∧
    ((List.range 1).map (fun b =>
      ((hmBuild [[0, 0]] 2 1 1).toOption.getD defaultHm).m_bucket_begs.getD (b + 1) 0 -
        ((hmBuild [[0, 0]] 2 1 1).toOption.getD defaultHm).m_bucket_begs.getD b 0)).sum = 2 ∧
    (∀ b, b < 1 → ∀ b', b' < 1 →
      ((hmBuild [[0, 0]] 2 1 1).toOption.getD defaultHm).m_bucket_begs.getD (b + 1) 0 -
        ((hmBuild [[0, 0]] 2 1 1).toOption.getD defaultHm).m_bucket_begs.getD b 0 ≤
        (((hmBuild [[0, 0]] 2 1 1).toOption.getD defaultHm).m_bucket_begs.getD (b' + 1) 0 -
          ((hmBuild [[0, 0]] 2 1 1).toOption.getD defaultHm).m_bucket_begs.getD b' 0) + 1) ∧
    (∀ b, b < 1 →
      1 ≤ ((hmBuild [[0, 0]] 2 1 1).toOption.getD defaultHm).m_bucket_begs.getD (b + 1) 0 -
        ((hmBuild [[0, 0]] 2 1 1).toOption.getD defaultHm).m_bucket_begs.getD b 0) :=
  @C7_bucket_partition [[0, 0]] 2 1 1
    ((hmBuild [[0, 0]] 2 1 1).toOption.getD defaultHm) rfl
    (by decide) (by decide)

/-! ## Association-list lemmas for the transient maps -/

/-- The key list of an association list. -/
def akeys {α β : Type} (m : List (α × β)) : List α :=
  m.map Prod.fst

theorem alookup_eq_none {α β : Type} [DecidableEq α] (m : List (α × β)) (k : α) :
    alookup m k = none ↔ k ∉ akeys m := by
  induction m with
  | nil => simp [alookup, akeys]
  | cons kv rest ih =>
    obtain ⟨k', v⟩ := kv
    by_cases h : k' = k
    · subst h
      simp [alookup, akeys]
    · simp [alookup, akeys, h, Ne.symm h] at ih ⊢
      exact ih

theorem alookup_mmAdd (mm : List (Nat × Nat)) (id id' : Nat) :
    alookup (mmAdd mm id) id' =
      if id' = id then some ((alookup mm id').getD 0 + 1) else alookup mm id' := by
  induction mm with
  | nil =>
    by_cases h : id' = id
    · subst h
      simp [mmAdd, alookup]
    · have h2 : ¬id = id' := fun hc => h hc.symm
      simp [mmAdd, alookup, h, h2]
  | cons kv rest ih =>
    obtain ⟨k, c⟩ := kv
    by_cases hk : k = id
    · subst hk
      by_cases h : id' = k
      · subst h
        simp [mmAdd, alookup]
      · have h2 : ¬k = id' := fun hc => h hc.symm
        simp [mmAdd, alookup, h, h2]
    · by_cases h : k = id'
      · subst h
        have h2 : ¬k = id := hk
        simp [mmAdd, alookup, hk, h2]
      · simp [mmAdd, alookup, hk, h, ih]

theorem mmAdd_akeys (mm : List (Nat × Nat)) (id : Nat) :
    akeys (mmAdd mm id) =
      if id ∈ akeys mm then akeys mm else akeys mm ++ [id] := by
  induction mm with
  | nil => simp [mmAdd, akeys]
  | cons kv rest ih =>
    obtain ⟨k, c⟩ := kv
    by_cases hk : k = id
    · subst hk
      simp [mmAdd, akeys]
    · simp only [mmAdd, if_neg hk, akeys, List.map_cons] at ih ⊢
      rw [ih]
      by_cases hmem : id ∈ akeys rest
      · simp [akeys] at hmem
        simp [hmem, Ne.symm hk]
      · simp [akeys] at hmem
        simp [hmem, Ne.symm hk]

theorem mmAdd_nodup {mm : List (Nat × Nat)} (h : (akeys mm).Nodup) (id : Nat) :
    (akeys (mmAdd mm id)).Nodup := by
  rw [mmAdd_akeys]
  by_cases hmem : id ∈ akeys mm
  · simp [hmem, h]
  · simp [hmem, List.nodup_append, h]

theorem matchMap_foldl_alookup (emits : List Nat) :
    ∀ (mm : List (Nat × Nat)) (id : Nat),
    alookup (emits.foldl mmAdd mm) id =
      if emits.count id = 0 then alookup mm id
      else some ((alookup mm id).getD 0 + emits.count id) := by
  induction emits with
  | nil => intro mm id; simp
  | cons e rest ih =>
    intro mm id
    rw [List.foldl_cons, ih]
    by_cases he : e = id
    · subst he
      simp [alookup_mmAdd, List.count_cons_self]
      by_cases hc : rest.count e = 0 <;> simp [hc] <;> omega
    · rw [List.count_cons_of_ne (fun hc => he hc.symm)]
      have h2 : ¬id = e := fun hc => he hc.symm
      simp [alookup_mmAdd, h2]

theorem alookup_buildMatchMap (emits : List Nat) (id : Nat) :
    alookup (buildMatchMap emits) id =
      if emits.count id = 0 then none else some (emits.count id) := by
  rw [buildMatchMap, matchMap_foldl_alookup]
  simp [alookup]

theorem buildMatchMap_nodup (emits : List Nat) : (akeys (buildMatchMap emits)).Nodup := by
  rw [buildMatchMap]
  have : ∀ mm : List (Nat × Nat), (akeys mm).Nodup →
      (akeys (emits.foldl mmAdd mm)).Nodup := by
    induction emits with
    | nil => intro mm h; simpa using h
    | cons e rest ih =>
      intro mm h
      rw [List.foldl_cons]
      exact ih _ (mmAdd_nodup h e)
  exact this [] (by simp [akeys])

theorem buildMatchMap_mem (emits : List Nat) (id : Nat) :
    id ∈ akeys (buildMatchMap emits) ↔ emits.count id ≠ 0 := by
  rw [← not_iff_not, not_not, ← alookup_eq_none, alookup_buildMatchMap]
  by_cases h : emits.count id = 0 <;> simp [h]

theorem alookup_cmAdd (cm : List (Nat × List Nat)) (id c id' : Nat) :
    alookup (cmAdd cm id c) id' =
      if id' = id then some ((alookup cm id').getD [] ++ [candCode c])
      else alookup cm id' := by
  induction cm with
  | nil =>
    by_cases h : id' = id
    · subst h
      simp [cmAdd, alookup]
    · have h2 : ¬id = id' := fun hc => h hc.symm
      simp [cmAdd, alookup, h, h2]
  | cons kv rest ih =>
    obtain ⟨k, v⟩ := kv
    by_cases hk : k = id
    · subst hk
      by_cases h : id' = k
      · subst h
        simp [cmAdd, alookup]
      · have h2 : ¬k = id' := fun hc => h hc.symm
        simp [cmAdd, alookup, h, h2]
    · by_cases h : k = id'
      · subst h
        have h2 : ¬k = id := hk
        simp [cmAdd, alookup, hk, h2]
      · simp [cmAdd, alookup, hk, h, ih]

theorem cmAdd_akeys (cm : List (Nat × List Nat)) (id c : Nat) :
    akeys (cmAdd cm id c) =
      if id ∈ akeys cm then akeys cm else akeys cm ++ [id] := by
  induction cm with
  | nil => simp [cmAdd, akeys]
  | cons kv rest ih =>
    obtain ⟨k, v⟩ := kv
    by_cases hk : k = id
    · subst hk
      simp [cmAdd, akeys]
    · simp only [cmAdd, if_neg hk, akeys, List.map_cons] at ih ⊢
      rw [ih]
      by_cases hmem : id ∈ akeys rest
      · simp [akeys] at hmem
        simp [hmem, Ne.symm hk]
      · simp [akeys] at hmem
        simp [hmem, Ne.symm hk]

theorem cmAdd_nodup {cm : List (Nat × List Nat)} (h : (akeys cm).Nodup)
    (id c : Nat) : (akeys (cmAdd cm id c)).Nodup := by
  rw [cmAdd_akeys]
  by_cases hmem : id ∈ akeys cm
  · simp [hmem, h]
  · simp [hmem, List.nodup_append, h]

theorem foldCand_nodup {cm : List (Nat × List Nat)} (mm : List (Nat × Nat))
    (h : (akeys cm).Nodup) : (akeys (foldCand cm mm)).Nodup := by
  induction mm generalizing cm with
  | nil => exact h
  | cons kv rest ih =>
    show (akeys (foldCand (cmAdd cm kv.1 kv.2) rest)).Nodup
    exact ih (cmAdd_nodup h kv.1 kv.2)

theorem alookup_foldCand (cm : List (Nat × List Nat)) (mm : List (Nat × Nat))
    (hmm : (akeys mm).Nodup) (id : Nat) :
    alookup (foldCand cm mm) id =
      match alookup mm id with
      | some c => some ((alookup cm id).getD [] ++ [candCode c])
      | none => alookup cm id := by
  induction mm generalizing cm with
  | nil => simp [foldCand, alookup]
  | cons kv rest ih =>
    obtain ⟨k, c⟩ := kv
    simp only [akeys, List.map_cons, List.nodup_cons] at hmm
    have hrest : (akeys rest).Nodup := hmm.2
    show alookup (foldCand (cmAdd cm k c) rest) id = _
    rw [ih _ hrest]
    by_cases h : id = k
    · subst h
      have : alookup rest id = none := by
        rw [alookup_eq_none]
        exact fun hc => hmm.1 (by simpa [akeys] using hc)
      rw [this]
      simp [alookup_cmAdd, alookup]
    · have h2 : ¬k = id := fun hc => h hc.symm
      rw [alookup_cmAdd]
      simp only [if_neg h]
      simp [alookup, h2]

/-- The accumulated `cand_map` after folding the per-bucket emission lists
`E` in order (the bucket loop of `hm_index::search`). -/
def candOf (E : List (List Nat)) : List (Nat × List Nat) :=
  E.foldl (fun cm emits => foldCand cm (buildMatchMap emits)) []

/-- The bucket contribution codes a candidate id collects across the
emission lists `E`: one `candCode` per bucket that emitted it. -/
def bucketCodes (E : List (List Nat)) (i : Nat) : List Nat :=
  (E.filter (fun e => e.count i != 0)).map (fun e => candCode (e.count i))

theorem candOf_nodup (E : List (List Nat)) : (akeys (candOf E)).Nodup := by
  have : ∀ cm : List (Nat × List Nat), (akeys cm).Nodup →
      (akeys (E.foldl (fun cm emits => foldCand cm (buildMatchMap emits)) cm)).Nodup := by
    induction E with
    | nil => intro cm h; simpa using h
    | cons e rest ih =>
      intro cm h
      rw [List.foldl_cons]
      exact ih _ (foldCand_nodup _ h)
  exact this [] (by simp [akeys])

theorem alookup_candOf (E : List (List Nat)) (i : Nat) :
    alookup (candOf E) i =
      if bucketCodes E i = [] then none else some (bucketCodes E i) := by
  suffices h : ∀ cm : List (Nat × List Nat),
      alookup (E.foldl (fun cm emits => foldCand cm (buildMatchMap emits)) cm) i =
        match alookup cm i with
        | some v => some (v ++ bucketCodes E i)
        | none => if bucketCodes E i = [] then none else some (bucketCodes E i) by
    rw [candOf, h []]
    simp [alookup]
  induction E with
  | nil =>
    intro cm
    simp only [List.foldl_nil, bucketCodes, List.filter_nil, List.map_nil]
    cases alookup cm i <;> simp
  | cons e rest ih =>
    intro cm
    rw [List.foldl_cons, ih, alookup_foldCand _ _ (buildMatchMap_nodup e) i,
      alookup_buildMatchMap]
    by_cases hc : e.count i = 0
    · have : bucketCodes (e :: rest) i = bucketCodes rest i := by
        simp [bucketCodes, hc]
      rw [this]
      simp only [if_pos hc]
    · have : bucketCodes (e :: rest) i = candCode (e.count i) :: bucketCodes rest i := by
        simp [bucketCodes, hc]
      rw [this]
      simp only [if_neg hc]
      cases halc : alookup cm i <;> simp

/-- A candidate passes the enhanced filter and verification. -/
def candKeep (idx : HmIndex) (vq : List Nat) (hamming_range : Nat)
    (kv : Nat × List Nat) : Bool :=
  !enhancedFilter hamming_range kv.2 &&
    decide (verifyDist idx vq kv.1 hamming_range ≤ hamming_range)

theorem final_foldl (idx : HmIndex) (vq : List Nat) (r : Nat)
    (cand : List (Nat × List Nat)) (acc : List Nat × Nat) :
    cand.foldl (fun acc kv =>
      if enhancedFilter r kv.2 then acc
      else
        let d := verifyDist idx vq kv.1 r
        (if d ≤ r then acc.1 ++ [kv.1] else acc.1, acc.2 + 1)) acc =
    (acc.1 ++ (cand.filter (candKeep idx vq r)).map Prod.fst,
      acc.2 + cand.countP (fun kv => !enhancedFilter r kv.2)) := by
  induction cand generalizing acc with
  | nil => simp
  | cons kv rest ih =>
    rw [List.foldl_cons, ih]
    by_cases hf : enhancedFilter r kv.2
    · simp [hf, candKeep, List.countP_cons]
    · by_cases hd : verifyDist idx vq kv.1 r ≤ r
      · simp [hf, hd, candKeep, List.countP_cons]
        omega
      · simp [hf, hd, candKeep, List.countP_cons]
        omega

theorem hmSearch_loop_extract {idx : HmIndex} {query : List Nat} {r : Nat}
    {out : List Nat} {cnt : Nat}
    (h : hmSearch idx query r = some (out, cnt)) :
    idx.m_buckets = get_proper_buckets r ∧
    ∃ cand, (List.range idx.m_buckets).foldlM (fun cm b => do
        let emits ← bucketEmits idx query b
        pure (foldCand cm (buildMatchMap emits))) ([] : List (Nat × List Nat)) =
          some cand ∧
      out = (cand.filter (candKeep idx (vertQuery idx query) r)).map Prod.fst ∧
      cnt = cand.countP (fun kv => !enhancedFilter r kv.2) := by
  rw [hmSearch] at h
  by_cases hb : idx.m_buckets = get_proper_buckets r
  · refine ⟨hb, ?_⟩
    rw [if_neg (by simp [hb])] at h
    cases hcand : (List.range idx.m_buckets).foldlM (fun cm b => do
        let emits ← bucketEmits idx query b
        pure (foldCand cm (buildMatchMap emits))) ([] : List (Nat × List Nat)) with
    | none =>
      rw [hcand] at h
      simp [Bind.bind, Option.bind] at h
    | some cand =>
      rw [hcand] at h
      simp only [Bind.bind, Option.bind, pure, Option.some.injEq] at h
      rw [final_foldl] at h
      simp only [List.nil_append, Nat.zero_add, Prod.mk.injEq] at h
      exact ⟨cand, rfl, h.1.symm, h.2.symm⟩
  · rw [if_pos (by simp [hb])] at h
    exact absurd h (by simp)

theorem option_bind_some {α β : Type} {x : Option α} {f : α → Option β} {b : β} :
    (x >>= f) = some b ↔ ∃ a, x = some a ∧ f a = some b := by
  cases x <;> simp

theorem foldlM_buckets (idx : HmIndex) (query : List Nat) :
    ∀ (bs : List Nat) (cm cand : List (Nat × List Nat)),
    bs.foldlM (fun cm b => do
        let emits ← bucketEmits idx query b
        pure (foldCand cm (buildMatchMap emits))) cm = some cand →
    ∃ E : List (List Nat), E.length = bs.length ∧
      (∀ n, n < bs.length → bucketEmits idx query (bs.getD n 0) = some (E.getD n [])) ∧
      cand = E.foldl (fun cm emits => foldCand cm (buildMatchMap emits)) cm := by
  intro bs
  induction bs with
  | nil =>
    intro cm cand h
    simp only [List.foldlM_nil, pure, Option.some.injEq] at h
    exact ⟨[], rfl, by simp, by simp [h.symm]⟩
  | cons b rest ih =>
    intro cm cand h
    rw [List.foldlM_cons] at h
    simp only [Bind.bind, pure] at h
    cases hbe : bucketEmits idx query b with
    | none =>
      rw [hbe] at h
      simp [Option.bind] at h
    | some e =>
      rw [hbe] at h
      rw [Option.some_bind, Option.some_bind] at h
      obtain ⟨E, hlen, hall, hcand⟩ := ih _ _ h
      refine ⟨e :: E, by simp [hlen], ?_, by simpa using hcand⟩
      intro n hn
      cases n with
      | zero => simpa using hbe
      | succ m => simpa using hall m (by simpa using hn)

theorem foldlM_buckets_of (idx : HmIndex) (query : List Nat) :
    ∀ (bs : List Nat) (cm : List (Nat × List Nat)) (E : List (List Nat)),
    E.length = bs.length →
    (∀ n, n < bs.length → bucketEmits idx query (bs.getD n 0) = some (E.getD n [])) →
    bs.foldlM (fun cm b => do
        let emits ← bucketEmits idx query b
        pure (foldCand cm (buildMatchMap emits))) cm =
      some (E.foldl (fun cm emits => foldCand cm (buildMatchMap emits)) cm) := by
  intro bs
  induction bs with
  | nil =>
    intro cm E hlen _
    rw [List.length_nil, List.length_eq_zero] at hlen
    subst hlen
    simp [pure]
  | cons b rest ih =>
    intro cm E hlen hall
    cases E with
    | nil => simp at hlen
    | cons e E' =>
      rw [List.foldlM_cons]
      simp only [Bind.bind, pure]
      have hb0 := hall 0 (by simp)
      simp only [List.getD_cons_zero] at hb0
      rw [hb0, Option.some_bind, Option.some_bind, List.foldl_cons]
      apply ih
      · simpa using hlen
      · intro n hn
        simpa using hall (n + 1) (by simpa using hn)

/-- Claim C10: one search call emits each id at most once: the emission
list of `hm_index::search` has no duplicates, because candidates are
aggregated in a map keyed by id and each surviving entry is emitted at
most once. -/
theorem C10_no_duplicate_emission {idx : HmIndex} {query : List Nat}
    {r : Nat} {out : List Nat} {cnt : Nat}
    (h : hmSearch idx query r = some (out, cnt)) : out.Nodup := by
  obtain ⟨hb, cand, hcand, hout, hcnt⟩ := hmSearch_loop_extract h
  obtain ⟨E, hlen, hall, hceq⟩ := foldlM_buckets idx query _ _ _ hcand
  have hnodup : (akeys cand).Nodup := by
    rw [hceq]
    exact candOf_nodup E
  rw [hout]
  have hsub : ((cand.filter (candKeep idx (vertQuery idx query) r)).map Prod.fst).Sublist
      (cand.map Prod.fst) :=
    (List.filter_sublist cand).map Prod.fst
  exact hnodup.sublist hsub

/-- Claim C10, witness at a concrete search. -/
theorem C10_no_duplicate_emission_witness : ([0, 2] : List Nat).Nodup :=
  @C10_no_duplicate_emission
    ((hmBuild [[0, 0, 0, 0], [1, 1, 1, 1], [1, 0, 0, 0], [0, 1, 1, 1]]
      4 2 2).toOption.getD defaultHm)
    [0, 0, 0, 0] 2 [0, 2] 2 (by decide)

/-- Claim C3: a search call yields, besides the ids delivered through the
sink, the number of candidates that reached the verification step: the
returned counter equals the number of `cand_map` entries that pass the
enhanced filter, the sink receives exactly the verified subset of those
candidates, and consequently at most counter-many ids are emitted.  (In
the header under `src`, `hm_index::search` is declared `void`; the counter
is the value the driver accumulates per the spec.) -/
theorem C3_candidate_count {idx : HmIndex} {query : List Nat} {r : Nat}
    {out : List Nat} {cnt : Nat} (h : hmSearch idx query r = some (out, cnt)) :
    ∃ cand : List (Nat × List Nat),
      cnt = cand.countP (fun kv => !enhancedFilter r kv.2) ∧
      out = (cand.filter (candKeep idx (vertQuery idx query) r)).map Prod.fst ∧
      out.length ≤ cnt := by
  obtain ⟨hb, cand, hcand, hout, hcnt⟩ := hmSearch_loop_extract h
  refine ⟨cand, hcnt, hout, ?_⟩
  rw [hout, hcnt, List.length_map, ← List.countP_eq_length_filter]
  apply List.countP_mono_left
  intro kv _ hkeep
  rw [candKeep] at hkeep
  exact (Bool.and_eq_true_iff.mp hkeep).1

/-- Claim C3, witness at a concrete search. -/
theorem C3_candidate_count_witness :
    ∃ cand : List (Nat × List Nat),
      2 = cand.countP (fun kv => !enhancedFilter 2 kv.2) ∧
      [0, 2] = (cand.filter (candKeep
        ((hmBuild [[0, 0, 0, 0], [1, 1, 1, 1], [1, 0, 0, 0], [0, 1, 1, 1]] 4 2 2).toOption.getD defaultHm)
        (vertQuery
          ((hmBuild [[0, 0, 0, 0], [1, 1, 1, 1], [1, 0, 0, 0], [0, 1, 1, 1]] 4 2 2).toOption.getD defaultHm)
          [0, 0, 0, 0]) 2)).map Prod.fst ∧
      ([0, 2] : List Nat).length ≤ 2 :=
  @C3_candidate_count
    ((hmBuild [[0, 0, 0, 0], [1, 1, 1, 1], [1, 0, 0, 0], [0, 1, 1, 1]]
      4 2 2).toOption.getD defaultHm)
    [0, 0, 0, 0] 2 [0, 2] 2 (by decide)

/-- Claim C2: (i) the per-bucket fold appends `0` to a candidate's list
when its match count exceeds 2 and `1` otherwise, leaving other
candidates untouched; (ii) the per-id match count accumulated by the
`match_map` closure is the number of times the bucket emitted the id;
(iii) the enhanced filter drops a candidate exactly under the claimed
length/content conditions on its list. -/
theorem C2_fold_and_filter :
    (∀ (emits : List Nat) (id : Nat), alookup (buildMatchMap emits) id =
      if emits.count id = 0 then none else some (emits.count id)) ∧
    (∀ (cm : List (Nat × List Nat)) (mm : List (Nat × Nat)),
      (akeys mm).Nodup → ∀ id, alookup (foldCand cm mm) id =
        match alookup mm id with
        | some c => some ((alookup cm id).getD [] ++ [if c > 2 then 0 else 1])
        | none => alookup cm id) ∧
    (∀ (r : Nat) (vec : List Nat), enhancedFilter r vec = true ↔
      (if r % 2 = 0 then vec.length < 2 ∧ vec = [1]
       else vec.length < 3 ∧ (vec.length = 1 ∨ vec = [1, 1]))) := by
  refine ⟨alookup_buildMatchMap, ?_, ?_⟩
  · intro cm mm hmm id
    rw [alookup_foldCand cm mm hmm id]
    rfl
  · intro r vec
    by_cases hr : r % 2 = 0
    · rcases vec with _ | ⟨a, _ | ⟨b, rest⟩⟩
      · simp [enhancedFilter, hr]
      · simp only [enhancedFilter, hr, if_true, List.length_singleton]
        constructor
        · intro h
          simp at h
          simp [h]
        · intro ⟨_, h⟩
          simp at h
          simp [h]
      · simp [enhancedFilter, hr]
    · rcases vec with _ | ⟨a, _ | ⟨b, _ | ⟨c, rest⟩⟩⟩
      · simp [enhancedFilter, hr]
      · simp [enhancedFilter, hr]
      · simp only [enhancedFilter, hr, if_false]
        constructor
        · intro h
          simp at h
          simp [h]
        · intro ⟨_, h⟩
          rcases h with h | h
          · simp at h
          · simp at h
            simp [h]
      · simp [enhancedFilter, hr]
/-- Claim C2, witness instances: a match count of 3 folded as code `0`
would be, a count of 1 appended as code `1` to an existing list, and the
odd-radius filter firing on `[1, 1]`. -/
theorem C2_fold_and_filter_witness :
    (alookup (buildMatchMap [5, 5, 5, 7]) 5 =
      if [5, 5, 5, 7].count 5 = 0 then none else some ([5, 5, 5, 7].count 5)) ∧
    (alookup (foldCand [(7, [1])] [(5, 3), (7, 1)]) 7 =
      match alookup [(5, 3), (7, 1)] 7 with
      | some c => some ((alookup [(7, [1])] 7).getD [] ++ [if c > 2 then 0 else 1])
      | none => alookup [(7, [1])] 7) ∧
    (enhancedFilter 1 [1, 1] = true ↔
      (if 1 % 2 = 0 then [1, 1].length < 2 ∧ [1, 1] = [1]
       else [1, 1].length < 3 ∧ ([1, 1].length = 1 ∨ ([1, 1] : List Nat) = [1, 1]))) := by
  obtain ⟨h1, h2, h3⟩ := C2_fold_and_filter
  exact ⟨h1 [5, 5, 5, 7] 5, h2 [(7, [1])] [(5, 3), (7, 1)] (by decide) 7, h3 1 [1, 1]⟩

/-! ## Probe arithmetic -/

/-- The slot read `m_table[p]` (in-range on all proved paths). -/
def slotAt (t : List Elem) (p : Nat) : Elem :=
  t.getD p vacantElem

/-- Cyclic distance from `a` to `b` in a table of `T` slots. -/
def cdist (T a b : Nat) : Nat :=
  (b + T - a) % T

/-- The `n`-th slot of the linear probe sequence started at `a`. -/
def probeAt (T a n : Nat) : Nat :=
  (a + n) % T

theorem probeAt_lt {T : Nat} (hT : 0 < T) (a n : Nat) : probeAt T a n < T :=
  Nat.mod_lt _ hT

theorem probeAt_zero {T a : Nat} (ha : a < T) : probeAt T a 0 = a := by
  simp [probeAt, Nat.mod_eq_of_lt ha]

theorem cdist_lt {T : Nat} (hT : 0 < T) (a b : Nat) : cdist T a b < T :=
  Nat.mod_lt _ hT

theorem probeAt_cdist {T a b : Nat} (ha : a ≤ T) (hb : b < T) :
    probeAt T a (cdist T a b) = b := by
  rw [probeAt, cdist, Nat.add_mod_mod]
  have h1 : a + (b + T - a) = b + T := by omega
  rw [h1, Nat.add_mod_right, Nat.mod_eq_of_lt hb]

theorem cdist_probeAt {T a n : Nat} (ha : a < T) (hn : n < T) :
    cdist T a (probeAt T a n) = n := by
  rw [cdist, probeAt]
  have h0 : (a + n) % T + T - a = (a + n) % T + (T - a) := by omega
  rw [h0, Nat.mod_add_mod]
  have h1 : a + n + (T - a) = n + T := by omega
  rw [h1, Nat.add_mod_right, Nat.mod_eq_of_lt hn]

theorem nextPos_probeAt {T a n : Nat} (hT : 0 < T) :
    nextPos T (probeAt T a n) = probeAt T a (n + 1) := by
  have hx : (a + n) % T < T := Nat.mod_lt _ hT
  have hr : probeAt T a (n + 1) = ((a + n) % T + 1) % T := by
    rw [probeAt, Nat.mod_add_mod, Nat.add_assoc]
  rw [hr, nextPos, probeAt]
  by_cases h : (a + n) % T + 1 = T
  · rw [if_pos h, h, Nat.mod_self]
  · rw [if_neg h]
    exact (Nat.mod_eq_of_lt (by omega)).symm

/-! ## Flattened-store slicing -/

theorem flatten_slice {α : Type} (w : Nat) :
    ∀ (ls : List (List α)) (k : Nat), (∀ l ∈ ls, l.length = w) → k < ls.length →
    listSlice ls.flatten (k * w) w = ls.getD k [] := by
  intro ls
  induction ls with
  | nil => intro k _ hk; simp at hk
  | cons l rest ih =>
    intro k hl hk
    cases k with
    | zero =>
      have hlw : l.length = w := hl l (by simp)
      simp only [listSlice, List.flatten_cons, Nat.zero_mul, List.drop_zero,
        List.getD_cons_zero]
      rw [← hlw, List.take_left]
    | succ m =>
      have hlw : l.length = w := hl l (by simp)
      have h1 : (m + 1) * w = l.length + m * w := by rw [hlw]; ring
      simp only [listSlice, List.flatten_cons]
      rw [h1, List.drop_append]
      have := ih m (fun x hx => hl x (by simp [hx])) (by simpa using hk)
      simpa [listSlice] using this

/-- Cumulative id offsets of the signature map prefix. -/
def idOff (sm : SigMap) (k : Nat) : Nat :=
  (((sm.take k).map Prod.snd).flatten).length

/-- The signature stored at index `k` of the signature map. -/
def sigAt (sm : SigMap) (k : Nat) : List Nat :=
  (sm.getD k ([], [])).1

/-- The id list stored at index `k` of the signature map. -/
def idsAt (sm : SigMap) (k : Nat) : List Nat :=
  (sm.getD k ([], [])).2

theorem idOff_succ (sm : SigMap) (k : Nat) (hk : k < sm.length) :
    idOff sm (k + 1) = idOff sm k + (idsAt sm k).length := by
  have h1 : sm.take (k + 1) = sm.take k ++ [sm.getD k ([], [])] := by
    rw [List.take_succ]
    congr 1
    rw [List.getD_eq_getElem?_getD, List.getElem?_eq_getElem hk]
    simp
  rw [idOff, h1, List.map_append, List.flatten_append]
  simp [idOff, idsAt]

theorem flatten_ids_slice (sm : SigMap) (k : Nat) (hk : k < sm.length) :
    listSlice (sm.map Prod.snd).flatten (idOff sm k)
      (idOff sm (k + 1) - idOff sm k) = idsAt sm k := by
  rw [idOff_succ sm k hk, Nat.add_sub_cancel_left, listSlice]
  have hmap : sm.map Prod.snd = (sm.take k).map Prod.snd ++ (sm.drop k).map Prod.snd := by
    rw [← List.map_append, List.take_append_drop]
  rw [hmap, List.flatten_append]
  rw [show idOff sm k = ((sm.take k).map Prod.snd).flatten.length + 0 from by
    simp [idOff]]
  rw [List.drop_append, List.drop_zero]
  have hdrop : sm.drop k = sm.getD k ([], []) :: sm.drop (k + 1) := by
    rw [List.getD_eq_getElem?_getD, List.getElem?_eq_getElem hk]
    exact List.drop_eq_getElem_cons hk
  rw [hdrop]
  simp only [List.map_cons, List.flatten_cons, idsAt]
  rw [List.take_append_of_le_length le_rfl, List.take_length]

/-! ## The linear-probing invariant of a built ODV table -/

/-- The invariant tying an `odv_index` state to the signature-map prefix
`sm` already inserted: the flattened stores hold exactly the signatures
and id lists of `sm` in order, every entry of `sm` occupies exactly one
slot with the correct offsets, distinct slots store distinct entries, and
the linear-probe path from each stored signature's hash to its slot has
no vacancy. -/
structure TableInv (idx : OdvIndex) (sm : SigMap) : Prop where
  le32 : sm.length ≤ U32MAX
  len_pos : 0 < idx.m_length
  sig_len : ∀ sv ∈ sm, (sv : List Nat × List Nat).1.length = idx.m_length
  keys_nodup : (akeys sm).Nodup
  sigs_eq : idx.m_signatures = (sm.map Prod.fst).flatten
  ids_eq : idx.m_ids = (sm.map Prod.snd).flatten
  slot_of : ∀ k, k < sm.length → ∃ p, p < idx.m_table.length ∧
    slotAt idx.m_table p = ⟨k, idOff sm k, idOff sm (k + 1)⟩
  occ_lt : ∀ p, p < idx.m_table.length →
    (slotAt idx.m_table p).sig_pos ≠ U32MAX →
    (slotAt idx.m_table p).sig_pos < sm.length ∧
    slotAt idx.m_table p = ⟨(slotAt idx.m_table p).sig_pos,
      idOff sm (slotAt idx.m_table p).sig_pos,
      idOff sm ((slotAt idx.m_table p).sig_pos + 1)⟩
  inj : ∀ p q, p < idx.m_table.length → q < idx.m_table.length →
    (slotAt idx.m_table p).sig_pos ≠ U32MAX →
    (slotAt idx.m_table q).sig_pos ≠ U32MAX →
    (slotAt idx.m_table p).sig_pos = (slotAt idx.m_table q).sig_pos → p = q
  path : ∀ p, p < idx.m_table.length →
    (slotAt idx.m_table p).sig_pos ≠ U32MAX →
    ∀ n, n < cdist idx.m_table.length
      (fnv1a_hash (sigAt sm (slotAt idx.m_table p).sig_pos) % idx.m_table.length) p →
    (slotAt idx.m_table (probeAt idx.m_table.length
      (fnv1a_hash (sigAt sm (slotAt idx.m_table p).sig_pos) % idx.m_table.length)
      n)).sig_pos ≠ U32MAX

theorem inv_occ_card {idx : OdvIndex} {sm : SigMap} (inv : TableInv idx sm) :
    ((Finset.range idx.m_table.length).filter
      (fun p => (slotAt idx.m_table p).sig_pos ≠ U32MAX)).card = sm.length := by
  rw [← Finset.card_range sm.length]
  apply Finset.card_bij (fun p _ => (slotAt idx.m_table p).sig_pos)
  · intro p hp
    simp only [Finset.mem_filter, Finset.mem_range] at hp
    exact Finset.mem_range.mpr ((inv.occ_lt p hp.1 hp.2).1)
  · intro p hp q hq heq
    simp only [Finset.mem_filter, Finset.mem_range] at hp hq
    exact inv.inj p q hp.1 hq.1 hp.2 hq.2 heq
  · intro k hk
    rw [Finset.mem_range] at hk
    obtain ⟨p, hp, hslot⟩ := inv.slot_of k hk
    refine ⟨p, ?_, ?_⟩
    · simp only [Finset.mem_filter, Finset.mem_range]
      refine ⟨hp, ?_⟩
      rw [hslot]
      simp only [ne_eq]
      have h32 := inv.le32
      omega
    · rw [hslot]

theorem inv_exists_vacant {idx : OdvIndex} {sm : SigMap} (inv : TableInv idx sm)
    (h : sm.length < idx.m_table.length) :
    ∃ v, v < idx.m_table.length ∧ (slotAt idx.m_table v).sig_pos = U32MAX := by
  by_contra hc
  push_neg at hc
  have hall : (Finset.range idx.m_table.length).filter
      (fun p => (slotAt idx.m_table p).sig_pos ≠ U32MAX) =
        Finset.range idx.m_table.length := by
    apply Finset.filter_true_of_mem
    intro p hp
    exact hc p (Finset.mem_range.mp hp)
  have := inv_occ_card inv
  rw [hall, Finset.card_range] at this
  omega

/-- The stored signature a probe at an occupied slot compares against is
the corresponding entry of the signature map. -/
theorem stored_sig_eq {idx : OdvIndex} {sm : SigMap} (inv : TableInv idx sm)
    {p : Nat} (hp : p < idx.m_table.length)
    (hocc : (slotAt idx.m_table p).sig_pos ≠ U32MAX) :
    listSlice idx.m_signatures ((slotAt idx.m_table p).sig_pos * idx.m_length)
      idx.m_length = sigAt sm (slotAt idx.m_table p).sig_pos := by
  have hk := (inv.occ_lt p hp hocc).1
  rw [inv.sigs_eq]
  have := flatten_slice idx.m_length (sm.map Prod.fst) (slotAt idx.m_table p).sig_pos
    (by
      intro l hl
      rw [List.mem_map] at hl
      obtain ⟨sv, hsv, rfl⟩ := hl
      exact inv.sig_len sv hsv)
    (by simpa using hk)
  rw [this, sigAt]
  rw [List.getD_eq_getElem?_getD, List.getElem?_map,
    List.getD_eq_getElem?_getD, List.getElem?_eq_getElem hk]
  simp

theorem probeAt_shift {T : Nat} (a m k : Nat) :
    probeAt T (probeAt T a k) m = probeAt T a (k + m) := by
  rw [probeAt, probeAt, probeAt, Nat.mod_add_mod, Nat.add_assoc]

theorem probeLoop_succ (idx : OdvIndex) (s : List Nat) (pos fuel : Nat) :
    probeLoop idx s pos (fuel + 1) =
      if (slotAt idx.m_table pos).sig_pos = U32MAX then some []
      else if s = listSlice idx.m_signatures
          ((slotAt idx.m_table pos).sig_pos * idx.m_length) idx.m_length then
        some (listSlice idx.m_ids (slotAt idx.m_table pos).id_beg
          ((slotAt idx.m_table pos).id_end - (slotAt idx.m_table pos).id_beg))
      else probeLoop idx s (nextPos idx.m_table.length pos) fuel := rfl

theorem findVacant_succ (table : List Elem) (pos fuel : Nat) :
    findVacant table pos (fuel + 1) =
      if (slotAt table pos).sig_pos = U32MAX then some pos
      else findVacant table (nextPos table.length pos) fuel := rfl

theorem probeLoop_shift (idx : OdvIndex) (s : List Nat) :
    ∀ (n a fuel : Nat), a < idx.m_table.length →
    (∀ m, m < n →
      (slotAt idx.m_table (probeAt idx.m_table.length a m)).sig_pos ≠ U32MAX ∧
      s ≠ listSlice idx.m_signatures
        ((slotAt idx.m_table (probeAt idx.m_table.length a m)).sig_pos * idx.m_length)
        idx.m_length) →
    probeLoop idx s a (n + fuel) =
      probeLoop idx s (probeAt idx.m_table.length a n) fuel := by
  intro n
  induction n with
  | zero =>
    intro a fuel ha _
    rw [Nat.zero_add, probeAt_zero ha]
  | succ m ih =>
    intro a fuel ha hcond
    have hT : 0 < idx.m_table.length := by omega
    have h0 := hcond 0 (by omega)
    rw [probeAt_zero ha] at h0
    rw [show m + 1 + fuel = (m + fuel) + 1 from by omega, probeLoop_succ,
      if_neg h0.1, if_neg h0.2]
    have hnext : nextPos idx.m_table.length a = probeAt idx.m_table.length a 1 := by
      conv_lhs => rw [← probeAt_zero ha]
      rw [nextPos_probeAt hT]
    rw [hnext, ih (probeAt idx.m_table.length a 1) fuel (probeAt_lt hT a 1)
      (fun m' hm' => by
        rw [probeAt_shift]
        exact hcond (1 + m') (by omega)), probeAt_shift]
    rw [show 1 + m = m + 1 from by omega]

theorem findVacant_shift (table : List Elem) :
    ∀ (n pos fuel : Nat), pos < table.length →
    (∀ m, m < n →
      (slotAt table (probeAt table.length pos m)).sig_pos ≠ U32MAX) →
    findVacant table pos (n + fuel) =
      findVacant table (probeAt table.length pos n) fuel := by
  intro n
  induction n with
  | zero =>
    intro pos fuel ha _
    rw [Nat.zero_add, probeAt_zero ha]
  | succ m ih =>
    intro pos fuel ha hcond
    have hT : 0 < table.length := by omega
    have h0 := hcond 0 (by omega)
    rw [probeAt_zero ha] at h0
    rw [show m + 1 + fuel = (m + fuel) + 1 from by omega, findVacant_succ,
      if_neg h0]
    have hnext : nextPos table.length pos = probeAt table.length pos 1 := by
      conv_lhs => rw [← probeAt_zero ha]
      rw [nextPos_probeAt hT]
    rw [hnext, ih (probeAt table.length pos 1) fuel (probeAt_lt hT pos 1)
      (fun m' hm' => by
        rw [probeAt_shift]
        exact hcond (1 + m') (by omega)), probeAt_shift]
    rw [show 1 + m = m + 1 from by omega]

theorem findVacant_spec (t : List Elem) (a : Nat) (ha : a < t.length)
    (hvac : ∃ v, v < t.length ∧ (slotAt t v).sig_pos = U32MAX) :
    ∃ n, n < t.length ∧
      findVacant t a t.length = some (probeAt t.length a n) ∧
      (slotAt t (probeAt t.length a n)).sig_pos = U32MAX ∧
      ∀ m, m < n → (slotAt t (probeAt t.length a m)).sig_pos ≠ U32MAX := by
  have hT : 0 < t.length := by omega
  obtain ⟨v, hv, hvac2⟩ := hvac
  have hex : ∃ n, (slotAt t (probeAt t.length a n)).sig_pos = U32MAX :=
    ⟨cdist t.length a v, by rw [probeAt_cdist (le_of_lt ha) hv]; exact hvac2⟩
  have hNle : Nat.find hex ≤ cdist t.length a v :=
    Nat.find_min' hex (by rw [probeAt_cdist (le_of_lt ha) hv]; exact hvac2)
  have hNlt : Nat.find hex < t.length := lt_of_le_of_lt hNle (cdist_lt hT a v)
  refine ⟨Nat.find hex, hNlt, ?_, Nat.find_spec hex,
    fun m hm => Nat.find_min hex hm⟩
  have hshift := findVacant_shift t (Nat.find hex) a (t.length - Nat.find hex)
    ha (fun m hm => Nat.find_min hex hm)
  rw [show Nat.find hex + (t.length - Nat.find hex) = t.length from by omega] at hshift
  rw [hshift, show t.length - Nat.find hex = (t.length - Nat.find hex - 1) + 1 from by omega,
    findVacant_succ, if_pos (Nat.find_spec hex)]

theorem sigAt_mem {sm : SigMap} {k : Nat} (hk : k < sm.length) :
    sigAt sm k ∈ akeys sm := by
  have hlen : k < (akeys sm).length := by simpa [akeys] using hk
  have : (akeys sm)[k] = sigAt sm k := by
    simp only [akeys, List.getElem_map, sigAt, List.getD_eq_getElem?_getD,
      List.getElem?_eq_getElem hk]
    rfl
  rw [← this]
  exact List.getElem_mem hlen

theorem sigAt_inj {sm : SigMap} (hnd : (akeys sm).Nodup) {k k' : Nat}
    (hk : k < sm.length) (hk' : k' < sm.length)
    (h : sigAt sm k = sigAt sm k') : k = k' := by
  have hlen : k < (akeys sm).length := by simpa [akeys] using hk
  have hlen' : k' < (akeys sm).length := by simpa [akeys] using hk'
  have e1 : (akeys sm)[k] = sigAt sm k := by
    simp only [akeys, List.getElem_map, sigAt, List.getD_eq_getElem?_getD,
      List.getElem?_eq_getElem hk]
    rfl
  have e2 : (akeys sm)[k'] = sigAt sm k' := by
    simp only [akeys, List.getElem_map, sigAt, List.getD_eq_getElem?_getD,
      List.getElem?_eq_getElem hk']
    rfl
  exact (hnd.getElem_inj_iff).mp (by rw [e1, e2, h])

theorem mem_akeys_index {sm : SigMap} {s : List Nat} (h : s ∈ akeys sm) :
    ∃ k, k < sm.length ∧ sigAt sm k = s := by
  rw [akeys, List.mem_map] at h
  obtain ⟨sv, hsv, rfl⟩ := h
  obtain ⟨k, hk, hg⟩ := List.getElem_of_mem hsv
  refine ⟨k, hk, ?_⟩
  rw [sigAt, List.getD_eq_getElem?_getD, List.getElem?_eq_getElem hk, hg]
  rfl

theorem alookup_sigAt {sm : SigMap} (hnd : (akeys sm).Nodup) :
    ∀ {k : Nat}, k < sm.length → alookup sm (sigAt sm k) = some (idsAt sm k) := by
  induction sm with
  | nil => intro k hk; simp at hk
  | cons sv rest ih =>
    intro k hk
    obtain ⟨t, l⟩ := sv
    simp only [akeys, List.map_cons, List.nodup_cons] at hnd
    cases k with
    | zero =>
      simp [alookup, sigAt, idsAt]
    | succ m =>
      have hm : m < rest.length := by simpa using hk
      have hmem : sigAt rest m ∈ akeys rest := sigAt_mem hm
      have hne : t ≠ sigAt rest m := fun hc => hnd.1 (by rw [hc]; exact hmem)
      have hs : sigAt ((t, l) :: rest) (m + 1) = sigAt rest m := by
        simp [sigAt]
      have hi : idsAt ((t, l) :: rest) (m + 1) = idsAt rest m := by
        simp [idsAt]
      rw [hs, hi, alookup, if_neg hne]
      exact ih hnd.2 hm

theorem probe_found {idx : OdvIndex} {sm : SigMap} (inv : TableInv idx sm)
    {k : Nat} (hk : k < sm.length) (hT : 0 < idx.m_table.length) :
    probeLoop idx (sigAt sm k) (fnv1a_hash (sigAt sm k) % idx.m_table.length)
      idx.m_table.length = some (idsAt sm k) := by
  have ha : fnv1a_hash (sigAt sm k) % idx.m_table.length < idx.m_table.length :=
    Nat.mod_lt _ hT
  obtain ⟨p, hp, hslot⟩ := inv.slot_of k hk
  have hocc_p : (slotAt idx.m_table p).sig_pos ≠ U32MAX := by
    rw [hslot]
    have := inv.le32
    simp only [ne_eq]
    omega
  have hsig_p : (slotAt idx.m_table p).sig_pos = k := by rw [hslot]
  have hD : cdist idx.m_table.length
      (fnv1a_hash (sigAt sm k) % idx.m_table.length) p < idx.m_table.length :=
    cdist_lt hT _ _
  have hcond : ∀ m, m < cdist idx.m_table.length
      (fnv1a_hash (sigAt sm k) % idx.m_table.length) p →
      (slotAt idx.m_table (probeAt idx.m_table.length
        (fnv1a_hash (sigAt sm k) % idx.m_table.length) m)).sig_pos ≠ U32MAX ∧
      sigAt sm k ≠ listSlice idx.m_signatures
        ((slotAt idx.m_table (probeAt idx.m_table.length
          (fnv1a_hash (sigAt sm k) % idx.m_table.length) m)).sig_pos * idx.m_length)
        idx.m_length := by
    intro m hm
    have hocc_m := inv.path p hp hocc_p m (by rw [hsig_p]; exact hm)
    rw [hsig_p] at hocc_m
    refine ⟨hocc_m, ?_⟩
    intro hcontra
    have hq : probeAt idx.m_table.length
        (fnv1a_hash (sigAt sm k) % idx.m_table.length) m < idx.m_table.length :=
      probeAt_lt hT _ _
    rw [stored_sig_eq inv hq hocc_m] at hcontra
    have hklt := (inv.occ_lt _ hq hocc_m).1
    have hkeq := sigAt_inj inv.keys_nodup hk hklt hcontra
    have hpq := inv.inj _ _ hq hp hocc_m hocc_p (by rw [hsig_p, ← hkeq])
    have hmT : m < idx.m_table.length := lt_trans hm hD
    rw [← hpq, cdist_probeAt ha hmT] at hm
    exact absurd hm (lt_irrefl _)
  have hshift := probeLoop_shift idx (sigAt sm k)
    (cdist idx.m_table.length (fnv1a_hash (sigAt sm k) % idx.m_table.length) p)
    (fnv1a_hash (sigAt sm k) % idx.m_table.length)
    (idx.m_table.length - cdist idx.m_table.length
      (fnv1a_hash (sigAt sm k) % idx.m_table.length) p) ha hcond
  rw [show cdist idx.m_table.length (fnv1a_hash (sigAt sm k) % idx.m_table.length) p +
      (idx.m_table.length - cdist idx.m_table.length
        (fnv1a_hash (sigAt sm k) % idx.m_table.length) p) = idx.m_table.length
    from by omega] at hshift
  rw [hshift, probeAt_cdist (le_of_lt ha) hp,
    show idx.m_table.length - cdist idx.m_table.length
        (fnv1a_hash (sigAt sm k) % idx.m_table.length) p =
      (idx.m_table.length - cdist idx.m_table.length
        (fnv1a_hash (sigAt sm k) % idx.m_table.length) p - 1) + 1 from by omega,
    probeLoop_succ, if_neg hocc_p]
  rw [stored_sig_eq inv hp hocc_p, hsig_p, if_pos rfl]
  rw [hslot]
  rw [inv.ids_eq]
  exact congrArg some (flatten_ids_slice sm k hk)

theorem probe_absent {idx : OdvIndex} {sm : SigMap} (inv : TableInv idx sm)
    {s : List Nat} (hs : s ∉ akeys sm)
    (hroom : sm.length < idx.m_table.length) :
    probeLoop idx s (fnv1a_hash s % idx.m_table.length) idx.m_table.length =
      some [] := by
  have hT : 0 < idx.m_table.length := by omega
  have ha : fnv1a_hash s % idx.m_table.length < idx.m_table.length := Nat.mod_lt _ hT
  obtain ⟨v, hv, hvac⟩ := inv_exists_vacant inv hroom
  have hex : ∃ n, (slotAt idx.m_table (probeAt idx.m_table.length
      (fnv1a_hash s % idx.m_table.length) n)).sig_pos = U32MAX :=
    ⟨cdist idx.m_table.length (fnv1a_hash s % idx.m_table.length) v,
      by rw [probeAt_cdist (le_of_lt ha) hv]; exact hvac⟩
  have hNlt : Nat.find hex < idx.m_table.length :=
    lt_of_le_of_lt (Nat.find_min' hex
      (by rw [probeAt_cdist (le_of_lt ha) hv]; exact hvac)) (cdist_lt hT _ _)
  have hcond : ∀ m, m < Nat.find hex →
      (slotAt idx.m_table (probeAt idx.m_table.length
        (fnv1a_hash s % idx.m_table.length) m)).sig_pos ≠ U32MAX ∧
      s ≠ listSlice idx.m_signatures
        ((slotAt idx.m_table (probeAt idx.m_table.length
          (fnv1a_hash s % idx.m_table.length) m)).sig_pos * idx.m_length)
        idx.m_length := by
    intro m hm
    have hocc_m := Nat.find_min hex hm
    refine ⟨hocc_m, ?_⟩
    intro hcontra
    have hq : probeAt idx.m_table.length
        (fnv1a_hash s % idx.m_table.length) m < idx.m_table.length :=
      probeAt_lt hT _ _
    rw [stored_sig_eq inv hq hocc_m] at hcontra
    have hklt := (inv.occ_lt _ hq hocc_m).1
    exact hs (hcontra ▸ sigAt_mem hklt)
  have hshift := probeLoop_shift idx s (Nat.find hex)
    (fnv1a_hash s % idx.m_table.length)
    (idx.m_table.length - Nat.find hex) ha hcond
  rw [show Nat.find hex + (idx.m_table.length - Nat.find hex) = idx.m_table.length
    from by omega] at hshift
  rw [hshift, show idx.m_table.length - Nat.find hex =
      (idx.m_table.length - Nat.find hex - 1) + 1 from by omega,
    probeLoop_succ, if_pos (Nat.find_spec hex)]

theorem probe_result {idx : OdvIndex} {sm : SigMap} (inv : TableInv idx sm)
    (hT : 0 < idx.m_table.length) (s : List Nat)
    (hterm : s ∈ akeys sm ∨ sm.length < idx.m_table.length) :
    probeLoop idx s (fnv1a_hash s % idx.m_table.length) idx.m_table.length =
      some ((alookup sm s).getD []) := by
  by_cases hmem : s ∈ akeys sm
  · obtain ⟨k, hk, rfl⟩ := mem_akeys_index hmem
    rw [probe_found inv hk hT, alookup_sigAt inv.keys_nodup hk]
    rfl
  · have hroom := hterm.resolve_left hmem
    rw [probe_absent inv hmem hroom, (alookup_eq_none sm s).mpr hmem]
    rfl

theorem slotAt_set_self {t : List Elem} {p : Nat} (hp : p < t.length) (e : Elem) :
    slotAt (t.set p e) p = e := by
  rw [slotAt, List.getD_eq_getElem?_getD, List.getElem?_set_self hp]
  rfl

theorem slotAt_set_ne {t : List Elem} {p q : Nat} (h : p ≠ q) (e : Elem) :
    slotAt (t.set p e) q = slotAt t q := by
  rw [slotAt, slotAt, List.getD_eq_getElem?_getD, List.getD_eq_getElem?_getD,
    List.getElem?_set_ne h]

theorem flatten_length_uniform {α : Type} (w : Nat) (ls : List (List α))
    (h : ∀ l ∈ ls, l.length = w) : ls.flatten.length = ls.length * w := by
  induction ls with
  | nil => simp
  | cons l rest ih =>
    simp only [List.flatten_cons, List.length_append, List.length_cons]
    rw [h l (by simp), ih (fun x hx => h x (by simp [hx]))]
    ring

theorem idOff_append {done : SigMap} (e : List Nat × List Nat) {k : Nat}
    (hk : k ≤ done.length) : idOff (done ++ [e]) k = idOff done k := by
  rw [idOff, idOff, List.take_append_of_le_length hk]

theorem idOff_append_last (done : SigMap) (e : List Nat × List Nat) :
    idOff (done ++ [e]) (done.length + 1) = idOff done done.length + e.2.length := by
  rw [idOff, show done.length + 1 = (done ++ [e]).length from by simp,
    List.take_length, List.map_append, List.flatten_append, List.length_append,
    idOff, List.take_length]
  simp

theorem idOff_full (done : SigMap) :
    idOff done done.length = ((done.map Prod.snd).flatten).length := by
  rw [idOff, List.take_length]

theorem sigAt_append {done : SigMap} (e : List Nat × List Nat) {k : Nat}
    (hk : k < done.length) : sigAt (done ++ [e]) k = sigAt done k := by
  rw [sigAt, sigAt, List.getD_append _ _ _ _ hk]

theorem sigAt_append_last (done : SigMap) (e : List Nat × List Nat) :
    sigAt (done ++ [e]) done.length = e.1 := by
  rw [sigAt, List.getD_append_right _ _ _ _ le_rfl]
  simp

theorem insertSig_inv {st : OdvIndex} {done : SigMap} (inv : TableInv st done)
    (s idl : List Nat) (hfresh : s ∉ akeys done) (hslen : s.length = st.m_length)
    (h32 : done.length + 1 ≤ U32MAX) (hroom : done.length < st.m_table.length) :
    TableInv (insertSig st s idl) (done ++ [(s, idl)]) := by
  have hT : 0 < st.m_table.length := by omega
  have ha : fnv1a_hash s % st.m_table.length < st.m_table.length := Nat.mod_lt _ hT
  obtain ⟨v, hv, hvac⟩ := inv_exists_vacant inv hroom
  obtain ⟨n, hn, hfv, hvacn, hoccm⟩ := findVacant_spec st.m_table
    (fnv1a_hash s % st.m_table.length) ha ⟨v, hv, hvac⟩
  have hcpp : cppMod (fnv1a_hash s) st.m_table.length =
      some (fnv1a_hash s % st.m_table.length) := by
    rw [cppMod, if_neg (by omega)]
  have hp : probeAt st.m_table.length (fnv1a_hash s % st.m_table.length) n <
      st.m_table.length := probeAt_lt hT _ _
  have hsiglen : st.m_signatures.length = done.length * st.m_length := by
    rw [inv.sigs_eq, flatten_length_uniform st.m_length (done.map Prod.fst)
      (by
        intro l hl
        rw [List.mem_map] at hl
        obtain ⟨sv, hsv, rfl⟩ := hl
        exact inv.sig_len sv hsv)]
    simp
  have hidlen : st.m_ids.length = idOff done done.length := by
    rw [inv.ids_eq, idOff_full]
  have hins : insertSig st s idl = { st with
      m_table := st.m_table.set
        (probeAt st.m_table.length (fnv1a_hash s % st.m_table.length) n)
        ⟨done.length, idOff done done.length, idOff done done.length + idl.length⟩,
      m_signatures := st.m_signatures ++ s,
      m_ids := st.m_ids ++ idl } := by
    simp only [insertSig, hcpp, hfv]
    have h1 : st.m_signatures.length / st.m_length = done.length := by
      rw [hsiglen, Nat.mul_div_cancel _ inv.len_pos]
    rw [h1, hidlen]
  rw [hins]
  have hTpres : (st.m_table.set
      (probeAt st.m_table.length (fnv1a_hash s % st.m_table.length) n)
      ⟨done.length, idOff done done.length, idOff done done.length + idl.length⟩).length =
      st.m_table.length := by
    simp
  have hocc_new : ∀ x, x < st.m_table.length →
      (slotAt st.m_table x).sig_pos ≠ U32MAX →
      x ≠ probeAt st.m_table.length (fnv1a_hash s % st.m_table.length) n := by
    intro x hx hocc hc
    rw [hc] at hocc
    exact hocc hvacn
  have hocc_mono : ∀ x, x < st.m_table.length →
      (slotAt st.m_table x).sig_pos ≠ U32MAX →
      (slotAt (st.m_table.set
        (probeAt st.m_table.length (fnv1a_hash s % st.m_table.length) n)
        ⟨done.length, idOff done done.length, idOff done done.length + idl.length⟩)
        x).sig_pos ≠ U32MAX := by
    intro x hx hocc
    rw [slotAt_set_ne (fun hc => hocc_new x hx hocc hc.symm)]
    exact hocc
  have hNE : (done.length : Nat) ≠ U32MAX := by omega
  constructor
  case le32 => simpa using h32
  case len_pos => exact inv.len_pos
  case sig_len =>
    intro sv hsv
    rw [List.mem_append] at hsv
    rcases hsv with h | h
    · exact inv.sig_len sv h
    · simp only [List.mem_singleton] at h
      rw [h]
      exact hslen
  case keys_nodup =>
    have : akeys (done ++ [(s, idl)]) = akeys done ++ [s] := by
      simp [akeys]
    rw [this, List.nodup_append]
    exact ⟨inv.keys_nodup, by simp, by simpa using hfresh⟩
  case sigs_eq =>
    show st.m_signatures ++ s = _
    rw [inv.sigs_eq, List.map_append, List.flatten_append]
    simp
  case ids_eq =>
    show st.m_ids ++ idl = _
    rw [inv.ids_eq, List.map_append, List.flatten_append]
    simp
  case slot_of =>
    intro k hk
    rw [List.length_append, List.length_singleton] at hk
    rw [hTpres]
    by_cases hkd : k < done.length
    · obtain ⟨q, hq, hslotq⟩ := inv.slot_of k hkd
      have hocc_q : (slotAt st.m_table q).sig_pos ≠ U32MAX := by
        rw [hslotq]
        simp only [ne_eq]
        omega
      refine ⟨q, hq, ?_⟩
      rw [slotAt_set_ne (fun hc => hocc_new q hq hocc_q hc.symm), hslotq,
        idOff_append _ (by omega), idOff_append _ (by omega)]
    · have hk2 : k = done.length := by omega
      subst hk2
      refine ⟨probeAt st.m_table.length (fnv1a_hash s % st.m_table.length) n, hp, ?_⟩
      rw [slotAt_set_self hp, idOff_append _ le_rfl, idOff_append_last]
  case occ_lt =>
    intro q hq hocc
    rw [hTpres] at hq
    by_cases hqp : q = probeAt st.m_table.length (fnv1a_hash s % st.m_table.length) n
    · subst hqp
      rw [slotAt_set_self hp]
      rw [slotAt_set_self hp] at hocc
      refine ⟨by simp, ?_⟩
      simp only
      rw [idOff_append _ le_rfl, idOff_append_last]
    · rw [slotAt_set_ne (fun hc => hqp hc.symm)] at hocc ⊢
      obtain ⟨h1, h2⟩ := inv.occ_lt q hq hocc
      refine ⟨by simp; omega, ?_⟩
      rw [idOff_append _ (by omega), idOff_append _ (by omega)]
      exact h2
  case inj =>
    intro q q' hq hq' hocc hocc' heq
    rw [hTpres] at hq hq'
    by_cases hqp : q = probeAt st.m_table.length (fnv1a_hash s % st.m_table.length) n
    · by_cases hqp' : q' = probeAt st.m_table.length (fnv1a_hash s % st.m_table.length) n
      · rw [hqp, hqp']
      · subst hqp
        rw [slotAt_set_self hp] at heq
        rw [slotAt_set_ne (fun hc => hqp' hc.symm)] at heq hocc'
        have := (inv.occ_lt q' hq' hocc').1
        simp only at heq
        omega
    · by_cases hqp' : q' = probeAt st.m_table.length (fnv1a_hash s % st.m_table.length) n
      · subst hqp'
        rw [slotAt_set_self hp] at heq
        rw [slotAt_set_ne (fun hc => hqp hc.symm)] at heq hocc
        have := (inv.occ_lt q hq hocc).1
        simp only at heq
        omega
      · rw [slotAt_set_ne (fun hc => hqp hc.symm)] at heq hocc
        rw [slotAt_set_ne (fun hc => hqp' hc.symm)] at heq hocc'
        exact inv.inj q q' hq hq' hocc hocc' heq
  case path =>
    intro q hq hocc m hm
    rw [hTpres] at hq hm
    rw [hTpres]
    by_cases hqp : q = probeAt st.m_table.length (fnv1a_hash s % st.m_table.length) n
    · subst hqp
      rw [slotAt_set_self hp] at hm ⊢
      simp only at hm ⊢
      rw [sigAt_append_last] at hm ⊢
      simp only at hm ⊢
      rw [cdist_probeAt ha hn] at hm
      have hoccm2 := hoccm m hm
      have hmp : probeAt st.m_table.length (fnv1a_hash s % st.m_table.length) m ≠
          probeAt st.m_table.length (fnv1a_hash s % st.m_table.length) n := by
        intro hc
        rw [hc] at hoccm2
        exact hoccm2 hvacn
      rw [slotAt_set_ne (fun hc => hmp hc.symm)]
      exact hoccm2
    · rw [slotAt_set_ne (fun hc => hqp hc.symm)] at hm hocc ⊢
      have hklt := (inv.occ_lt q hq hocc).1
      rw [sigAt_append _ hklt] at hm ⊢
      have := inv.path q hq hocc m hm
      exact hocc_mono _ (probeAt_lt hT _ _) this

theorem slotAt_replicate (T p : Nat) :
    slotAt (List.replicate T vacantElem) p = vacantElem := by
  rw [slotAt, List.getD_eq_getElem?_getD, List.getElem?_replicate]
  split <;> rfl

theorem odvInit_inv (T len del : Nat) (hlen : 0 < len) :
    TableInv (odvInit T len del) [] := by
  have hslot : ∀ p, slotAt (odvInit T len del).m_table p = vacantElem := by
    intro p
    exact slotAt_replicate T p
  constructor
  case le32 => simp [U32MAX]
  case len_pos => exact hlen
  case sig_len => intro sv hsv; simp at hsv
  case keys_nodup => simp [akeys]
  case sigs_eq => rfl
  case ids_eq => rfl
  case slot_of => intro k hk; simp at hk
  case occ_lt =>
    intro p hp hocc
    rw [hslot p] at hocc
    exact absurd rfl hocc
  case inj =>
    intro p q hp hq hocc _ _
    rw [hslot p] at hocc
    exact absurd rfl hocc
  case path =>
    intro p hp hocc
    rw [hslot p] at hocc
    exact absurd rfl hocc

theorem insertAll_inv :
    ∀ (rest done : SigMap) (st : OdvIndex), TableInv st done →
    (akeys (done ++ rest)).Nodup →
    (∀ sv ∈ rest, (sv : List Nat × List Nat).1.length = st.m_length) →
    done.length + rest.length ≤ U32MAX →
    done.length + rest.length ≤ st.m_table.length →
    TableInv (insertAll st rest) (done ++ rest) := by
  intro rest
  induction rest with
  | nil =>
    intro done st inv _ _ _ _
    simpa [insertAll] using inv
  | cons sv rest ih =>
    intro done st inv hnd hlen h32 hroom
    obtain ⟨t, l⟩ := sv
    have hkeys : akeys (done ++ (t, l) :: rest) = akeys done ++ t :: akeys rest := by
      simp [akeys]
    rw [hkeys, List.nodup_append] at hnd
    have hfresh : t ∉ akeys done := fun hc => hnd.2.2 hc (by simp)
    have step := insertSig_inv inv t l hfresh (hlen (t, l) (by simp))
      (by simp at h32 ⊢; omega) (by simp at hroom ⊢; omega)
    have hassoc : done ++ (t, l) :: rest = (done ++ [(t, l)]) ++ rest := by simp
    rw [hassoc]
    show TableInv (insertAll (insertSig st t l) rest) _
    apply ih (done ++ [(t, l)]) (insertSig st t l) step
    · rw [← hassoc, hkeys, List.nodup_append]
      exact hnd
    · intro sv hsv
      rw [insertSig_m_length]
      exact hlen sv (by simp [hsv])
    · simp at h32 ⊢
      omega
    · rw [insertSig_table_length]
      simp at hroom ⊢
      omega

theorem odvBuild_inv {keys : List (List Nat)} {len σ : Nat} {idx : OdvIndex}
    {sm : SigMap} (h : odvBuild keys len σ = Except.ok idx)
    (hsm : buildSigMap keys len σ = Except.ok sm) (hlen : 0 < len)
    (hsig_len : ∀ sv ∈ sm, (sv : List Nat × List Nat).1.length = len)
    (hnodup : (akeys sm).Nodup) :
    TableInv idx sm ∧ idx.m_length = len ∧ idx.m_del_marker = σ ∧
      idx.m_table.length = tableSize sm.length := by
  obtain ⟨hσ, sm', hsm', hle, hidx⟩ := odvBuild_ok h
  rw [hsm] at hsm'
  injection hsm' with he
  subst he
  have base := odvInit_inv (tableSize sm.length) len σ hlen
  have main := insertAll_inv sm [] (odvInit (tableSize sm.length) len σ) base
    (by simpa using hnodup) (fun sv hsv => hsig_len sv hsv)
    (by simpa using hle)
    (by
      show 0 + sm.length ≤
        (List.replicate (tableSize sm.length) vacantElem).length
      simp
      exact tableSize_ge_self hle)
  rw [hidx]
  refine ⟨by simpa using main, ?_, ?_, ?_⟩
  · rw [insertAll_m_length]
    rfl
  · rw [insertAll_m_del_marker]
    rfl
  · rw [insertAll_table_length]
    simp [odvInit]

/-! ## Content of the signature map -/

/-- The (signature, id) pairs the nested build loops insert, flattened in
insertion order. -/
def sigPairs (keys : List (List Nat)) (len del : Nat) : List (List Nat × Nat) :=
  keys.enum.flatMap (fun ik =>
    (List.range len).map (fun j => (make_signature ik.2 len j del, ik.1)))

/-- The signature map built by inserting a flat pair list in order. -/
def smOfPairs (ps : List (List Nat × Nat)) : SigMap :=
  ps.foldl (fun sm p => smInsert sm p.1 p.2) []

theorem foldlM_guarded_ok {α : Type} {P : α → Prop} [DecidablePred P]
    {g : SigMap → α → SigMap} :
    ∀ {js : List α} {sm sm' : SigMap},
    js.foldlM (fun sm j =>
      if P j then Except.error BuildError.invalidAlphabet
      else Except.ok (g sm j)) sm = Except.ok sm' →
    sm' = js.foldl g sm := by
  intro js
  induction js with
  | nil =>
    intro sm sm' h
    simp only [List.foldlM_nil, pure, Except.pure, Except.ok.injEq] at h
    simp [h.symm]
  | cons j js ih =>
    intro sm sm' h
    rw [List.foldlM_cons] at h
    by_cases hP : P j
    · rw [if_pos hP] at h
      simp [Bind.bind, Except.bind] at h
    · rw [if_neg hP] at h
      simp only [Bind.bind, Except.bind] at h
      rw [List.foldl_cons]
      exact ih h

theorem sigMapAddKey_ok {sm sm' : SigMap} {key : List Nat} {len del i : Nat}
    (h : sigMapAddKey sm key len del i = Except.ok sm') :
    sm' = ((List.range len).map
      (fun j => (make_signature key len j del, i))).foldl
        (fun sm p => smInsert sm p.1 p.2) sm := by
  have h2 := foldlM_guarded_ok (P := fun j => key.getD j 0 ≥ del)
    (g := fun sm j => smInsert sm (make_signature key len j del) i) h
  rw [h2, List.foldl_map]

theorem buildSigMap_ok {keys : List (List Nat)} {len del : Nat} {sm : SigMap}
    (h : buildSigMap keys len del = Except.ok sm) :
    sm = smOfPairs (sigPairs keys len del) := by
  suffices hgen : ∀ (l : List (Nat × List Nat)) (sm0 sm' : SigMap),
      l.foldlM (fun sm ik => sigMapAddKey sm ik.2 len del ik.1) sm0 =
        Except.ok sm' →
      sm' = (l.flatMap (fun ik => (List.range len).map
        (fun j => (make_signature ik.2 len j del, ik.1)))).foldl
          (fun sm p => smInsert sm p.1 p.2) sm0 by
    exact hgen keys.enum [] sm h
  intro l
  induction l with
  | nil =>
    intro sm0 sm' h
    simp only [List.foldlM_nil, pure, Except.pure, Except.ok.injEq] at h
    simp [h.symm]
  | cons ik l ih =>
    intro sm0 sm' h
    rw [List.foldlM_cons] at h
    cases hk : sigMapAddKey sm0 ik.2 len del ik.1 with
    | error e =>
      rw [hk] at h
      simp [Bind.bind, Except.bind] at h
    | ok sm1 =>
      rw [hk] at h
      simp only [Bind.bind, Except.bind] at h
      rw [List.flatMap_cons, List.foldl_append, ← sigMapAddKey_ok hk]
      exact ih sm1 sm' h

theorem smInsert_lookup (sm : SigMap) (t s : List Nat) (i : Nat) :
    alookup (smInsert sm t i) s =
      if s = t then some ((alookup sm s).getD [] ++ [i]) else alookup sm s := by
  induction sm with
  | nil =>
    by_cases h : s = t
    · subst h
      simp [smInsert, alookup]
    · have h2 : ¬t = s := fun hc => h hc.symm
      simp [smInsert, alookup, h, h2]
  | cons kv rest ih =>
    obtain ⟨k, v⟩ := kv
    by_cases hk : k = t
    · subst hk
      by_cases h : s = k
      · subst h
        simp [smInsert, alookup]
      · have h2 : ¬k = s := fun hc => h hc.symm
        simp [smInsert, alookup, h, h2]
    · by_cases h : k = s
      · subst h
        have h2 : ¬k = t := hk
        simp [smInsert, alookup, hk, h2, fun hc : k = t => hk hc]
      · simp [smInsert, alookup, hk, h, ih]

theorem smOfPairs_foldl_count :
    ∀ (ps : List (List Nat × Nat)) (sm : SigMap) (s : List Nat) (i : Nat),
    ((alookup (ps.foldl (fun sm p => smInsert sm p.1 p.2) sm) s).getD []).count i =
      ((alookup sm s).getD []).count i + ps.count (s, i) := by
  intro ps
  induction ps with
  | nil => intro sm s i; simp
  | cons p ps ih =>
    intro sm s i
    obtain ⟨t, x⟩ := p
    rw [List.foldl_cons, ih, List.count_cons]
    by_cases hs : s = t
    · subst hs
      rw [smInsert_lookup, if_pos rfl]
      simp only [Option.getD_some, List.count_append]
      by_cases hi : x = i
      · subst hi
        simp
        omega
      · have hb : ((s, x) == (s, i)) = false := by
          rw [beq_eq_false_iff_ne]
          simp [hi]
        have hb2 : ((x : Nat) == i) = false := by
          rw [beq_eq_false_iff_ne]
          exact hi
        rw [hb]
        simp [List.count_cons, hb2]
    · rw [smInsert_lookup, if_neg hs]
      have hb : ((t, x) == (s, i)) = false := by
        rw [beq_eq_false_iff_ne]
        intro hc
        rw [Prod.mk.injEq] at hc
        exact hs hc.1.symm
      rw [hb]
      simp

theorem smOfPairs_count (ps : List (List Nat × Nat)) (s : List Nat) (i : Nat) :
    ((alookup (smOfPairs ps) s).getD []).count i = ps.count (s, i) := by
  rw [smOfPairs, smOfPairs_foldl_count]
  simp [alookup]

theorem smInsert_akeys (sm : SigMap) (t : List Nat) (i : Nat) :
    akeys (smInsert sm t i) =
      if t ∈ akeys sm then akeys sm else akeys sm ++ [t] := by
  induction sm with
  | nil => simp [smInsert, akeys]
  | cons kv rest ih =>
    obtain ⟨k, v⟩ := kv
    by_cases hk : k = t
    · subst hk
      simp [smInsert, akeys]
    · simp only [smInsert, if_neg hk, akeys, List.map_cons] at ih ⊢
      rw [ih]
      by_cases hmem : t ∈ akeys rest
      · simp [akeys] at hmem
        simp [hmem, Ne.symm hk]
      · simp [akeys] at hmem
        simp [hmem, Ne.symm hk]

theorem smOfPairs_foldl_nodup :
    ∀ (ps : List (List Nat × Nat)) (sm : SigMap), (akeys sm).Nodup →
    (akeys (ps.foldl (fun sm p => smInsert sm p.1 p.2) sm)).Nodup := by
  intro ps
  induction ps with
  | nil => intro sm h; exact h
  | cons p ps ih =>
    intro sm h
    rw [List.foldl_cons]
    apply ih
    rw [smInsert_akeys]
    by_cases hmem : p.1 ∈ akeys sm
    · simp [hmem, h]
    · simp [hmem, List.nodup_append, h]

theorem smOfPairs_nodup (ps : List (List Nat × Nat)) :
    (akeys (smOfPairs ps)).Nodup :=
  smOfPairs_foldl_nodup ps [] (by simp [akeys])

theorem smOfPairs_foldl_mem :
    ∀ (ps : List (List Nat × Nat)) (sm : SigMap) (s : List Nat),
    (s ∈ akeys (ps.foldl (fun sm p => smInsert sm p.1 p.2) sm) ↔
      s ∈ akeys sm ∨ s ∈ ps.map Prod.fst) := by
  intro ps
  induction ps with
  | nil => intro sm s; simp
  | cons p ps ih =>
    intro sm s
    rw [List.foldl_cons, ih, smInsert_akeys]
    by_cases hmem : p.1 ∈ akeys sm
    · rw [if_pos hmem]
      simp only [List.map_cons, List.mem_cons]
      constructor
      · intro h
        rcases h with h | h
        · exact Or.inl h
        · exact Or.inr (Or.inr h)
      · intro h
        rcases h with h | h | h
        · exact Or.inl h
        · exact Or.inl (by rw [h]; exact hmem)
        · exact Or.inr h
    · rw [if_neg hmem]
      simp only [List.map_cons, List.mem_cons, List.mem_append,
        List.mem_singleton, List.not_mem_nil, or_false]
      constructor
      · intro h
        rcases h with (h | h) | h
        · exact Or.inl h
        · exact Or.inr (Or.inl h)
        · exact Or.inr (Or.inr h)
      · intro h
        rcases h with h | h | h
        · exact Or.inl (Or.inl h)
        · exact Or.inl (Or.inr h)
        · exact Or.inr h

theorem mem_akeys_smOfPairs (ps : List (List Nat × Nat)) (s : List Nat) :
    s ∈ akeys (smOfPairs ps) ↔ s ∈ ps.map Prod.fst := by
  rw [smOfPairs, smOfPairs_foldl_mem]
  simp [akeys]

theorem sigPairs_from_count (len del : Nat) (s : List Nat) :
    ∀ (keys : List (List Nat)) (n i : Nat),
    ((List.enumFrom n keys).flatMap (fun ik =>
      (List.range len).map (fun j => (make_signature ik.2 len j del, ik.1)))).count
        (s, i) =
      if n ≤ i ∧ i - n < keys.length then
        (List.range len).countP
          (fun j => make_signature (keys.getD (i - n) []) len j del == s)
      else 0 := by
  intro keys
  induction keys with
  | nil => intro n i; simp
  | cons key keys ih =>
    intro n i
    rw [List.enumFrom_cons, List.flatMap_cons, List.count_append, ih (n + 1) i,
      List.count_eq_countP, List.countP_map]
    by_cases hn : i = n
    · subst hn
      rw [List.countP_congr (q := fun j => make_signature key len j del == s)
        (fun j _ => by
          constructor
          · intro h
            rw [Function.comp_apply, beq_iff_eq, Prod.mk.injEq] at h
            rw [beq_iff_eq]
            exact h.1
          · intro h
            rw [beq_iff_eq] at h
            rw [Function.comp_apply, beq_iff_eq, Prod.mk.injEq]
            exact ⟨h, rfl⟩)]
      rw [if_neg (by omega), Nat.sub_self,
        if_pos ⟨le_rfl, by simp⟩]
      simp
    · rw [List.countP_eq_zero.mpr (fun j _ => by
        rw [Function.comp_apply]
        simp only [beq_iff_eq, Prod.mk.injEq, not_and]
        intro _
        exact fun hc => hn hc.symm)]
      by_cases hlt : n < i
      · have he : i - n = (i - (n + 1)) + 1 := by omega
        rw [he, List.getD_cons_succ]
        have hiff : (n ≤ i ∧ (i - (n + 1)) + 1 < (key :: keys).length) ↔
            (n + 1 ≤ i ∧ i - (n + 1) < keys.length) := by
          simp
          omega
        rw [if_congr hiff rfl rfl]
        simp
      · rw [if_neg (by omega), if_neg (by simp; omega)]

theorem sigPairs_count (keys : List (List Nat)) (len del : Nat) (s : List Nat)
    (i : Nat) :
    (sigPairs keys len del).count (s, i) =
      if i < keys.length then
        (List.range len).countP
          (fun j => make_signature (keys.getD i []) len j del == s)
      else 0 := by
  rw [sigPairs, show keys.enum = List.enumFrom 0 keys from rfl,
    sigPairs_from_count len del s keys 0 i]
  simp

theorem make_signature_length {key : List Nat} {len : Nat} (h : len ≤ key.length)
    (j del : Nat) : (make_signature key len j del).length = len := by
  rw [make_signature, List.length_set, List.length_take]
  omega

theorem odvSearch_eq {idx : OdvIndex} {sm : SigMap} (inv : TableInv idx sm)
    (hT : 0 < idx.m_table.length) (key : List Nat)
    (hterm : ∀ j, j < idx.m_length →
      make_signature key idx.m_length j idx.m_del_marker ∈ akeys sm ∨
        sm.length < idx.m_table.length) :
    odvSearch idx key = some (((List.range idx.m_length).map (fun j =>
      (alookup sm (make_signature key idx.m_length j idx.m_del_marker)).getD
        [])).flatten) := by
  rw [odvSearch]
  simp only [Bind.bind, pure]
  suffices hgen : ∀ (js : List Nat) (out : List Nat),
      (∀ j ∈ js, make_signature key idx.m_length j idx.m_del_marker ∈ akeys sm ∨
        sm.length < idx.m_table.length) →
      js.foldlM (fun out j =>
        (cppMod (fnv1a_hash (make_signature key idx.m_length j idx.m_del_marker))
          idx.m_table.length).bind fun start =>
        (probeLoop idx (make_signature key idx.m_length j idx.m_del_marker) start
          idx.m_table.length).bind fun r => some (out ++ r)) out =
        some (out ++ (js.map (fun j =>
          (alookup sm (make_signature key idx.m_length j idx.m_del_marker)).getD
            [])).flatten) by
    have := hgen (List.range idx.m_length) []
      (fun j hj => hterm j (List.mem_range.mp hj))
    simpa using this
  intro js
  induction js with
  | nil => intro out _; simp [pure]
  | cons j js ih =>
    intro out hjs
    have hcpp : cppMod
        (fnv1a_hash (make_signature key idx.m_length j idx.m_del_marker))
        idx.m_table.length =
        some (fnv1a_hash (make_signature key idx.m_length j idx.m_del_marker) %
          idx.m_table.length) := by
      rw [cppMod, if_neg (by omega)]
    rw [List.foldlM_cons]
    simp only [Bind.bind, hcpp, Option.some_bind,
      probe_result inv hT (make_signature key idx.m_length j idx.m_del_marker)
        (hjs j (by simp))]
    rw [ih (out ++ (alookup sm
        (make_signature key idx.m_length j idx.m_del_marker)).getD [])
      (fun j' hj' => hjs j' (by simp [hj']))]
    simp only [List.map_cons, List.flatten_cons, List.append_assoc]

/-- Every signature stored by a successful build is a one-deletion variant
of some key. -/
theorem sm_sig_of_mem {keys : List (List Nat)} {len del : Nat}
    {sv : List Nat × List Nat}
    (h : sv ∈ smOfPairs (sigPairs keys len del)) :
    ∃ k ∈ keys, ∃ j < len, sv.1 = make_signature k len j del := by
  have h1 : sv.1 ∈ akeys (smOfPairs (sigPairs keys len del)) :=
    List.mem_map_of_mem Prod.fst h
  rw [mem_akeys_smOfPairs] at h1
  obtain ⟨p, hp, hfst⟩ := List.mem_map.mp h1
  rw [sigPairs, List.mem_flatMap] at hp
  obtain ⟨ik, hik, hpm⟩ := hp
  rw [List.mem_map] at hpm
  obtain ⟨j, hj, rfl⟩ := hpm
  exact ⟨ik.2, List.snd_mem_of_mem_enum hik, j, List.mem_range.mp hj, hfst.symm⟩

/-- The invariant of a successful `odv_index::build`, with the signature
map given explicitly by its content. -/
theorem odvBuild_inv_of {keys : List (List Nat)} {len σ : Nat} {idx : OdvIndex}
    (h : odvBuild keys len σ = Except.ok idx) (hlen : 0 < len)
    (hkl : ∀ k ∈ keys, len ≤ k.length) :
    TableInv idx (smOfPairs (sigPairs keys len σ)) ∧ idx.m_length = len ∧
      idx.m_del_marker = σ ∧
      idx.m_table.length = tableSize (smOfPairs (sigPairs keys len σ)).length := by
  obtain ⟨hσ, sm, hsm, hle, hidx⟩ := odvBuild_ok h
  have heq := buildSigMap_ok hsm
  subst heq
  exact odvBuild_inv h hsm hlen
    (fun sv hsv => by
      obtain ⟨k, hk, j, hj, hs⟩ := sm_sig_of_mem hsv
      rw [hs]
      exact make_signature_length (hkl k hk) j σ)
    (smOfPairs_nodup _)

/-- Claim C9: the ODV probe starts at hash(sig) mod table-size.  For an
index built from at least one key (with positive bucket length) the table
size is positive and the modulo is defined; for an index built from an
empty key collection the table has zero slots and the search performs a
modulo by zero on every position (modelled by `cppMod _ 0 = none`), so
search of an empty index is not total. -/
theorem C9_empty_index_mod_zero {len σ : Nat} (hlen : 0 < len) :
    (∀ (keys : List (List Nat)) (idx : OdvIndex), keys ≠ [] →
      odvBuild keys len σ = Except.ok idx →
      0 < idx.m_table.length ∧
        ∀ s, cppMod (fnv1a_hash s) idx.m_table.length ≠ none) ∧
    (∀ idx : OdvIndex, odvBuild [] len σ = Except.ok idx →
      idx.m_table.length = 0 ∧ ∀ key, odvSearch idx key = none) := by
  constructor
  · intro keys idx hne h
    obtain ⟨hσ, sm, hsm, hle, hidx⟩ := odvBuild_ok h
    have heq := buildSigMap_ok hsm
    obtain ⟨k, ktl, rfl⟩ : ∃ k ktl, keys = k :: ktl := by
      cases keys with
      | nil => exact absurd rfl hne
      | cons k ktl => exact ⟨k, ktl, rfl⟩
    have hmem : make_signature k len 0 σ ∈ akeys sm := by
      rw [heq, mem_akeys_smOfPairs]
      refine List.mem_map.mpr ⟨(make_signature k len 0 σ, 0), ?_, rfl⟩
      rw [sigPairs, List.mem_flatMap]
      refine ⟨(0, k), ?_, ?_⟩
      · show (0, k) ∈ (0, k) :: List.enumFrom 1 ktl
        exact List.mem_cons_self _ _
      · rw [List.mem_map]
        exact ⟨0, List.mem_range.mpr hlen, rfl⟩
    have hpos : 0 < sm.length := by
      cases sm with
      | nil => simp [akeys] at hmem
      | cons _ _ => simp
    have hlen' : idx.m_table.length = tableSize sm.length := by
      rw [hidx, insertAll_table_length]
      simp [odvInit]
    have hTpos : 0 < idx.m_table.length := by
      rw [hlen']
      exact tableSize_pos hpos hle
    refine ⟨hTpos, fun s => ?_⟩
    rw [cppMod, if_neg (by omega)]
    simp
  · intro idx h
    obtain ⟨hσ, sm, hsm, hle, hidx⟩ := odvBuild_ok h
    have heq := buildSigMap_ok hsm
    have hnil : sm = [] := by
      rw [heq]
      rfl
    subst hnil
    have hidx' : idx = odvInit 0 len σ := by
      rw [hidx]
      rfl
    subst hidx'
    refine ⟨rfl, fun key => ?_⟩
    obtain ⟨n, rfl⟩ : ∃ n, len = n + 1 := ⟨len - 1, by omega⟩
    rw [odvSearch]
    show (List.range (n + 1)).foldlM _ _ = none
    rw [List.range_succ_eq_map, List.foldlM_cons]
    simp [cppMod, Bind.bind, Option.bind, odvInit]

theorem C9_empty_index_mod_zero_witness :
    ((odvBuild ([] : List (List Nat)) 1 1).toOption.getD defaultOdv).m_table.length = 0 ∧
    odvSearch ((odvBuild ([] : List (List Nat)) 1 1).toOption.getD defaultOdv) [0] = none := by
  have h := (@C9_empty_index_mod_zero 1 1 (by decide)).2
    ((odvBuild ([] : List (List Nat)) 1 1).toOption.getD defaultOdv) rfl
  exact ⟨h.1, h.2 [0]⟩

/-- A deliberately corrupted one-slot ODV table: the single slot is
occupied (`sig_pos = 0`), so a probe for a signature that is neither
stored nor absent-with-vacancy can never stop. -/
def corruptOdv : OdvIndex :=
  { m_table := [⟨0, 0, 0⟩], m_ids := [], m_signatures := [5],
    m_length := 1, m_del_marker := 2 }

/-- The probe loop of `odv_index::search` has no error path: on a fully
occupied (corrupt) table with no matching signature it simply keeps
probing forever — after traversing all T slots it does not fail with an
IndexCorrupt error, it continues. -/
theorem C6_counterexample :
    corruptOdv.m_table.length = 1 ∧
    (∀ e ∈ corruptOdv.m_table, e.sig_pos ≠ U32MAX) ∧
    ∀ fuel, probeLoop corruptOdv [7] 0 fuel = none := by
  refine ⟨rfl, by decide, ?_⟩
  intro fuel
  induction fuel with
  | zero => rfl
  | succ n ih =>
    rw [probeLoop_succ, if_neg (by decide), if_neg (by decide),
      show nextPos corruptOdv.m_table.length 0 = 0 from rfl]
    exact ih

/-- Claim C6 (amended): the code has no IndexCorrupt error path — a probe
on a corrupt full table loops forever (see the counterexample).  The true
part: under an uncorrupted index (one satisfying the build invariant,
where the probed signature is stored or the table has a vacant slot),
every probe of `odv_index::search` terminates within T iterations. -/
theorem C6_probe_termination {idx : OdvIndex} {sm : SigMap}
    (inv : TableInv idx sm) (hT : 0 < idx.m_table.length) (s : List Nat)
    (h : s ∈ akeys sm ∨ sm.length < idx.m_table.length) :
    ∃ ids, probeLoop idx s (fnv1a_hash s % idx.m_table.length)
      idx.m_table.length = some ids := by
  exact ⟨(alookup sm s).getD [], probe_result inv hT s h⟩

theorem C6_probe_termination_witness :
    ∃ ids, probeLoop ((odvBuild [[0]] 1 1).toOption.getD defaultOdv) [1]
      (fnv1a_hash [1] %
        ((odvBuild [[0]] 1 1).toOption.getD defaultOdv).m_table.length)
      ((odvBuild [[0]] 1 1).toOption.getD defaultOdv).m_table.length =
        some ids :=
  C6_probe_termination
    (@odvBuild_inv_of [[0]] 1 1 ((odvBuild [[0]] 1 1).toOption.getD defaultOdv)
      rfl (by decide) (by decide)).1
    (by decide) [1] (Or.inl (by decide))

/-! ## Serialization round trip -/

/-- Value of a little-endian byte list. -/
def leVal : List Nat → Nat
  | [] => 0
  | b :: bs => b + 256 * leVal bs

theorem enumFrom_le_sum (bytes : List Nat) :
    ∀ n, ((List.enumFrom n bytes).map (fun kb => kb.2 * 256 ^ kb.1)).sum =
      256 ^ n * leVal bytes := by
  induction bytes with
  | nil => intro n; simp [leVal]
  | cons b bs ih =>
    intro n
    rw [List.enumFrom_cons, List.map_cons, List.sum_cons, ih (n + 1), leVal]
    ring

theorem encLE_succ (w v : Nat) :
    encLE (w + 1) v = v % 256 :: encLE w (v / 256) := by
  rw [encLE, encLE, List.range_succ_eq_map, List.map_cons, List.map_map]
  congr 1
  · simp
  · apply List.map_congr_left
    intro k _
    show v / 256 ^ (k + 1) % 256 = v / 256 / 256 ^ k % 256
    rw [Nat.div_div_eq_div_mul, pow_succ, Nat.mul_comm]

theorem leVal_encLE (w : Nat) : ∀ v, leVal (encLE w v) = v % 256 ^ w := by
  induction w with
  | zero => intro v; simp [encLE, leVal, Nat.mod_one]
  | succ w ih =>
    intro v
    rw [encLE_succ, leVal, ih (v / 256), pow_succ, Nat.mul_comm (256 ^ w) 256,
      Nat.mod_mul]

theorem encLE_length (w v : Nat) : (encLE w v).length = w := by
  simp [encLE]

theorem readLE_encLE {w v : Nat} (hv : v < 256 ^ w) (rest : List Nat) :
    readLE w (encLE w v ++ rest) = some (v, rest) := by
  rw [readLE, if_pos (by simp [encLE_length]),
    List.take_left' (encLE_length w v), List.drop_left' (encLE_length w v),
    show (encLE w v).enum = List.enumFrom 0 (encLE w v) from rfl,
    enumFrom_le_sum, leVal_encLE, Nat.mod_eq_of_lt hv]
  simp

theorem readElem_encElem {e : Elem} (h1 : e.sig_pos < 2 ^ 32)
    (h2 : e.id_beg < 2 ^ 32) (h3 : e.id_end < 2 ^ 32) (rest : List Nat) :
    readElem (encElem e ++ rest) = some (e, rest) := by
  have hp : (2 : Nat) ^ 32 = 256 ^ 4 := by norm_num
  rw [hp] at h1 h2 h3
  rw [readElem, encElem, List.append_assoc, List.append_assoc]
  simp only [Bind.bind]
  rw [readLE_encLE h1, Option.some_bind, readLE_encLE h2, Option.some_bind,
    readLE_encLE h3, Option.some_bind]
  rfl

theorem readN_encN {α : Type} {rd : List Nat → Option (α × List Nat)}
    {enc1 : α → List Nat} :
    ∀ {l : List α},
    (∀ x ∈ l, ∀ rest, rd (enc1 x ++ rest) = some (x, rest)) →
    ∀ rest, readN rd l.length ((l.map enc1).flatten ++ rest) = some (l, rest) := by
  intro l
  induction l with
  | nil => intro _ rest; simp [readN]
  | cons x xs ih =>
    intro h rest
    rw [List.length_cons, List.map_cons, List.flatten_cons, List.append_assoc,
      readN]
    simp only [Bind.bind]
    rw [h x (by simp) _, Option.some_bind,
      ih (fun y hy => h y (by simp [hy])) rest, Option.some_bind]
    rfl

theorem readVec_encVec {α : Type} {rd : List Nat → Option (α × List Nat)}
    {enc1 : α → List Nat} {l : List α} (hn : l.length < 2 ^ 64)
    (h : ∀ x ∈ l, ∀ rest, rd (enc1 x ++ rest) = some (x, rest))
    (rest : List Nat) :
    readVec rd (encVec enc1 l ++ rest) = some (l, rest) := by
  have hp : (2 : Nat) ^ 64 = 256 ^ 8 := by norm_num
  rw [hp] at hn
  rw [readVec, encVec, List.append_assoc]
  simp only [Bind.bind]
  rw [readLE_encLE hn, Option.some_bind, readN_encN h rest]

theorem odvLoad_odvSerialize {idx : OdvIndex} (h : odvSerWF idx = true)
    (rest : List Nat) :
    odvLoad (odvSerialize idx ++ rest) = some (idx, rest) := by
  rw [odvSerWF] at h
  simp only [Bool.and_eq_true, List.all_eq_true, decide_eq_true_eq] at h
  obtain ⟨⟨⟨⟨⟨⟨⟨htab, hids⟩, hsigs⟩, hlen⟩, hdel⟩, htl⟩, hil⟩, hsl⟩ := h
  have h32 : (2 : Nat) ^ 32 = 256 ^ 4 := by norm_num
  have h64 : (2 : Nat) ^ 64 = 256 ^ 8 := by norm_num
  rw [odvLoad, odvSerialize, List.append_assoc, List.append_assoc,
    List.append_assoc, List.append_assoc]
  simp only [Bind.bind]
  rw [readVec_encVec htl
      (fun e he rest => by
        have := htab e he
        simp only [Bool.and_eq_true, decide_eq_true_eq] at this
        exact readElem_encElem this.1.1 this.1.2 this.2 rest) _,
    Option.some_bind,
    readVec_encVec hil
      (fun v hv rest => readLE_encLE (by rw [← h32]; exact hids v hv) rest) _,
    Option.some_bind,
    readVec_encVec hsl
      (fun v hv rest => readLE_encLE (by rw [← h64]; exact hsigs v hv) rest) _,
    Option.some_bind,
    readLE_encLE (by rw [← h32]; exact hlen) _, Option.some_bind,
    readLE_encLE (by rw [← h32]; exact hdel) _, Option.some_bind]
  rfl

theorem hmLoad_hmSerialize {idx : HmIndex} (h : hmSerWF idx = true) :
    hmLoad (hmSerialize idx) = some idx := by
  rw [hmSerWF] at h
  simp only [Bool.and_eq_true, List.all_eq_true, decide_eq_true_eq] at h
  obtain ⟨⟨⟨⟨⟨⟨⟨⟨⟨hodvs, hbegs⟩, hlen⟩, hasz⟩, hbk⟩, hvk⟩, hvl⟩, hol⟩,
    hbl⟩, hvkl⟩ := h
  have h32 : (2 : Nat) ^ 32 = 256 ^ 4 := by norm_num
  have h64 : (2 : Nat) ^ 64 = 256 ^ 8 := by norm_num
  have hser : hmSerialize idx = hmSerialize idx ++ [] := by simp
  rw [hmLoad, hser, hmSerialize, List.append_assoc, List.append_assoc,
    List.append_assoc, List.append_assoc, List.append_assoc,
    List.append_assoc]
  simp only [Bind.bind]
  rw [readVec_encVec hol
      (fun o ho rest => odvLoad_odvSerialize (hodvs o ho) rest) _,
    Option.some_bind,
    readVec_encVec hbl
      (fun v hv rest => readLE_encLE (by rw [← h32]; exact hbegs v hv) rest) _,
    Option.some_bind,
    readLE_encLE (by rw [← h32]; exact hlen) _, Option.some_bind,
    readLE_encLE (by rw [← h32]; exact hasz) _, Option.some_bind,
    readLE_encLE (by rw [← h32]; exact hbk) _, Option.some_bind,
    readVec_encVec hvkl
      (fun v hv rest => readLE_encLE (by rw [← h64]; exact hvk v hv) rest) _,
    Option.some_bind,
    readLE_encLE (by rw [← h32]; exact hvl) _, Option.some_bind]
  rfl

/-- Claim C8: serialization round trip — for every index whose members fit
their serialized widths, `load (serialize I)` reproduces `I` itself, so it
produces identical search results (emitted ids and candidate count) to `I`
on every query and radius. -/
theorem C8_roundtrip {idx : HmIndex} (h : hmSerWF idx = true) :
    hmLoad (hmSerialize idx) = some idx ∧
    ∀ query r, hmSearch ((hmLoad (hmSerialize idx)).getD defaultHm) query r =
      hmSearch idx query r := by
  have hload := hmLoad_hmSerialize h
  refine ⟨hload, fun query r => ?_⟩
  rw [hload]
  rfl

theorem C8_roundtrip_witness :
    hmLoad (hmSerialize ((hmBuild [[0, 0]] 2 1 1).toOption.getD defaultHm)) =
      some ((hmBuild [[0, 0]] 2 1 1).toOption.getD defaultHm) ∧
    hmSearch ((hmLoad (hmSerialize ((hmBuild [[0, 0]] 2 1 1).toOption.getD
        defaultHm))).getD defaultHm) [0, 0] 0 =
      hmSearch ((hmBuild [[0, 0]] 2 1 1).toOption.getD defaultHm) [0, 0] 0 := by
  have h := @C8_roundtrip ((hmBuild [[0, 0]] 2 1 1).toOption.getD defaultHm)
    (by decide)
  exact ⟨h.1, h.2 [0, 0] 0⟩

/-! ## Hamming distance toolbox -/

theorem hamming_eq_countP_range :
    ∀ (u v : List Nat), u.length = v.length →
    hamming u v = (List.range u.length).countP
      (fun p => !(u.getD p 0 == v.getD p 0)) := by
  intro u
  induction u with
  | nil =>
    intro v h
    rw [hamming]
    simp
  | cons a u ih =>
    intro v h
    cases v with
    | nil => simp at h
    | cons b v =>
      rw [hamming, List.zip_cons_cons, List.countP_cons, ← hamming,
        ih v (by simpa using h), List.length_cons, List.range_succ_eq_map,
        List.countP_cons, List.countP_map]
      have hpred : ((fun p => !(List.getD (a :: u) p 0 == List.getD (b :: v) p 0)) ∘
          Nat.succ) = (fun p => !(u.getD p 0 == v.getD p 0)) := by
        funext p
        simp
      rw [hpred]
      simp only [List.getD_cons_zero]
      by_cases hab : a = b
      · simp [hab, Nat.add_comm]
      · simp [hab, bne, beq_eq_false_iff_ne, Ne, Nat.add_comm]

theorem hamming_append {u1 u2 v1 v2 : List Nat} (h : u1.length = v1.length) :
    hamming (u1 ++ u2) (v1 ++ v2) = hamming u1 v1 + hamming u2 v2 := by
  rw [hamming, List.zip_append h, List.countP_append]
  rfl

theorem hamming_chunks :
    ∀ (ws : List Nat) (u v : List Nat), u.length = v.length →
      u.length = ws.sum →
      hamming u v = ((List.range ws.length).map (fun b =>
        hamming ((u.drop ((ws.take b).sum)).take (ws.getD b 0))
                ((v.drop ((ws.take b).sum)).take (ws.getD b 0)))).sum := by
  intro ws
  induction ws with
  | nil =>
    intro u v h hsum
    have hu : u = [] := List.length_eq_zero.mp (by simpa using hsum)
    have hv : v = [] := List.length_eq_zero.mp (by
      rw [← h]
      simpa using hsum)
    subst hu
    subst hv
    rfl
  | cons w ws ih =>
    intro u v h hsum
    have h1 : hamming u v =
        hamming (u.take w) (v.take w) + hamming (u.drop w) (v.drop w) := by
      conv_lhs => rw [← List.take_append_drop w u, ← List.take_append_drop w v]
      exact hamming_append (by simp [h])
    rw [h1, ih (u.drop w) (v.drop w) (by simp [h])
      (by simp; rw [List.sum_cons] at hsum; omega),
      List.length_cons, List.range_succ_eq_map, List.map_cons, List.sum_cons,
      List.map_map]
    have htail : (List.range ws.length).map ((fun b =>
        hamming ((u.drop (((w :: ws).take b).sum)).take ((w :: ws).getD b 0))
                ((v.drop (((w :: ws).take b).sum)).take ((w :: ws).getD b 0)))
          ∘ Nat.succ) =
        (List.range ws.length).map (fun b =>
        hamming (((u.drop w).drop ((ws.take b).sum)).take (ws.getD b 0))
                (((v.drop w).drop ((ws.take b).sum)).take (ws.getD b 0))) := by
      apply List.map_congr_left
      intro b _
      show hamming ((u.drop (((w :: ws).take (b + 1)).sum)).take
          ((w :: ws).getD (b + 1) 0)) _ = _
      rw [List.take_succ_cons, List.sum_cons, List.getD_cons_succ,
        List.drop_drop, List.drop_drop, Nat.add_comm]
    rw [htail]
    simp

theorem count_range {d n : Nat} (h : d < n) : (List.range n).count d = 1 :=
  List.count_eq_one_of_mem (List.nodup_range n) (List.mem_range.mpr h)

theorem sum_ite_eq_countP (l : List Nat) (P : Nat → Prop) [DecidablePred P] :
    (l.map (fun j => if P j then 1 else 0)).sum =
      l.countP (fun j => decide (P j)) := by
  induction l with
  | nil => rfl
  | cons a l ih =>
    rw [List.map_cons, List.sum_cons, List.countP_cons, ih]
    by_cases h : P a <;> simp [h, Nat.add_comm]

/-! ## Cross-match classification of one-deletion signatures -/

theorem getD_set_eq {l : List Nat} {i p : Nat} (e : Nat) (hp : p < l.length) :
    (l.set i e).getD p 0 = if i = p then e else l.getD p 0 := by
  rw [List.getD_eq_getElem _ _ (by simpa using hp), List.getElem_set]
  by_cases h : i = p
  · simp [h]
  · rw [if_neg h, if_neg h, List.getD_eq_getElem _ _ hp]

theorem set_del_eq_iff {u v : List Nat} {del : Nat} (hlen : u.length = v.length)
    (hu : ∀ a ∈ u, a < del) (hv : ∀ a ∈ v, a < del)
    {j j' : Nat} (hj : j < u.length) (hj' : j' < u.length) :
    u.set j' del = v.set j del ↔
      j = j' ∧ ∀ p, p < u.length → p ≠ j → u.getD p 0 = v.getD p 0 := by
  constructor
  · intro heq
    have hjj : j = j' := by
      by_contra hne
      have h1 : (u.set j' del).getD j' 0 = del := by
        rw [getD_set_eq del hj']
        simp
      have h2 : (v.set j del).getD j' 0 = v.getD j' 0 := by
        rw [getD_set_eq del (by omega : j' < v.length)]
        simp [hne]
      have hvlt : v.getD j' 0 < del := by
        rw [List.getD_eq_getElem _ _ (by omega : j' < v.length)]
        exact hv _ (List.getElem_mem _)
      rw [heq, h2] at h1
      omega
    subst hjj
    refine ⟨rfl, fun p hp hpj => ?_⟩
    have h1 : (u.set j del).getD p 0 = u.getD p 0 := by
      rw [getD_set_eq del hp, if_neg (fun hc => hpj hc.symm)]
    have h2 : (v.set j del).getD p 0 = v.getD p 0 := by
      rw [getD_set_eq del (by omega : p < v.length),
        if_neg (fun hc => hpj hc.symm)]
    rw [← h1, heq, h2]
  · rintro ⟨rfl, hag⟩
    apply List.ext_getElem (by simp [hlen])
    intro p hp1 hp2
    rw [List.getElem_set, List.getElem_set]
    by_cases hpj : j = p
    · simp [hpj]
    · rw [if_neg hpj, if_neg hpj]
      have := hag p (by simpa using hp1) (fun hc => hpj hc.symm)
      rwa [List.getD_eq_getElem _ _ (by simpa using hp1),
        List.getD_eq_getElem _ _ (by simpa using hp2)] at this

/-- The total number of (stored position, probe position) signature
matches between the length-`m` windows of `x` and `y`: probing position
`j` of `y`'s window against every one-deletion variant of `x`'s window. -/
def crossMatches (x y : List Nat) (m del : Nat) : Nat :=
  ((List.range m).map (fun j =>
    (List.range m).countP
      (fun j' => make_signature x m j' del == make_signature y m j del))).sum

theorem cross_inner {x y : List Nat} {m del : Nat} (hxm : m ≤ x.length)
    (hym : m ≤ y.length) (hx : ∀ a ∈ x.take m, a < del)
    (hy : ∀ a ∈ y.take m, a < del) {j : Nat} (hj : j < m) :
    (List.range m).countP
      (fun j' => make_signature x m j' del == make_signature y m j del) =
    if ∀ p, p < m → p ≠ j →
        (x.take m).getD p 0 = (y.take m).getD p 0 then 1 else 0 := by
  have hul : (x.take m).length = m := by
    simp
    omega
  have hiff : ∀ j', j' < m →
      ((x.take m).set j' del = (y.take m).set j del ↔
        j = j' ∧ ∀ p, p < m → p ≠ j →
          (x.take m).getD p 0 = (y.take m).getD p 0) := by
    intro j' hj'
    rw [set_del_eq_iff (by simp; omega) hx hy (by omega) (by omega), hul]
  by_cases hag : ∀ p, p < m → p ≠ j → (x.take m).getD p 0 = (y.take m).getD p 0
  · rw [if_pos hag]
    have hcong : (List.range m).countP
        (fun j' => make_signature x m j' del == make_signature y m j del) =
        (List.range m).countP (fun j' => j' == j) := by
      apply List.countP_congr
      intro j' hj'
      have hbe : (make_signature x m j' del == make_signature y m j del) =
          (j' == j) := by
        rw [make_signature, make_signature]
        by_cases hc : j' = j
        · subst hc
          simp only [beq_self_eq_true]
          rw [beq_iff_eq.mpr ((hiff j' (List.mem_range.mp hj')).mpr ⟨rfl, hag⟩)]
        · have hne : ¬((x.take m).set j' del = (y.take m).set j del) := by
            rw [hiff j' (List.mem_range.mp hj')]
            rintro ⟨rfl, -⟩
            exact hc rfl
          rw [beq_eq_false_iff_ne.mpr hne, beq_eq_false_iff_ne.mpr hc]
      rw [hbe]
    rw [hcong]
    exact count_range hj
  · rw [if_neg hag]
    apply List.countP_eq_zero.mpr
    intro j' hj'
    show ¬(make_signature x m j' del == make_signature y m j del) = true
    rw [make_signature, make_signature, beq_iff_eq]
    intro hc
    exact hag ((hiff j' (List.mem_range.mp hj')).mp hc).2

theorem crossMatches_classify {x y : List Nat} {m del : Nat}
    (hxm : m ≤ x.length) (hym : m ≤ y.length)
    (hx : ∀ a ∈ x.take m, a < del) (hy : ∀ a ∈ y.take m, a < del) :
    crossMatches x y m del =
      if hamming (x.take m) (y.take m) = 0 then m
      else if hamming (x.take m) (y.take m) = 1 then 1 else 0 := by
  have hham : hamming (x.take m) (y.take m) =
      ((List.range m).filter
        (fun p => !((x.take m).getD p 0 == (y.take m).getD p 0))).length := by
    rw [hamming_eq_countP_range _ _ (by simp; omega),
      show (x.take m).length = m by simp; omega, List.countP_eq_length_filter]
  have hSnd : ((List.range m).filter
      (fun p => !((x.take m).getD p 0 == (y.take m).getD p 0))).Nodup :=
    (List.nodup_range m).filter _
  have hSmem : ∀ p ∈ (List.range m).filter
      (fun p => !((x.take m).getD p 0 == (y.take m).getD p 0)),
      p < m ∧ (x.take m).getD p 0 ≠ (y.take m).getD p 0 := by
    intro p hp
    rw [List.mem_filter, List.mem_range] at hp
    refine ⟨hp.1, ?_⟩
    have h2 := hp.2
    simpa using h2
  have hSrev : ∀ p, p < m → (x.take m).getD p 0 ≠ (y.take m).getD p 0 →
      p ∈ (List.range m).filter
        (fun p => !((x.take m).getD p 0 == (y.take m).getD p 0)) := by
    intro p hp hne
    rw [List.mem_filter, List.mem_range]
    exact ⟨hp, by simpa using hne⟩
  have hagree_iff : ∀ j,
      (∀ p, p < m → p ≠ j → (x.take m).getD p 0 = (y.take m).getD p 0) ↔
      (∀ p ∈ (List.range m).filter
        (fun p => !((x.take m).getD p 0 == (y.take m).getD p 0)), p = j) := by
    intro j
    constructor
    · intro hag p hp
      by_contra hne
      exact (hSmem p hp).2 (hag p (hSmem p hp).1 hne)
    · intro hin p hp hpj
      by_contra hne
      exact hpj (hin p (hSrev p hp hne))
  rw [crossMatches]
  have hmap : (List.range m).map (fun j => (List.range m).countP
      (fun j' => make_signature x m j' del == make_signature y m j del)) =
      (List.range m).map (fun j => if ∀ p ∈ (List.range m).filter
        (fun p => !((x.take m).getD p 0 == (y.take m).getD p 0)), p = j
        then 1 else 0) := by
    apply List.map_congr_left
    intro j hj
    rw [cross_inner hxm hym hx hy (List.mem_range.mp hj)]
    exact if_congr (hagree_iff j) rfl rfl
  rw [hmap, sum_ite_eq_countP]
  obtain ⟨S, hSc⟩ : ∃ S, (List.range m).filter
      (fun p => !((x.take m).getD p 0 == (y.take m).getD p 0)) = S := ⟨_, rfl⟩
  rw [hSc] at hham hSnd hSmem ⊢
  match S, hSc with
  | [], hSc =>
    rw [if_pos (by rw [hham]; rfl)]
    rw [List.countP_eq_length.mpr (by simp), List.length_range]
  | [d], hSc =>
    have hd1 : hamming (x.take m) (y.take m) = 1 := by
      rw [hham]
      rfl
    rw [if_neg (by omega), if_pos hd1]
    have hdm : d < m := (hSmem d (by simp)).1
    have hcong : (List.range m).countP (fun j => decide (∀ p ∈ [d], p = j)) =
        (List.range m).countP (fun j => j == d) := by
      apply List.countP_congr
      intro j _
      by_cases hc : d = j
      · subst hc
        simp
      · simp only [decide_eq_true_eq, beq_iff_eq, List.mem_singleton,
          forall_eq]
        exact eq_comm
    rw [hcong]
    exact count_range hdm
  | d :: d2 :: tl, hSc =>
    have hd2 : 2 ≤ hamming (x.take m) (y.take m) := by
      rw [hham]
      simp
    rw [if_neg (by omega), if_neg (by omega)]
    apply List.countP_eq_zero.mpr
    intro j _
    simp only [decide_eq_true_eq]
    intro hall
    have h1 : d = j := hall d (by simp)
    have h2 : d2 = j := hall d2 (by simp)
    have hne : d ≠ d2 := by
      rw [List.nodup_cons] at hSnd
      exact fun hc => hSnd.1 (by rw [hc]; exact List.mem_cons_self _ _)
    omega

/-! ## Per-bucket emission counts -/

theorem sig_mem_akeys {keys : List (List Nat)} {len σ : Nat} {k : List Nat}
    (hk : k ∈ keys) {j : Nat} (hj : j < len) :
    make_signature k len j σ ∈ akeys (smOfPairs (sigPairs keys len σ)) := by
  rw [mem_akeys_smOfPairs]
  obtain ⟨i, hi, rfl⟩ := List.mem_iff_getElem.mp hk
  have henum : (i, keys[i]) ∈ keys.enum := by
    have hilen : i < keys.enum.length := by
      rw [List.enum_length]
      exact hi
    have hgl : keys.enum[i] = (i, keys[i]) := List.getElem_enum _ _ _
    rw [← hgl]
    exact List.getElem_mem _
  refine List.mem_map.mpr ⟨(make_signature keys[i] len j σ, i), ?_, rfl⟩
  rw [sigPairs, List.mem_flatMap]
  exact ⟨(i, keys[i]), henum, List.mem_map.mpr ⟨j, List.mem_range.mpr hj, rfl⟩⟩

theorem sm_two_le {keys : List (List Nat)} {len σ : Nat} (hlen : 2 ≤ len)
    {k0 : List Nat} (hk0 : k0 ∈ keys) (hk0l : len ≤ k0.length)
    (hsym : ∀ a ∈ k0.take len, a < σ) :
    2 ≤ (smOfPairs (sigPairs keys len σ)).length := by
  have h0 : make_signature k0 len 0 σ ∈ akeys (smOfPairs (sigPairs keys len σ)) :=
    sig_mem_akeys hk0 (by omega)
  have h1 : make_signature k0 len 1 σ ∈ akeys (smOfPairs (sigPairs keys len σ)) :=
    sig_mem_akeys hk0 (by omega)
  have hul : (k0.take len).length = len := by
    simp
    omega
  have hne : make_signature k0 len 0 σ ≠ make_signature k0 len 1 σ := by
    intro hc
    rw [make_signature, make_signature] at hc
    have h00 := congrArg (fun l => l.getD 0 0) hc
    simp only at h00
    have hA : ((k0.take len).set 0 σ).getD 0 0 = σ := by
      rw [getD_set_eq σ (by omega)]
      simp
    have hB : ((k0.take len).set 1 σ).getD 0 0 = (k0.take len).getD 0 0 := by
      rw [getD_set_eq σ (by omega)]
      simp
    rw [hA, hB] at h00
    have hlt : (k0.take len).getD 0 0 < σ := by
      rw [List.getD_eq_getElem _ _ (by omega)]
      exact hsym _ (List.getElem_mem _)
    omega
  by_contra hc
  push_neg at hc
  have hlenk : (akeys (smOfPairs (sigPairs keys len σ))).length ≤ 1 := by
    rw [akeys, List.length_map]
    omega
  match hm : akeys (smOfPairs (sigPairs keys len σ)), hlenk with
  | [], _ =>
    rw [hm] at h0
    exact absurd h0 (List.not_mem_nil _)
  | [a], _ =>
    rw [hm] at h0 h1
    rw [List.mem_singleton] at h0 h1
    exact hne (by rw [h0, h1])

theorem odv_emits_count {keysb : List (List Nat)} {m σ : Nat} {o : OdvIndex}
    (hbuild : odvBuild keysb m σ = Except.ok o) (hm : 2 ≤ m)
    (hkl : ∀ k ∈ keysb, m ≤ k.length)
    {k0 : List Nat} (hk0 : k0 ∈ keysb) (hsym0 : ∀ a ∈ k0.take m, a < σ)
    (q : List Nat) :
    ∃ emits, odvSearch o q = some emits ∧
      ∀ i, emits.count i =
        if i < keysb.length then crossMatches (keysb.getD i []) q m σ
        else 0 := by
  obtain ⟨inv, hml, hdel, hT⟩ := odvBuild_inv_of hbuild (by omega) hkl
  have hU : 2 ≤ (smOfPairs (sigPairs keysb m σ)).length :=
    sm_two_le hm hk0 (hkl k0 hk0) hsym0
  have hroom : (smOfPairs (sigPairs keysb m σ)).length < o.m_table.length := by
    rw [hT]
    exact tableSize_gt hU inv.le32
  have hTpos : 0 < o.m_table.length := by omega
  have hsearch := odvSearch_eq inv hTpos q (fun j _ => Or.inr hroom)
  rw [hml, hdel] at hsearch
  refine ⟨_, hsearch, fun i => ?_⟩
  rw [List.count_flatten, List.map_map]
  have hmapc : (List.range m).map ((fun l => List.count i l) ∘ (fun j =>
      (alookup (smOfPairs (sigPairs keysb m σ))
        (make_signature q m j σ)).getD [])) =
      (List.range m).map (fun j =>
        if i < keysb.length then (List.range m).countP
          (fun j' => make_signature (keysb.getD i []) m j' σ ==
            make_signature q m j σ) else 0) := by
    apply List.map_congr_left
    intro j _
    show ((alookup (smOfPairs (sigPairs keysb m σ))
      (make_signature q m j σ)).getD []).count i = _
    rw [smOfPairs_count, sigPairs_count]
  rw [hmapc]
  by_cases hi : i < keysb.length
  · rw [if_pos hi, crossMatches]
    apply congrArg
    apply List.map_congr_left
    intro j _
    rw [if_pos hi]
  · rw [if_neg hi]
    have : (List.range m).map (fun j =>
        if i < keysb.length then (List.range m).countP
          (fun j' => make_signature (keysb.getD i []) m j' σ ==
            make_signature q m j σ) else 0) =
        (List.range m).map (fun _ => 0) := by
      apply List.map_congr_left
      intro j _
      rw [if_neg hi]
    rw [this]
    simp

/-! ## Popcount and vertical codes -/

theorem popcountGo_eq : ∀ (f n : Nat), n < 2 ^ f →
    popcountGo f n = (List.range f).countP (fun k => n.testBit k) := by
  intro f
  induction f with
  | zero =>
    intro n hn
    rfl
  | succ f ih =>
    intro n hn
    by_cases h0 : n = 0
    · subst h0
      show (0 : Nat) = _
      symm
      apply List.countP_eq_zero.mpr
      intro k _
      simp [Nat.zero_testBit]
    · show (if n = 0 then 0 else n % 2 + popcountGo f (n / 2)) = _
      rw [if_neg h0]
      have hdiv : n / 2 < 2 ^ f := by
        rw [pow_succ] at hn
        omega
      rw [ih (n / 2) hdiv, List.range_succ_eq_map, List.countP_cons,
        List.countP_map]
      have hcomp : ((fun k => n.testBit k) ∘ Nat.succ) =
          (fun k => (n / 2).testBit k) := by
        funext k
        show n.testBit (k + 1) = (n / 2).testBit k
        rw [Nat.testBit_div_two]
      rw [hcomp, Nat.testBit_zero]
      rcases Nat.mod_two_eq_zero_or_one n with h | h
      · simp [h]
      · simp [h, Nat.add_comm]

theorem popcount_or_le {a b : Nat} (ha : a < 2 ^ 64) (hab : a ||| b < 2 ^ 64) :
    popcount a ≤ popcount (a ||| b) := by
  rw [popcount, popcount, popcountGo_eq 64 a ha, popcountGo_eq 64 _ hab]
  apply List.countP_mono_left
  intro t _ h
  rw [Nat.testBit_or, h]
  rfl

theorem mvc_foldl_testBit (key : List Nat) (level : Nat) :
    ∀ (n acc t : Nat),
    (((List.range n).foldl (fun code j =>
      code ||| ((((key.getD j 0) >>> level) &&& 1) <<< j)) acc).testBit t) =
    (acc.testBit t || (decide (t < n) && (key.getD t 0).testBit level)) := by
  intro n
  induction n with
  | zero =>
    intro acc t
    simp
  | succ n ih =>
    intro acc t
    rw [List.range_succ, List.foldl_append, List.foldl_cons, List.foldl_nil,
      Nat.testBit_or, ih acc t, Nat.testBit_shiftLeft]
    have hb : ∀ s, (((key.getD n 0) >>> level) &&& 1).testBit s =
        (decide (s = 0) && (key.getD n 0).testBit level) := by
      intro s
      rw [Nat.and_one_is_mod]
      rcases s with - | s
      · have hx : (key.getD n 0).testBit level =
            ((key.getD n 0) >>> level).testBit 0 := by
          rw [Nat.testBit_shiftRight]
          rfl
        rw [hx, Nat.testBit_zero, Nat.testBit_zero]
        rcases Nat.mod_two_eq_zero_or_one ((key.getD n 0) >>> level) with h | h <;>
          rw [h] <;> simp
      · have hlt : ((key.getD n 0) >>> level) % 2 < 2 ^ (s + 1) := by
          have h1 : (0:Nat) < 2 ^ s := Nat.pos_pow_of_pos s (by norm_num)
          rw [pow_succ]
          omega
        rw [Nat.testBit_eq_false_of_lt hlt]
        simp
    rw [hb (t - n)]
    by_cases h1 : t < n
    · simp [h1, (by omega : t < n + 1), (by omega : ¬n ≤ t)]
    · by_cases h2 : t = n
      · subst h2
        simp [h1, Bool.or_assoc]
      · have h3 : t - n ≠ 0 := by omega
        have h4 : ¬t < n + 1 := by omega
        have h5 : n ≤ t := by omega
        simp [h1, h2, h3, h4, h5]

theorem testBit_mvc (key : List Nat) (L level t : Nat) :
    (make_vertical_code key L level).testBit t =
      (decide (t < L) && (key.getD t 0).testBit level) := by
  rw [make_vertical_code, mvc_foldl_testBit, Nat.zero_testBit, Bool.false_or]

theorem or_left_lt {a b n : Nat} (h : a ||| b < 2 ^ n) : a < 2 ^ n := by
  apply Nat.lt_pow_two_of_testBit
  intro i hi
  have hfalse : (a ||| b).testBit i = false :=
    Nat.testBit_eq_false_of_lt
      (lt_of_lt_of_le h (Nat.pow_le_pow_right (by norm_num) hi))
  rw [Nat.testBit_or] at hfalse
  exact (Bool.or_eq_false_iff.mp hfalse).1

/-- The total OR of per-level XOR differences the verification loop
accumulates. -/
def orDiffs (vk vq : List Nat) (beg : Nat) : List Nat → Nat
  | [] => 0
  | j :: js => ((vk.getD (beg + j) 0) ^^^ (vq.getD j 0)) ||| orDiffs vk vq beg js

theorem testBit_orDiffs (vk vq : List Nat) (beg : Nat) :
    ∀ (js : List Nat) (t : Nat), (orDiffs vk vq beg js).testBit t =
      js.any (fun j => (((vk.getD (beg + j) 0) ^^^ (vq.getD j 0)).testBit t)) := by
  intro js
  induction js with
  | nil =>
    intro t
    simp [orDiffs, Nat.zero_testBit]
  | cons j js ih =>
    intro t
    rw [orDiffs, Nat.testBit_or, ih, List.any_cons]

theorem verifyGo_le_iff (vk vq : List Nat) (beg r : Nat) :
    ∀ (js : List Nat) (cum : Nat), cum ||| orDiffs vk vq beg js < 2 ^ 64 →
    (verifyGo vk vq beg r js cum (popcount cum) ≤ r ↔
      popcount (cum ||| orDiffs vk vq beg js) ≤ r) := by
  intro js
  induction js with
  | nil =>
    intro cum h
    rw [verifyGo, orDiffs, Nat.or_zero]
  | cons j js ih =>
    intro cum h
    have hassoc : cum ||| orDiffs vk vq beg (j :: js) =
        (cum ||| ((vk.getD (beg + j) 0) ^^^ (vq.getD j 0))) |||
          orDiffs vk vq beg js := by
      rw [orDiffs, Nat.or_assoc]
    show (if popcount (cum ||| ((vk.getD (beg + j) 0) ^^^ (vq.getD j 0))) > r
        then popcount (cum ||| ((vk.getD (beg + j) 0) ^^^ (vq.getD j 0)))
        else verifyGo vk vq beg r js
          (cum ||| ((vk.getD (beg + j) 0) ^^^ (vq.getD j 0)))
          (popcount (cum ||| ((vk.getD (beg + j) 0) ^^^ (vq.getD j 0))))) ≤ r ↔ _
    have hlt2 : (cum ||| ((vk.getD (beg + j) 0) ^^^ (vq.getD j 0))) |||
        orDiffs vk vq beg js < 2 ^ 64 := by
      rw [← hassoc]
      exact h
    by_cases hgt : popcount (cum ||| ((vk.getD (beg + j) 0) ^^^ (vq.getD j 0))) > r
    · rw [if_pos hgt]
      constructor
      · intro hle
        omega
      · intro hle
        exfalso
        have hmono : popcount (cum ||| ((vk.getD (beg + j) 0) ^^^ (vq.getD j 0))) ≤
            popcount ((cum ||| ((vk.getD (beg + j) 0) ^^^ (vq.getD j 0))) |||
              orDiffs vk vq beg js) :=
          popcount_or_le (or_left_lt hlt2) hlt2
        rw [hassoc] at hle
        omega
    · rw [if_neg hgt, ih _ hlt2, hassoc]

theorem any_congr_mem {α : Type} {p q : α → Bool} :
    ∀ {l : List α}, (∀ a ∈ l, p a = q a) → l.any p = l.any q := by
  intro l
  induction l with
  | nil => intro _; rfl
  | cons a l ih =>
    intro h
    rw [List.any_cons, List.any_cons, h a (by simp), ih (fun b hb => h b (by simp [hb]))]

theorem countP_range_guard {L n : Nat} (hLn : L ≤ n) (p : Nat → Bool) :
    (List.range n).countP (fun t => decide (t < L) && p t) =
      (List.range L).countP p := by
  obtain ⟨d, rfl⟩ : ∃ d, n = L + d := ⟨n - L, by omega⟩
  rw [List.range_add, List.countP_append]
  have h1 : (List.range L).countP (fun t => decide (t < L) && p t) =
      (List.range L).countP p := by
    apply List.countP_congr
    intro t ht
    rw [decide_eq_true (List.mem_range.mp ht), Bool.true_and]
  have h2 : ((List.range d).map (fun x => L + x)).countP
      (fun t => decide (t < L) && p t) = 0 := by
    apply List.countP_eq_zero.mpr
    intro t ht
    rw [List.mem_map] at ht
    obtain ⟨x, -, rfl⟩ := ht
    simp
  rw [h1, h2, Nat.add_zero]

theorem vk_getD {keys : List (List Nat)} {L levels : Nat} {i lvl : Nat}
    (hi : i < keys.length) (hlvl : lvl < levels) :
    ((keys.map (fun k => (List.range levels).map
      (fun j => make_vertical_code k L j))).flatten).getD (i * levels + lvl) 0 =
    make_vertical_code (keys.getD i []) L lvl := by
  have hs := flatten_slice levels (keys.map (fun k => (List.range levels).map
      (fun j => make_vertical_code k L j))) i
    (by
      intro l hl
      rw [List.mem_map] at hl
      obtain ⟨k, -, rfl⟩ := hl
      simp)
    (by simpa using hi)
  have hin : ((keys.map (fun k => (List.range levels).map
      (fun j => make_vertical_code k L j))).flatten).getD (i * levels + lvl) 0 =
      (listSlice ((keys.map (fun k => (List.range levels).map
        (fun j => make_vertical_code k L j))).flatten) (i * levels) levels).getD
          lvl 0 := by
    rw [listSlice, List.getD_eq_getElem?_getD, List.getD_eq_getElem?_getD,
      List.getElem?_take, if_pos hlvl, List.getElem?_drop]
  rw [hin, hs]
  have hgd : ((keys.map (fun k => (List.range levels).map
      (fun j => make_vertical_code k L j))).getD i []) =
      (List.range levels).map
        (fun j => make_vertical_code (keys.getD i []) L j) := by
    rw [List.getD_eq_getElem _ _ (by simpa using hi), List.getElem_map,
      List.getD_eq_getElem _ _ hi]
  rw [hgd, getD_map_range _ _ hlvl]

theorem verifyDist_hamming {keys : List (List Nat)} {L σ : Nat} {idx : HmIndex}
    {q : List Nat} {i r : Nat}
    (hvk : idx.m_vertical_keys = (keys.map (fun k =>
      (List.range (bits_hi σ + 1)).map
        (fun j => make_vertical_code k L j))).flatten)
    (hvl : idx.m_vertical_levels = bits_hi σ + 1)
    (hlen : idx.m_length = L) (hL : L ≤ 64)
    (hi : i < keys.length)
    (hki : (keys.getD i []).length = L) (hq : q.length = L)
    (hsymk : ∀ a ∈ keys.getD i [], a < σ) (hsymq : ∀ a ∈ q, a < σ)
    (hσ : σ < 2 ^ 64) :
    (verifyDist idx (vertQuery idx q) i r ≤ r ↔
      hamming (keys.getD i []) q ≤ r) := by
  have hσlev : σ < 2 ^ (bits_hi σ + 1) := bits_hi_lt hσ
  have hvq : ∀ lvl, lvl < bits_hi σ + 1 →
      (vertQuery idx q).getD lvl 0 = make_vertical_code q L lvl := by
    intro lvl hlvl
    rw [vertQuery, hvl, hlen]
    exact getD_map_range _ _ hlvl
  have hvkg : ∀ lvl, lvl < bits_hi σ + 1 →
      idx.m_vertical_keys.getD (i * (bits_hi σ + 1) + lvl) 0 =
        make_vertical_code (keys.getD i []) L lvl := by
    intro lvl hlvl
    rw [hvk]
    exact vk_getD hi hlvl
  have hOD : ∀ t, (orDiffs idx.m_vertical_keys (vertQuery idx q)
      (i * (bits_hi σ + 1)) (List.range (bits_hi σ + 1))).testBit t =
      (decide (t < L) && !((keys.getD i []).getD t 0 == q.getD t 0)) := by
    intro t
    rw [testBit_orDiffs]
    rw [any_congr_mem (q := fun lvl =>
      decide (t < L) && (((keys.getD i []).getD t 0).testBit lvl ^^
        (q.getD t 0).testBit lvl))
      (fun lvl hlvl => by
        rw [hvkg lvl (List.mem_range.mp hlvl), hvq lvl (List.mem_range.mp hlvl),
          Nat.testBit_xor, testBit_mvc, testBit_mvc,
          ← Bool.and_xor_distrib_left])]
    by_cases ht : t < L
    · rw [decide_eq_true ht]
      simp only [Bool.true_and]
      by_cases heq : (keys.getD i []).getD t 0 = q.getD t 0
      · rw [heq]
        simp
      · have hks : (keys.getD i []).getD t 0 < σ := by
          rw [List.getD_eq_getElem _ _ (by rw [hki]; exact ht)]
          exact hsymk _ (List.getElem_mem _)
        have hqs : q.getD t 0 < σ := by
          rw [List.getD_eq_getElem _ _ (by rw [hq]; exact ht)]
          exact hsymq _ (List.getElem_mem _)
        rw [beq_eq_false_iff_ne.mpr heq, Bool.not_false]
        by_contra hany
        rw [Bool.not_eq_true, List.any_eq_false] at hany
        apply heq
        apply Nat.eq_of_testBit_eq
        intro n
        by_cases hn : n < bits_hi σ + 1
        · have h2 := hany n (List.mem_range.mpr hn)
          cases hb1 : ((keys.getD i []).getD t 0).testBit n <;>
            cases hb2 : (q.getD t 0).testBit n <;> simp_all
        · have hp : (2 : Nat) ^ (bits_hi σ + 1) ≤ 2 ^ n :=
            Nat.pow_le_pow_right (by norm_num) (by omega)
          rw [Nat.testBit_eq_false_of_lt (by omega),
            Nat.testBit_eq_false_of_lt (by omega)]
    · rw [decide_eq_false ht]
      simp
  have hODlt : orDiffs idx.m_vertical_keys (vertQuery idx q)
      (i * (bits_hi σ + 1)) (List.range (bits_hi σ + 1)) < 2 ^ 64 := by
    apply Nat.lt_pow_two_of_testBit
    intro n hn
    rw [hOD n, decide_eq_false (by omega : ¬n < L), Bool.false_and]
  have hiff := verifyGo_le_iff idx.m_vertical_keys (vertQuery idx q)
    (i * (bits_hi σ + 1)) r (List.range (bits_hi σ + 1)) 0
    (by rw [Nat.zero_or]; exact hODlt)
  have hpc : popcount (0 ||| orDiffs idx.m_vertical_keys (vertQuery idx q)
      (i * (bits_hi σ + 1)) (List.range (bits_hi σ + 1))) =
      hamming (keys.getD i []) q := by
    rw [Nat.zero_or, popcount, popcountGo_eq 64 _ hODlt]
    rw [List.countP_congr (fun t _ => by rw [hOD t])]
    rw [countP_range_guard hL]
    rw [hamming_eq_countP_range _ _ (by rw [hki, hq]), hki]
  rw [hpc] at hiff
  rw [verifyDist, hvl]
  exact hiff

/-! ## Candidate-map membership and filter arithmetic -/

theorem alookup_of_mem {α β : Type} [DecidableEq α] :
    ∀ {l : List (α × β)}, (akeys l).Nodup → ∀ {k : α} {v : β}, (k, v) ∈ l →
      alookup l k = some v := by
  intro l
  induction l with
  | nil =>
    intro _ k v h
    exact absurd h (List.not_mem_nil _)
  | cons kv rest ih =>
    intro hnd k v h
    obtain ⟨k', v'⟩ := kv
    rw [List.mem_cons] at h
    rcases h with h | h
    · injection h with h1 h2
      subst h1
      subst h2
      show alookup ((k, v) :: rest) k = some v
      rw [alookup, if_pos rfl]
    · have hk' : k' ≠ k := by
        intro hc
        subst hc
        rw [akeys, List.map_cons, List.nodup_cons] at hnd
        exact hnd.1 (List.mem_map.mpr ⟨(k', v), h, rfl⟩)
      rw [alookup, if_neg hk']
      rw [akeys, List.map_cons, List.nodup_cons] at hnd
      exact ih hnd.2 h

theorem mem_of_alookup {α β : Type} [DecidableEq α] :
    ∀ {l : List (α × β)} {k : α} {v : β}, alookup l k = some v → (k, v) ∈ l := by
  intro l
  induction l with
  | nil =>
    intro k v h
    simp [alookup] at h
  | cons kv rest ih =>
    intro k v h
    obtain ⟨k', v'⟩ := kv
    rw [alookup] at h
    by_cases hk : k' = k
    · rw [if_pos hk] at h
      injection h with h1
      subst hk
      subst h1
      exact List.mem_cons_self _ _
    · rw [if_neg hk] at h
      exact List.mem_cons_of_mem _ (ih h)

theorem mem_filter_map_fst {p : Nat × List Nat → Bool} {l : List (Nat × List Nat)}
    (hnd : (akeys l).Nodup) {i : Nat} :
    i ∈ (l.filter p).map Prod.fst ↔
      ∃ v, alookup l i = some v ∧ p (i, v) = true := by
  constructor
  · intro h
    rw [List.mem_map] at h
    obtain ⟨kv, hkv, rfl⟩ := h
    rw [List.mem_filter] at hkv
    refine ⟨kv.2, alookup_of_mem hnd ?_, ?_⟩
    · show (kv.1, kv.2) ∈ l
      rw [show (kv.1, kv.2) = kv from rfl]
      exact hkv.1
    · rw [show (kv.1, kv.2) = kv from rfl]
      exact hkv.2
  · rintro ⟨v, hl, hp⟩
    exact List.mem_map.mpr ⟨(i, v), List.mem_filter.mpr ⟨mem_of_alookup hl, hp⟩,
      rfl⟩

theorem enhancedFilter_spec (r : Nat) (cs : List Nat) :
    enhancedFilter r cs = true ↔
      (if r % 2 = 0 then cs = [1] else cs.length = 1 ∨ cs = [1, 1]) := by
  rw [enhancedFilter]
  by_cases hr : r % 2 = 0
  · rw [if_pos hr, if_pos hr]
    match cs with
    | [] => simp
    | [c] =>
      simp only [List.length_singleton, List.getD_cons_zero]
      constructor
      · intro h
        rw [if_pos (by omega)] at h
        rw [beq_iff_eq.mp h]
      · intro h
        injection h with h1
        rw [if_pos (by omega), h1]
        rfl
    | c1 :: c2 :: tl =>
      rw [if_neg (by simp)]
      simp
  · rw [if_neg hr, if_neg hr]
    match cs with
    | [] => simp
    | [c] =>
      rw [if_pos (by simp)]
      simp
    | [c1, c2] =>
      rw [if_pos (by simp)]
      simp only [List.length_cons, List.length_nil]
      constructor
      · intro h
        rcases Bool.or_eq_true_iff.mp h with h | h
        · simp at h
        · rw [Bool.and_eq_true] at h
          have h2 := h.2
          rw [List.getD_cons_succ, List.getD_cons_zero] at h2
          have h1 := h.1
          rw [List.getD_cons_zero] at h1
          rw [beq_iff_eq.mp h1, beq_iff_eq.mp h2]
          simp
      · intro h
        rcases h with h | h
        · omega
        · injection h with h1 h2
          injection h2 with h2
          subst h1
          subst h2
          simp
    | c1 :: c2 :: c3 :: tl =>
      rw [if_neg (by simp)]
      constructor
      · intro h
        exact absurd h (by simp)
      · intro h
        rcases h with h | h
        · simp at h
        · simp at h

theorem count_map_eq (f : Nat → Nat) (l : List Nat) (a : Nat) :
    (l.map f).count a = l.countP (fun x => f x == a) := by
  show (l.map f).countP (fun y => y == a) = _
  rw [List.countP_map]
  rfl

theorem range_getD {n B : Nat} (h : n < B) : (List.range B).getD n 0 = n := by
  rw [List.getD_eq_getElem _ _ (by simpa using h)]
  simp

theorem bucketCodes_map {B : Nat} (f : Nat → List Nat) (i : Nat) :
    bucketCodes ((List.range B).map f) i =
      ((List.range B).filter (fun b => (f b).count i != 0)).map
        (fun b => candCode ((f b).count i)) := by
  rw [bucketCodes, List.filter_map, List.map_map]
  rfl

theorem sum_ge_classified (l : List Nat) (d : Nat → Nat) :
    l.countP (fun b => d b == 1) + 2 * l.countP (fun b => decide (2 ≤ d b)) ≤
      (l.map d).sum := by
  induction l with
  | nil => simp
  | cons a l ih =>
    rw [List.map_cons, List.sum_cons, List.countP_cons, List.countP_cons]
    by_cases h1 : d a = 1
    · simp only [h1]
      norm_num
      omega
    · by_cases h2 : 2 ≤ d a
      · simp only [beq_eq_false_iff_ne.mpr h1, decide_eq_true h2]
        norm_num
        omega
      · simp only [beq_eq_false_iff_ne.mpr h1, decide_eq_false h2]
        norm_num
        omega

theorem countP_three_split (l : List Nat) (d : Nat → Nat) :
    l.countP (fun b => d b == 0) + l.countP (fun b => d b == 1) +
      l.countP (fun b => decide (2 ≤ d b)) = l.length := by
  induction l with
  | nil => rfl
  | cons a l ih =>
    rw [List.countP_cons, List.countP_cons, List.countP_cons, List.length_cons]
    by_cases h0 : d a = 0
    · simp only [h0]
      norm_num
      omega
    · by_cases h1 : d a = 1
      · simp only [h1, beq_eq_false_iff_ne.mpr h0]
        norm_num
        omega
      · have h2 : 2 ≤ d a := by omega
        simp only [beq_eq_false_iff_ne.mpr h0, beq_eq_false_iff_ne.mpr h1,
          decide_eq_true h2]
        norm_num
        omega

theorem countP_le_one_split (l : List Nat) (d : Nat → Nat) :
    l.countP (fun b => decide (d b ≤ 1)) =
      l.countP (fun b => d b == 0) + l.countP (fun b => d b == 1) := by
  induction l with
  | nil => rfl
  | cons a l ih =>
    rw [List.countP_cons, List.countP_cons, List.countP_cons]
    by_cases h0 : d a = 0
    · simp only [h0]
      norm_num
      omega
    · by_cases h1 : d a = 1
      · simp only [h1, beq_eq_false_iff_ne.mpr h0]
        norm_num
        omega
      · simp only [beq_eq_false_iff_ne.mpr h0, beq_eq_false_iff_ne.mpr h1,
          decide_eq_false (by omega : ¬d a ≤ 1)]
        norm_num
        omega

/-- The enhanced-filter decision for a true match: with every bucket width
at least 3 and the per-bucket slice distances summing to at most `r`, the
candidate's code list is nonempty and survives the filter. -/
theorem codes_filter_decision {B r : Nat} (hBdef : (r + 3) / 2 = B)
    (d w : Nat → Nat) (hw3 : ∀ b ∈ List.range B, 3 ≤ w b)
    (hD : ((List.range B).map d).sum ≤ r) :
    ((List.range B).filter (fun b =>
        (if d b = 0 then w b else if d b = 1 then 1 else 0) != 0)).map
      (fun b => candCode (if d b = 0 then w b else if d b = 1 then 1 else 0)) ≠
        [] ∧
    enhancedFilter r (((List.range B).filter (fun b =>
        (if d b = 0 then w b else if d b = 1 then 1 else 0) != 0)).map
      (fun b => candCode (if d b = 0 then w b else if d b = 1 then 1 else 0))) =
        false := by
  have hfilter : (List.range B).filter (fun b =>
      (if d b = 0 then w b else if d b = 1 then 1 else 0) != 0) =
      (List.range B).filter (fun b => decide (d b ≤ 1)) := by
    apply List.filter_congr
    intro b hb
    have hwb := hw3 b hb
    by_cases h0 : d b = 0
    · simp [h0, decide_eq_true (show d b ≤ 1 by omega),
        bne_iff_ne, show w b ≠ 0 by omega]
    · by_cases h1 : d b = 1
      · simp [h0, h1]
      · simp [h0, h1, decide_eq_false (show ¬d b ≤ 1 by omega)]
  have hmapf : ((List.range B).filter (fun b => decide (d b ≤ 1))).map
      (fun b => candCode (if d b = 0 then w b else if d b = 1 then 1 else 0)) =
      ((List.range B).filter (fun b => decide (d b ≤ 1))).map
      (fun b => if d b = 0 then 0 else 1) := by
    apply List.map_congr_left
    intro b hb
    rw [List.mem_filter] at hb
    have hwb := hw3 b hb.1
    by_cases h0 : d b = 0
    · rw [if_pos h0, if_pos h0, candCode, if_pos (by omega)]
    · have h1 : d b = 1 := by
        have := hb.2
        simp at this
        omega
      rw [if_neg h0, if_pos h1, if_neg h0, candCode, if_neg (by omega)]
  rw [hfilter, hmapf]
  have hlen : (((List.range B).filter (fun b => decide (d b ≤ 1))).map
      (fun b => if d b = 0 then 0 else 1)).length =
      (List.range B).countP (fun b => d b == 0) +
        (List.range B).countP (fun b => d b == 1) := by
    rw [List.length_map, ← List.countP_eq_length_filter, countP_le_one_split]
  have hcount0 : (((List.range B).filter (fun b => decide (d b ≤ 1))).map
      (fun b => if d b = 0 then 0 else 1)).count 0 =
      (List.range B).countP (fun b => d b == 0) := by
    rw [count_map_eq, List.countP_filter]
    apply List.countP_congr
    intro b _
    by_cases h0 : d b = 0
    · simp [h0]
    · by_cases h1 : d b = 1
      · simp [h0, h1]
      · simp [h0, decide_eq_false (show ¬d b ≤ 1 by omega)]
  have hcount1 : (((List.range B).filter (fun b => decide (d b ≤ 1))).map
      (fun b => if d b = 0 then 0 else 1)).count 1 =
      (List.range B).countP (fun b => d b == 1) := by
    rw [count_map_eq, List.countP_filter]
    apply List.countP_congr
    intro b _
    by_cases h0 : d b = 0
    · simp [h0]
    · by_cases h1 : d b = 1
      · simp [h0, h1]
      · simp [h0, h1, decide_eq_false (show ¬d b ≤ 1 by omega)]
  have hsplit := countP_three_split (List.range B) d
  rw [List.length_range] at hsplit
  have hge2 : (List.range B).countP (fun b => d b == 1) +
      2 * (List.range B).countP (fun b => decide (2 ≤ d b)) ≤ r :=
    le_trans (sum_ge_classified (List.range B) d) hD
  constructor
  · intro hc
    rw [hc] at hlen
    simp at hlen
    omega
  · by_contra henh
    rw [Bool.not_eq_false, enhancedFilter_spec] at henh
    by_cases hrp : r % 2 = 0
    · rw [if_pos hrp] at henh
      have hL1 : (List.range B).countP (fun b => d b == 0) +
          (List.range B).countP (fun b => d b == 1) = 1 := by
        rw [← hlen, henh]
        rfl
      have hz0 : (List.range B).countP (fun b => d b == 0) = 0 := by
        rw [← hcount0, henh]
        rfl
      omega
    · rw [if_neg hrp] at henh
      rcases henh with hl | he
      · rw [hlen] at hl
        omega
      · have hz0 : (List.range B).countP (fun b => d b == 0) = 0 := by
          rw [← hcount0, he]
          rfl
        have ho2 : (List.range B).countP (fun b => d b == 1) = 2 := by
          rw [← hcount1, he]
          rfl
        omega

/-- Claim C1 (amended): soundness of `hm_index::search` holds when every
bucket is at least 3 symbols wide (3·B ≤ L), so that the strong-match test
`count > 2` can recognise an exact bucket match; for narrower buckets the
claim is false (see the counterexample).  Under the amended hypotheses the
sink receives exactly the ids within Hamming distance `r` of the query. -/
theorem C1_soundness {keys : List (List Nat)} {L σ r : Nat} {idx : HmIndex}
    {query : List Nat}
    (hbuild : hmBuild keys L σ (get_proper_buckets r) = Except.ok idx)
    (hwid : 3 * get_proper_buckets r ≤ L)
    (hkeys : keys ≠ [])
    (hklen : ∀ k ∈ keys, k.length = L)
    (hksym : ∀ k ∈ keys, ∀ a ∈ k, a < σ)
    (hqlen : query.length = L)
    (hqsym : ∀ a ∈ query, a < σ)
    (hσ32 : σ < 2 ^ 32) :
    ∃ out cnt, hmSearch idx query r = some (out, cnt) ∧
      ∀ i, i ∈ out ↔ i < keys.length ∧ hamming (keys.getD i []) query ≤ r := by
  obtain ⟨B, hBdef⟩ : ∃ B, get_proper_buckets r = B := ⟨_, rfl⟩
  rw [hBdef] at hbuild hwid
  have hBr : (r + 3) / 2 = B := hBdef
  have hB0 : 0 < B := by omega
  have hL0 : 0 < L := by omega
  obtain ⟨hL64, odvs, hodvs, hidx⟩ := hmBuild_ok hbuild
  have hfb : idx.m_buckets = B := by rw [hidx]
  have hfbegs : idx.m_bucket_begs = bucketBegs L B := by rw [hidx]
  have hfodvs : idx.m_odv_indexes = odvs := by rw [hidx]
  have hflen : idx.m_length = L := by rw [hidx]
  have hfvl : idx.m_vertical_levels = bits_hi σ + 1 := by rw [hidx]
  have hfvk : idx.m_vertical_keys = (keys.map (fun k =>
      (List.range (bits_hi σ + 1)).map
        (fun j => make_vertical_code k L j))).flatten := by
    rw [hidx]
  have hbegle : ∀ b, b ≤ B → (bucketBegs L B).getD b 0 ≤ L := by
    intro b hb
    obtain ⟨c, hc⟩ : ∃ c, B = b + c := ⟨B - b, by omega⟩
    rw [bucketBegs_getD L B b hb]
    calc ((List.range b).map (fun x => (L + x) / B)).sum
        ≤ ((List.range b).map (fun x => (L + x) / B)).sum +
          (((List.range c).map (fun x => b + x)).map
            (fun x => (L + x) / B)).sum := by omega
      _ = ((List.range B).map (fun x => (L + x) / B)).sum := by
          rw [hc, List.range_add, List.map_append, List.sum_append]
      _ = L := sum_widths L B hB0
  have hw3 : ∀ b, b < B → 3 ≤ (L + b) / B := by
    intro b hb
    rw [Nat.le_div_iff_mul_le hB0]
    omega
  have hob : ∀ b, b < B →
      odvBuild (keys.map (fun k => k.drop ((bucketBegs L B).getD b 0)))
        ((L + b) / B) σ = Except.ok (odvs.getD b defaultOdv) := by
    intro b hb
    have h1 := (buildOdvs_ok hodvs).2 b (by simpa using hb)
    rw [range_getD hb] at h1
    rwa [bucketBegs_width L B b hb] at h1
  have hkdlen : ∀ b, b < B → ∀ k' ∈ keys.map (fun k =>
      k.drop ((bucketBegs L B).getD b 0)), (L + b) / B ≤ k'.length := by
    intro b hb k' hk'
    rw [List.mem_map] at hk'
    obtain ⟨k, hk, rfl⟩ := hk'
    rw [List.length_drop, hklen k hk]
    have hsucc := bucketBegs_succ L B b hb
    have hle := hbegle (b + 1) (by omega)
    omega
  have hemit : ∀ b, b < B → ∃ e, bucketEmits idx query b = some e ∧
      ∀ i, e.count i = if i < keys.length then
        crossMatches ((keys.getD i []).drop ((bucketBegs L B).getD b 0))
          (query.drop ((bucketBegs L B).getD b 0)) ((L + b) / B) σ
        else 0 := by
    intro b hb
    obtain ⟨khead, ktl, hkk⟩ : ∃ k t, keys = k :: t := by
      cases keys with
      | nil => exact absurd rfl hkeys
      | cons k t => exact ⟨k, t, rfl⟩
    have hk0mem : khead.drop ((bucketBegs L B).getD b 0) ∈
        keys.map (fun k => k.drop ((bucketBegs L B).getD b 0)) := by
      rw [hkk, List.map_cons]
      exact List.mem_cons_self _ _
    have hsym0 : ∀ a ∈ (khead.drop ((bucketBegs L B).getD b 0)).take
        ((L + b) / B), a < σ := by
      intro a ha
      exact hksym khead (by rw [hkk]; exact List.mem_cons_self _ _) a
        (List.mem_of_mem_drop (List.mem_of_mem_take ha))
    obtain ⟨e, he, hc⟩ := odv_emits_count (hob b hb)
      (by have := hw3 b hb; omega) (hkdlen b hb) hk0mem hsym0
      (query.drop ((bucketBegs L B).getD b 0))
    refine ⟨e, ?_, fun i => ?_⟩
    · rw [bucketEmits, hfodvs, hfbegs]
      exact he
    · rw [hc i, List.length_map]
      by_cases hi : i < keys.length
      · rw [if_pos hi, if_pos hi]
        have hgd : (keys.map (fun k =>
            k.drop ((bucketBegs L B).getD b 0))).getD i [] =
            (keys.getD i []).drop ((bucketBegs L B).getD b 0) := by
          rw [List.getD_eq_getElem _ _ (by simpa using hi), List.getElem_map,
            List.getD_eq_getElem _ _ hi]
        rw [hgd]
      · rw [if_neg hi, if_neg hi]
  obtain ⟨E, hEdef⟩ : ∃ E, E = (List.range B).map
      (fun b => (bucketEmits idx query b).getD []) := ⟨_, rfl⟩
  have hEn : ∀ n, n < B → bucketEmits idx query n = some (E.getD n []) := by
    intro n hn
    obtain ⟨e, he, -⟩ := hemit n hn
    rw [he, hEdef, getD_map_range _ _ hn, he]
    rfl
  have hElen : E.length = B := by
    rw [hEdef]
    simp
  have hcountE : ∀ b, b < B → ∀ i,
      ((bucketEmits idx query b).getD []).count i = if i < keys.length then
        crossMatches ((keys.getD i []).drop ((bucketBegs L B).getD b 0))
          (query.drop ((bucketBegs L B).getD b 0)) ((L + b) / B) σ
        else 0 := by
    intro b hb i
    obtain ⟨e, he, hcex⟩ := hemit b hb
    rw [he]
    exact hcex i
  have hcond : ¬idx.m_buckets ≠ get_proper_buckets r := by
    rw [hfb, hBdef]
    simp
  refine ⟨((candOf E).filter (candKeep idx (vertQuery idx query) r)).map
      Prod.fst, (candOf E).countP (fun kv => !enhancedFilter r kv.2), ?_, ?_⟩
  · rw [hmSearch, if_neg hcond]
    apply option_bind_some.mpr
    refine ⟨candOf E, ?_, ?_⟩
    · exact foldlM_buckets_of idx query (List.range idx.m_buckets) [] E
        (by rw [hfb, hElen]; simp)
        (by
          rw [hfb]
          intro n hn
          rw [List.length_range] at hn
          rw [range_getD hn]
          exact hEn n hn)
    · simp only []
      rw [final_foldl]
      simp only [List.nil_append, Nat.zero_add]
      rfl
  · intro i
    rw [mem_filter_map_fst (candOf_nodup E), alookup_candOf]
    by_cases hiK : i < keys.length
    · have hkeyi : keys.getD i [] ∈ keys := by
        rw [List.getD_eq_getElem _ _ hiK]
        exact List.getElem_mem _
      have hkilen : (keys.getD i []).length = L := hklen _ hkeyi
      have hkisym : ∀ a ∈ keys.getD i [], a < σ := hksym _ hkeyi
      obtain ⟨d, hd⟩ : ∃ d : Nat → Nat, d = fun b =>
          hamming (((keys.getD i []).drop ((bucketBegs L B).getD b 0)).take
              ((L + b) / B))
            ((query.drop ((bucketBegs L B).getD b 0)).take ((L + b) / B)) :=
        ⟨_, rfl⟩
      have hdb : ∀ b, d b =
          hamming (((keys.getD i []).drop ((bucketBegs L B).getD b 0)).take
              ((L + b) / B))
            ((query.drop ((bucketBegs L B).getD b 0)).take ((L + b) / B)) := by
        intro b
        rw [hd]
      have hcnt2 : ∀ b, b < B → ((bucketEmits idx query b).getD []).count i =
          (if d b = 0 then (L + b) / B else if d b = 1 then 1 else 0) := by
        intro b hb
        rw [hcountE b hb i, if_pos hiK, hdb b]
        apply crossMatches_classify
        · rw [List.length_drop, hkilen]
          have hsucc := bucketBegs_succ L B b hb
          have hle := hbegle (b + 1) (by omega)
          omega
        · rw [List.length_drop, hqlen]
          have hsucc := bucketBegs_succ L B b hb
          have hle := hbegle (b + 1) (by omega)
          omega
        · intro a ha
          exact hkisym a (List.mem_of_mem_drop (List.mem_of_mem_take ha))
        · intro a ha
          exact hqsym a (List.mem_of_mem_drop (List.mem_of_mem_take ha))
      have hbcodes : bucketCodes E i =
          ((List.range B).filter (fun b =>
            (if d b = 0 then (L + b) / B else if d b = 1 then 1 else 0) !=
              0)).map
          (fun b => candCode
            (if d b = 0 then (L + b) / B else if d b = 1 then 1 else 0)) := by
        rw [hEdef, bucketCodes_map]
        rw [List.filter_congr (fun b hb => by
          rw [hcnt2 b (List.mem_range.mp hb)])]
        apply List.map_congr_left
        intro b hb
        rw [List.mem_filter] at hb
        rw [hcnt2 b (List.mem_range.mp hb.1)]
      have hdecomp : hamming (keys.getD i []) query =
          ((List.range B).map d).sum := by
        have hws := hamming_chunks ((List.range B).map (fun b => (L + b) / B))
          (keys.getD i []) query (by rw [hkilen, hqlen])
          (by rw [hkilen, sum_widths L B hB0])
        rw [hws, List.length_map, List.length_range]
        apply congrArg List.sum
        apply List.map_congr_left
        intro b hb
        have hbB := List.mem_range.mp hb
        have htake : (((List.range B).map (fun b => (L + b) / B)).take b).sum =
            (bucketBegs L B).getD b 0 := by
          rw [← List.map_take, List.take_range,
            bucketBegs_getD L B b (by omega), min_eq_left (by omega : b ≤ B)]
        have hgetd : ((List.range B).map (fun b => (L + b) / B)).getD b 0 =
            (L + b) / B := getD_map_range _ _ hbB
        rw [htake, hgetd, hdb b]
      have hvd := verifyDist_hamming (q := query) (i := i) (r := r) hfvk hfvl
        hflen hL64 hiK hkilen hqlen hkisym hqsym (by omega : σ < 2 ^ 64)
      constructor
      · rintro ⟨v, hv, hkeep⟩
        refine ⟨hiK, ?_⟩
        rw [candKeep, Bool.and_eq_true, decide_eq_true_eq] at hkeep
        exact hvd.mp hkeep.2
      · rintro ⟨-, hham⟩
        have hDsum : ((List.range B).map d).sum ≤ r := by
          rw [← hdecomp]
          exact hham
        have hdec := codes_filter_decision hBr d (fun b => (L + b) / B)
          (fun b hb => hw3 b (List.mem_range.mp hb)) hDsum
        have hne : bucketCodes E i ≠ [] := by
          rw [hbcodes]
          exact hdec.1
        refine ⟨bucketCodes E i, by rw [if_neg hne], ?_⟩
        rw [candKeep, Bool.and_eq_true]
        constructor
        · show (!enhancedFilter r (i, bucketCodes E i).2) = true
          have hff : enhancedFilter r (bucketCodes E i) = false := by
            rw [hbcodes]
            exact hdec.2
          rw [show (i, bucketCodes E i).2 = bucketCodes E i from rfl, hff]
          rfl
        · rw [decide_eq_true_eq]
          exact hvd.mpr hham
    · have hbcnil : bucketCodes E i = [] := by
        rw [hEdef, bucketCodes_map]
        have hfnil : (List.range B).filter (fun b =>
            ((bucketEmits idx query b).getD []).count i != 0) = [] := by
          rw [List.filter_eq_nil_iff]
          intro b hb
          rw [hcountE b (List.mem_range.mp hb) i, if_neg hiK]
          simp
        rw [hfnil]
        rfl
      constructor
      · rintro ⟨v, hv, -⟩
        rw [hbcnil] at hv
        simp at hv
      · rintro ⟨h1, -⟩
        exact absurd h1 hiK

/-- The original soundness claim is false for narrow buckets: with L = 2,
B = proper_buckets(1) = 2 (bucket width 1), the single key [0, 0] at
Hamming distance 0 from the query is silently dropped by the enhanced
filter (each width-1 bucket matches exactly once, giving the code list
[1, 1], which the odd-radius filter discards), so the search returns the
empty set instead of {0}. -/
theorem C1_counterexample :
    ∃ idx, hmBuild [[0, 0]] 2 1 (get_proper_buckets 1) = Except.ok idx ∧
      hmSearch idx [0, 0] 1 = some ([], 0) ∧
      hamming (([[0, 0]] : List (List Nat)).getD 0 []) [0, 0] ≤ 1 ∧
      (0 : Nat) < ([[0, 0]] : List (List Nat)).length :=
  ⟨(hmBuild [[0, 0]] 2 1 (get_proper_buckets 1)).toOption.getD defaultHm,
    rfl, by decide, by decide, by decide⟩

theorem C1_soundness_witness :
    ∃ out cnt, hmSearch ((hmBuild [[0, 0, 0, 0, 0, 0], [1, 1, 1, 0, 0, 0]] 6 2
        (get_proper_buckets 1)).toOption.getD defaultHm) [0, 0, 0, 0, 0, 0] 1 =
          some (out, cnt) ∧
      ∀ i, i ∈ out ↔
        i < ([[0, 0, 0, 0, 0, 0], [1, 1, 1, 0, 0, 0]] : List (List Nat)).length ∧
        hamming (([[0, 0, 0, 0, 0, 0], [1, 1, 1, 0, 0, 0]] :
          List (List Nat)).getD i []) [0, 0, 0, 0, 0, 0] ≤ 1 :=
  @C1_soundness [[0, 0, 0, 0, 0, 0], [1, 1, 1, 0, 0, 0]] 6 2 1
    ((hmBuild [[0, 0, 0, 0, 0, 0], [1, 1, 1, 0, 0, 0]] 6 2
      (get_proper_buckets 1)).toOption.getD defaultHm)
    [0, 0, 0, 0, 0, 0] rfl (by decide) (by decide) (by decide) (by decide)
    (by decide) (by decide) (by decide)
